import Mathlib

/-!
# GLPhase: the stochastic estimation engine of `insti.cpp`

A shallow embedding of the roulette-wheel selection `Insti::RWSelection`, of the
penalty schedule of the estimation loops and of the Metropolis sampler
`Insti::solve`, with theorems about them.

Conventions of the embedding:

* `fast` (float) and `double` values are exact rationals (`ℚ`); `exp` is a
  function handed to the model;
* `uint` values are natural numbers;
* assertions are compiled in: an `assert` that fails is a fatal result, kept
  apart from every index that the function can return;
* the collaborators that live outside `insti.cpp` (random generator,
  relationship graph, likelihood oracle) are functions on an explicit world
  state, and every call to one of them is recorded in a trace.
-/

namespace Insti

/-! ## Roulette-wheel selection -/

/-- The ways `Insti::RWSelection` can end without returning an index: one
constructor per `assert` of the function, and the read past the end of the
chain vector. -/
inductive Fatal where
  /-- `assert(dTotalProb > 0)` -/
  | totalNotPositive
  /-- `assert(dTotalProb < std::numeric_limits<double>::max())` -/
  | totalNotFinite
  /-- `assert(dStopPoint > 0)` -/
  | stopPointNotPositive
  /-- `rvcChains[iChainIndex]` past the end, or `assert(iChainIndex < size)` -/
  | indexOutOfRange
  deriving DecidableEq, Repr

/-- The value of `std::numeric_limits<double>::max()`, that is
`(2 - 2^(-52)) * 2^1023`. -/
def dblMax : ℚ := 2 ^ 1024 - 2 ^ 971

/-- The first loop of `RWSelection`: `dTotalProb` starts at `0` and every chain
adds its `getSelection()` to it, in population order. -/
def totalProb (ws : List ℚ) : ℚ :=
  ws.foldl (fun dTotalProb w => dTotalProb + w) 0

/-- The `do ... while` loop of `RWSelection`, on the chains from index
`iChainIndex` on: subtract the weight of the chain at `iChainIndex`; go on with
the next index while the remainder is positive (`++iChainIndex` is never `0`).
Reading a chain that does not exist gives `none`. -/
def rwScan : List ℚ → ℚ → Nat → Option Nat
  | [], _, _ => none
  | w :: rest, dStopPoint, iChainIndex =>
    if dStopPoint - w > 0 then rwScan rest (dStopPoint - w) (iChainIndex + 1)
    else some iChainIndex

/-- `Insti::RWSelection` on the selection weights of the chains (what
`getSelection()` returns for each chain, in population order) and the uniform
deviate `u` that `gsl_rng_uniform` hands out. The assertion
`iChainIndex >= 0` holds for every natural number and has no test of its own. -/
def RWSelection (ws : List ℚ) (u : ℚ) : Except Fatal Nat :=
  let dTotalProb := totalProb ws
  if ¬ (dTotalProb > 0) then .error .totalNotPositive
  else if ¬ (dTotalProb < dblMax) then .error .totalNotFinite
  else
    let dStopPoint := u * dTotalProb
    if ¬ (dStopPoint > 0) then .error .stopPointNotPositive
    else
      match rwScan ws dStopPoint 0 with
      | none => .error .indexOutOfRange
      | some iChainIndex =>
        if iChainIndex < ws.length then .ok iChainIndex
        else .error .indexOutOfRange

/-- Cumulative weight of the first `k` entities, `w_0 + ... + w_(k-1)`. -/
def cumWeight (ws : List ℚ) (k : Nat) : ℚ := (ws.take k).sum

/-! ## Penalty schedule -/

/-- The penalty of generation `n` with burn-in length `bn`, as computed at the
head of the generation loop of `estimate`, `estimate_EMC` and `estimate_AMH`:
`pen = min<fast>(2 * (n + 1.0f) / bn, 1); pen *= pen`. The division is the exact
one of `ℚ`; it stands for the floating-point division for `bn > 0` only. -/
def pen (bn n : Nat) : ℚ :=
  let pen : ℚ := min (2 * ((n : ℚ) + 1) / (bn : ℚ)) 1
  pen * pen

/-! ## The Metropolis sampler `Insti::solve` -/

/-- The four parent haplotype indices, `uint p[4]`. -/
abbrev Parents := Fin 4 → Nat

/-- The lines `solve` hands to `WriteToLog`. -/
inductive LogLine where
  /-- `"##iteration\tindividual\tproposal"` -/
  | header
  /-- `m_nIteration << "\t" << I << "\t" << prop` -/
  | accepted (m_nIteration I : Nat) (prop : ℚ)
  deriving DecidableEq

/-- The calls `solve` makes on its collaborators, with their arguments. -/
inductive Call where
  | WriteToLog (line : LogLine)
  | SampleHap (I : Nat) (refOnly : Bool)
  | hmm_like (I : Nat) (p : Parents)
  | gsl_rng_get
  | gsl_rng_uniform
  | UpdateGraph (p : Parents) (bAccepted : Bool) (I : Nat) (pen : ℚ)
  | hmm_work (I : Nat) (p : Parents) (pen : ℚ)
  deriving DecidableEq

/-- Modelled from the spec: the default value of the third argument of
`RelationshipGraph::SampleHap`, whose declaration is not part of the sources;
the interface is given as `SampleHaplotype(individual, rng, referenceOnly: bool
= false)`. -/
def SampleHap_default : Bool := false

/-- The collaborators of `solve`, none of which is defined in `insti.cpp`: the
random generator `rng`, the relationship graph `oRelGraph`, the likelihood
oracle `hmm_like`, the commit `hmm_work` and `exp`. Each is a function on a
world state `W` that holds whatever they read and write (generator state, graph,
haplotype buffers). `SampleHap I refOnly` is `oRelGraph.SampleHap(I, rng,
refOnly)`; the two-argument call passes `SampleHap_default`. The parent array
handed to `hmm_like`, `UpdateGraph` and `hmm_work` is only read by them. -/
structure World (W : Type) where
  gsl_rng_get : W → Nat × W
  gsl_rng_uniform : W → ℚ × W
  SampleHap : Nat → Bool → W → Nat × W
  UpdateGraph : Parents → Bool → Nat → ℚ → W → W
  hmm_like : Nat → Parents → W → ℚ × W
  hmm_work : Nat → Parents → ℚ → W → W
  exp : ℚ → ℚ

/-- The local variables of `solve` between two steps of its loop, the world and
the calls made so far (oldest first). -/
structure SolveState (W : Type) where
  p : Parents
  curr : ℚ
  world : W
  calls : List Call

/-- The slot `gsl_rng_get(rng) & 3`. -/
def slot (r : Nat) : Fin 4 :=
  ⟨r &&& 3, Nat.lt_succ_of_le Nat.and_le_right⟩

/-- What a step of `solve` has computed when it reaches the acceptance test. -/
structure Proposed (W : Type) where
  rp : Fin 4
  oh : Nat
  refOnly : Bool
  p : Parents
  prop : ℚ
  world : W

/-- The first half of the loop body of `solve`: pick the slot `rp`, remember its
haplotype `oh`, sample the replacement (from the reference panel only when
`s_bKickStartFromRef && n == 0`) and evaluate the proposal. -/
def solvePropose {W : Type} (c : World W) (s_bKickStartFromRef : Bool) (I n : Nat)
    (s : SolveState W) : Proposed W :=
  let g := c.gsl_rng_get s.world
  let rp := slot g.1
  let oh := s.p rp
  let h :=
    if s_bKickStartFromRef && n == 0 then (true, c.SampleHap I true g.2)
    else (SampleHap_default, c.SampleHap I SampleHap_default g.2)
  let p := Function.update s.p rp h.2.1
  let l := c.hmm_like I p h.2.2
  { rp := rp, oh := oh, refOnly := h.1, p := p, prop := l.1, world := l.2 }

/-- The acceptance test
`prop > curr || gsl_rng_uniform(rng) < exp((prop - curr) * pen)`: its value, the
world after it and the calls it made. The deviate is drawn only when the first
operand is false. -/
def solveTest {W : Type} (c : World W) (curr prop pen : ℚ) (w : W) :
    Bool × W × List Call :=
  if prop > curr then (true, w, [])
  else
    let g := c.gsl_rng_uniform w
    (decide (g.1 < c.exp ((prop - curr) * pen)), g.2, [Call.gsl_rng_uniform])

/-- The flag `bAccepted` of the step taken from state `s`. -/
def solveAccepted {W : Type} (c : World W) (s_bKickStartFromRef : Bool) (I : Nat)
    (pen : ℚ) (n : Nat) (s : SolveState W) : Bool :=
  let q := solvePropose c s_bKickStartFromRef I n s
  (solveTest c s.curr q.prop pen q.world).1

/-- One pass through the loop body of `solve`, for loop counter `n`. -/
def solveStep {W : Type} (c : World W) (s_bKickStartFromRef : Bool)
    (m_nIteration I : Nat) (pen : ℚ) (n : Nat) (s : SolveState W) : SolveState W :=
  let q := solvePropose c s_bKickStartFromRef I n s
  let t := solveTest c s.curr q.prop pen q.world
  let bAccepted := t.1
  let curr := if bAccepted then q.prop else s.curr
  let p := if bAccepted then q.p else Function.update q.p q.rp q.oh
  { p := p
    curr := curr
    world := c.UpdateGraph p bAccepted I pen t.2.1
    calls := s.calls
      ++ [Call.gsl_rng_get, Call.SampleHap I q.refOnly, Call.hmm_like I q.p]
      ++ t.2.2
      ++ [Call.UpdateGraph p bAccepted I pen]
      ++ (if bAccepted then [Call.WriteToLog (LogLine.accepted m_nIteration I q.prop)]
          else []) }

/-- The part of `solve` before the loop: write the log header, sample the four
parents in the order `p[0]`, ..., `p[3]` and evaluate them. -/
def solveInit {W : Type} (c : World W) (I : Nat) (w : W) : SolveState W :=
  let a0 := c.SampleHap I SampleHap_default w
  let a1 := c.SampleHap I SampleHap_default a0.2
  let a2 := c.SampleHap I SampleHap_default a1.2
  let a3 := c.SampleHap I SampleHap_default a2.2
  let p : Parents := ![a0.1, a1.1, a2.1, a3.1]
  let l := c.hmm_like I p a3.2
  { p := p
    curr := l.1
    world := l.2
    calls := [Call.WriteToLog LogLine.header, Call.SampleHap I SampleHap_default,
      Call.SampleHap I SampleHap_default, Call.SampleHap I SampleHap_default,
      Call.SampleHap I SampleHap_default, Call.hmm_like I p] }

/-- The loop `for (uint n = 0; n < N; n++)` of `solve`, from state `s`. -/
def solveLoop {W : Type} (c : World W) (s_bKickStartFromRef : Bool)
    (m_nIteration I : Nat) (pen : ℚ) (N : Nat) (s : SolveState W) : SolveState W :=
  (List.range N).foldl
    (fun st n => solveStep c s_bKickStartFromRef m_nIteration I pen n st) s

/-- What `solve` leaves behind: the returned likelihood, the world and the calls
made, in order. -/
structure SolveResult (W : Type) where
  ret : ℚ
  world : W
  calls : List Call

/-- `Insti::solve(I, N, pen, oRelGraph)`, run in world `w` with the static flag
`s_bKickStartFromRef` and the member `m_nIteration`. -/
def solve {W : Type} (c : World W) (s_bKickStartFromRef : Bool)
    (m_nIteration I N : Nat) (pen : ℚ) (w : W) : SolveResult W :=
  let s := solveLoop c s_bKickStartFromRef m_nIteration I pen N (solveInit c I w)
  { ret := s.curr
    world := c.hmm_work I s.p pen s.world
    calls := s.calls ++ [Call.hmm_work I s.p pen] }

/-- The flags carried by the `UpdateGraph` calls of a call sequence, in order. -/
def updateFlags : List Call → List Bool
  | [] => []
  | Call.UpdateGraph _ bAccepted _ _ :: rest => bAccepted :: updateFlags rest
  | _ :: rest => updateFlags rest

/-- The configurations committed by the `hmm_work` calls of a call sequence. -/
def committed : List Call → List (Nat × Parents × ℚ)
  | [] => []
  | Call.hmm_work I p pen :: rest => (I, p, pen) :: committed rest
  | _ :: rest => committed rest

/-- A world for trying the sampler out: the state is a counter that every draw
advances. The generator returns the counter and the deviate `1/2`; `SampleHap`
returns the counter plus ten, or the counter modulo four when restricted to the
reference panel; the oracle is the sum of the four parents; `exp` is a step
function, `1/4` on negative arguments and `1` elsewhere. -/
def counterWorld : World Nat where
  gsl_rng_get := fun w => (w, w + 1)
  gsl_rng_uniform := fun w => (1 / 2, w + 1)
  SampleHap := fun _ refOnly w => (if refOnly then w % 4 else w + 10, w + 1)
  UpdateGraph := fun _ _ _ _ w => w
  hmm_like := fun _ p w => (((p 0 + p 1 + p 2 + p 3 : Nat) : ℚ), w)
  hmm_work := fun _ _ _ w => w
  exp := fun x => if x < 0 then 1 / 4 else 1

/-! ## The evolutionary sampler `Insti::solve_EMC`

The calls to `WriteToLog` and the `DEBUG_MSG` macros of `solve_EMC` are left
out: they read the chains and touch neither them, the hierarchy nor the
generator. Every `do ... while` loop runs for at most `fuel` passes. -/

/-- Modelled from the spec: the class `EMCChain`, whose declaration is not part
of the sources. A chain is "temperature, selection-temperature, four parent
haplotype indices, current likelihood, chain identifier, owning individual
index"; `m_uHapNum` is the further member that `solve_EMC` reads. -/
structure EMCChain where
  m_fTemp : ℚ
  m_fSelectTemp : ℚ
  m_uI : Nat
  m_uHapNum : Nat
  m_uChainID : Nat
  m_auParents : Parents
  m_fCurr : ℚ

/-- Equality of chains is decided member by member. -/
instance instDecidableEqEMCChain : DecidableEq EMCChain := fun a b =>
  decidable_of_iff
    (a.m_fTemp = b.m_fTemp ∧ a.m_fSelectTemp = b.m_fSelectTemp ∧ a.m_uI = b.m_uI ∧
      a.m_uHapNum = b.m_uHapNum ∧ a.m_uChainID = b.m_uChainID ∧
      a.m_auParents = b.m_auParents ∧ a.m_fCurr = b.m_fCurr)
    ⟨fun h => by
        cases a; cases b
        simp only [EMCChain.mk.injEq]
        exact h,
      fun h => by subst h; exact ⟨rfl, rfl, rfl, rfl, rfl, rfl, rfl⟩⟩

namespace EMCChain

/-- Modelled from the spec: the constructor `EMCChain(fTemp, fSelectTemp, uI,
uIndNumber, uID)` of the missing class; what it stores in `m_uHapNum` is handed
in as `uHapNum`. Parents and likelihood are written by `solve_EMC` before it
reads them; they start at `0`. -/
def create (fTemp fSelectTemp : ℚ) (uI uHapNum uID : Nat) : EMCChain :=
  { m_fTemp := fTemp, m_fSelectTemp := fSelectTemp, m_uI := uI, m_uHapNum := uHapNum,
    m_uChainID := uID, m_auParents := fun _ => 0, m_fCurr := 0 }

/-- Modelled from the spec: `setParent(j, h)` of the missing class writes
parent slot `j`. -/
def setParent (ch : EMCChain) (j : Fin 4) (h : Nat) : EMCChain :=
  { ch with m_auParents := Function.update ch.m_auParents j h }

/-- Modelled from the spec: `getParent(j)` of the missing class reads parent
slot `j`. -/
def getParent (ch : EMCChain) (j : Fin 4) : Nat := ch.m_auParents j

/-- Modelled from the spec: `getParents()` of the missing class hands out the
four parents. -/
def getParents (ch : EMCChain) : Parents := ch.m_auParents

/-- Modelled from the spec: `setLike(l)` of the missing class writes the current
likelihood. -/
def setLike (ch : EMCChain) (l : ℚ) : EMCChain := { ch with m_fCurr := l }

/-- Modelled from the spec: `getLike()` of the missing class reads the current
likelihood. -/
def getLike (ch : EMCChain) : ℚ := ch.m_fCurr

/-- Modelled from the spec: `setTemp(t)` of the missing class writes the
temperature. -/
def setTemp (ch : EMCChain) (t : ℚ) : EMCChain := { ch with m_fTemp := t }

end EMCChain

/-- The statics and members of `Insti` that `solve_EMC` reads (`in_` is the
member `in`), with the two parts of the missing class `EMCChain` that the model
takes as parameters: `hapNumOf`, what the constructor stores in `m_uHapNum`
when handed the number of individuals, and `getSelection`, the selection score
of a chain. -/
structure EMCEnv where
  s_uParallelChains : Nat
  in_ : Nat
  hn : Nat
  hapNumOf : Nat → Nat
  getSelection : EMCChain → ℚ

/-- The free parameter `fMutationRate = 0.3f` of `solve_EMC`, the decimal read
exactly. -/
def fMutationRate : ℚ := 3 / 10

/-- The free parameter `fSelectTemp = 10000` of `solve_EMC`. -/
def fSelectTemp : ℚ := 10000

/-- The free parameter `fMaxTemp = Insti::s_uParallelChains` of `solve_EMC`. -/
def fMaxTemp (e : EMCEnv) : ℚ := (e.s_uParallelChains : ℚ)

/-- The ways the model of `solve_EMC` ends without a result. -/
inductive EMCStop where
  /-- an assertion of `RWSelection` failed -/
  | fatal (f : Fatal)
  /-- a vector was read past its end -/
  | outOfRange
  /-- a `do ... while` loop did not end within the fuel -/
  | noReturn
  deriving DecidableEq

/-- The population, the hierarchy and the world between two statements of
`solve_EMC`. -/
structure EMCState (W : Type) where
  vcChains : List EMCChain
  vuChainTempHierarchy : List Nat
  world : W

/-- Equality of states is decided member by member. -/
instance instDecidableEqEMCState {W : Type} [DecidableEq W] : DecidableEq (EMCState W) :=
  fun a b =>
    decidable_of_iff
      (a.vcChains = b.vcChains ∧ a.vuChainTempHierarchy = b.vuChainTempHierarchy ∧
        a.world = b.world)
      ⟨fun h => by
          cases a; cases b
          simp only [EMCState.mk.injEq]
          exact h,
        fun h => by subst h; exact ⟨rfl, rfl, rfl⟩⟩

/-- Equality of results is decidable, so that runs of the model on concrete
worlds can be compared by evaluation. -/
instance instDecidableEqExcept {ε α : Type} [DecidableEq ε] [DecidableEq α] :
    DecidableEq (Except ε α)
  | .ok a, .ok b =>
    if h : a = b then isTrue (by rw [h]) else isFalse (fun h2 => h (by injection h2))
  | .error a, .error b =>
    if h : a = b then isTrue (by rw [h]) else isFalse (fun h2 => h (by injection h2))
  | .ok _, .error _ => isFalse (fun h => by cases h)
  | .error _, .ok _ => isFalse (fun h => by cases h)

/-- The loop `do setParent(j, gsl_rng_get(rng) % m); while (getParent(j) / 2 ==
I)` on chain `ch`, as it stands in the set-up of the chains (with `m =
m_uHapNum` and `I = m_uI`) and in the mutation (with `m = hn`). The remainder is
the one of `ℕ`; it stands for the machine remainder for `m > 0` only. -/
def drawParent {W : Type} (c : World W) (m I : Nat) (j : Fin 4) :
    Nat → EMCChain → W → Except EMCStop (EMCChain × W)
  | 0, _, _ => .error .noReturn
  | fuel + 1, ch, w =>
    let g := c.gsl_rng_get w
    let ch1 := ch.setParent j (g.1 % m)
    if ch1.getParent j / 2 == I then drawParent c m I j fuel ch1 g.2
    else .ok (ch1, g.2)

/-- The body of the set-up loop of `solve_EMC` for chain `i`: construct the
chain with temperature `(i+1) * fMaxTemp / s_uParallelChains`, draw its four
parents in the order of the slots and set its likelihood. -/
def initChain {W : Type} (c : World W) (e : EMCEnv) (I i fuel : Nat) (w : W) :
    Except EMCStop (EMCChain × W) :=
  let ch := EMCChain.create (((i : ℚ) + 1) * fMaxTemp e / (e.s_uParallelChains : ℚ))
    fSelectTemp I (e.hapNumOf e.in_) i
  match drawParent c ch.m_uHapNum ch.m_uI 0 fuel ch w with
  | .error x => .error x
  | .ok r0 =>
    match drawParent c r0.1.m_uHapNum r0.1.m_uI 1 fuel r0.1 r0.2 with
    | .error x => .error x
    | .ok r1 =>
      match drawParent c r1.1.m_uHapNum r1.1.m_uI 2 fuel r1.1 r1.2 with
      | .error x => .error x
      | .ok r2 =>
        match drawParent c r2.1.m_uHapNum r2.1.m_uI 3 fuel r2.1 r2.2 with
        | .error x => .error x
        | .ok r3 =>
          let l := c.hmm_like r3.1.m_uI r3.1.getParents r3.2
          .ok (r3.1.setLike l.1, l.2)

/-- The set-up loop of `solve_EMC` after `k` passes: chains `0 .. k-1` pushed on
`vcChains`, their indices on `vuChainTempHierarchy`. -/
def emcInit {W : Type} (c : World W) (e : EMCEnv) (I fuel : Nat) :
    Nat → W → Except EMCStop (EMCState W)
  | 0, w => .ok { vcChains := [], vuChainTempHierarchy := [], world := w }
  | k + 1, w =>
    match emcInit c e I fuel k w with
    | .error x => .error x
    | .ok s =>
      match initChain c e I k fuel s.world with
      | .error x => .error x
      | .ok r =>
        .ok { vcChains := s.vcChains ++ [r.1]
              vuChainTempHierarchy := s.vuChainTempHierarchy ++ [k]
              world := r.2 }

/-- What the mutation of `solve_EMC` has computed when it reaches its
acceptance test: the chain index `j`, the likelihood `curr` of that chain, the
slot `rp` and its old haplotype `oh`, the chain with the proposed parent in
place, and the likelihood `prop` of the proposal. -/
structure Mutation (W : Type) where
  j : Nat
  curr : ℚ
  rp : Fin 4
  oh : Nat
  chain : EMCChain
  prop : ℚ
  world : W

/-- Equality of mutation records is decided member by member. -/
instance instDecidableEqMutation {W : Type} [DecidableEq W] : DecidableEq (Mutation W) :=
  fun a b =>
    decidable_of_iff
      (a.j = b.j ∧ a.curr = b.curr ∧ a.rp = b.rp ∧ a.oh = b.oh ∧ a.chain = b.chain ∧
        a.prop = b.prop ∧ a.world = b.world)
      ⟨fun h => by
          cases a; cases b
          simp only [Mutation.mk.injEq]
          exact h,
        fun h => by subst h; exact ⟨rfl, rfl, rfl, rfl, rfl, rfl, rfl⟩⟩

/-- The mutation up to its acceptance test. -/
def mutatePropose {W : Type} (c : World W) (e : EMCEnv) (I fuel : Nat)
    (s : EMCState W) : Except EMCStop (Mutation W) :=
  let g1 := c.gsl_rng_get s.world
  let j := g1.1 % e.s_uParallelChains
  match s.vcChains[j]? with
  | none => .error .outOfRange
  | some ch =>
    let curr := ch.getLike
    let g2 := c.gsl_rng_get g1.2
    let rp := slot g2.1
    let oh := ch.getParent rp
    match drawParent c e.hn I rp fuel ch g2.2 with
    | .error x => .error x
    | .ok r =>
      let l := c.hmm_like r.1.m_uI r.1.getParents r.2
      .ok { j := j, curr := curr, rp := rp, oh := oh, chain := r.1, prop := l.1,
            world := l.2 }

/-- The acceptance test of the mutation,
`prop > curr || gsl_rng_uniform(rng) < exp((curr - prop) / m_fTemp)`, with the
world after it. -/
def mutateTest {W : Type} (c : World W) (curr prop fTemp : ℚ) (w : W) : Bool × W :=
  if prop > curr then (true, w)
  else
    let g := c.gsl_rng_uniform w
    (decide (g.1 < c.exp ((curr - prop) / fTemp)), g.2)

/-- The end of the mutation: `setLike(prop)` on acceptance, `setParent(rp, oh)`
otherwise. -/
def mutateFinish {W : Type} (c : World W) (s : EMCState W) (m : Mutation W) :
    EMCState W :=
  let t := mutateTest c m.curr m.prop m.chain.m_fTemp m.world
  let ch := if t.1 then m.chain.setLike m.prop else m.chain.setParent m.rp m.oh
  { vcChains := s.vcChains.set m.j ch
    vuChainTempHierarchy := s.vuChainTempHierarchy
    world := t.2 }

/-- The mutation branch of an iteration of `solve_EMC`. -/
def mutate {W : Type} (c : World W) (e : EMCEnv) (I fuel : Nat) (s : EMCState W) :
    Except EMCStop (EMCState W) :=
  match mutatePropose c e I fuel s with
  | .error x => .error x
  | .ok m => .ok (mutateFinish c s m)

/-- The loop `do iSecondChain = gsl_rng_get(rng) % s_uParallelChains; while
(iSecondChain == iFirstChainIndex)`. -/
def secondChain {W : Type} (c : World W) (P iFirstChainIndex : Nat) :
    Nat → W → Except EMCStop (Nat × W)
  | 0, _ => .error .noReturn
  | fuel + 1, w =>
    let g := c.gsl_rng_get w
    let iSecondChain := g.1 % P
    if iSecondChain == iFirstChainIndex then secondChain c P iFirstChainIndex fuel g.2
    else .ok (iSecondChain, g.2)

/-- Modelled from the spec: the bit test `test(&cSelection, i)` of the base
class, which is not part of the sources: "for each of the 4 slots where the mask
bit is set". -/
def test (cSelection : Nat) (i : Fin 4) : Bool := cSelection.testBit i.val

/-- One pass of the loop over the slots in the crossover: exchange parent `i` of
the two chains when bit `i` of the mask is set. -/
def crossSlot (cSelection : Nat) (ab : EMCChain × EMCChain) (i : Fin 4) :
    EMCChain × EMCChain :=
  if test cSelection i then
    let oh := ab.1.getParent i
    (ab.1.setParent i (ab.2.getParent i), ab.2.setParent i oh)
  else ab

/-- The loop `for (uint i = 0; i < 4; i++)` of the crossover. -/
def crossParents (cSelection : Nat) (a b : EMCChain) : EMCChain × EMCChain :=
  ([0, 1, 2, 3] : List (Fin 4)).foldl (crossSlot cSelection) (a, b)

/-- What the crossover has computed when it reaches its acceptance test: the
two chain indices, the copies of the two chains taken before the exchange, and
the two chains after the exchange with their new likelihoods. -/
structure Crossing (W : Type) where
  iFirstChainIndex : Nat
  iSecondChain : Nat
  cFirstOrigChain : EMCChain
  cSecondOrigChain : EMCChain
  rcFirstChain : EMCChain
  rcSecondChain : EMCChain
  world : W

/-- Equality of crossover records is decided member by member. -/
instance instDecidableEqCrossing {W : Type} [DecidableEq W] : DecidableEq (Crossing W) :=
  fun a b =>
    decidable_of_iff
      (a.iFirstChainIndex = b.iFirstChainIndex ∧ a.iSecondChain = b.iSecondChain ∧
        a.cFirstOrigChain = b.cFirstOrigChain ∧ a.cSecondOrigChain = b.cSecondOrigChain ∧
        a.rcFirstChain = b.rcFirstChain ∧ a.rcSecondChain = b.rcSecondChain ∧
        a.world = b.world)
      ⟨fun h => by
          cases a; cases b
          simp only [Crossing.mk.injEq]
          exact h,
        fun h => by subst h; exact ⟨rfl, rfl, rfl, rfl, rfl, rfl, rfl⟩⟩

/-- The crossover up to its acceptance test. The first chain comes from
`RWSelection` on the selection scores, with the next uniform deviate. -/
def crossPropose {W : Type} (c : World W) (e : EMCEnv) (fuel : Nat) (s : EMCState W) :
    Except EMCStop (Crossing W) :=
  let g := c.gsl_rng_uniform s.world
  match RWSelection (s.vcChains.map e.getSelection) g.1 with
  | .error f => .error (.fatal f)
  | .ok iFirstChainIndex =>
    match secondChain c e.s_uParallelChains iFirstChainIndex fuel g.2 with
    | .error x => .error x
    | .ok r =>
      match s.vcChains[iFirstChainIndex]?, s.vcChains[r.1]? with
      | some cFirstOrigChain, some cSecondOrigChain =>
        let g2 := c.gsl_rng_get r.2
        let cSelection := g2.1 &&& 15
        let ab := crossParents cSelection cFirstOrigChain cSecondOrigChain
        let l1 := c.hmm_like ab.1.m_uI ab.1.getParents g2.2
        let l2 := c.hmm_like ab.2.m_uI ab.2.getParents l1.2
        .ok { iFirstChainIndex := iFirstChainIndex, iSecondChain := r.1,
              cFirstOrigChain := cFirstOrigChain, cSecondOrigChain := cSecondOrigChain,
              rcFirstChain := ab.1.setLike l1.1, rcSecondChain := ab.2.setLike l2.1,
              world := l2.2 }
      | _, _ => .error .outOfRange

/-- The acceptance test of the crossover, with the world after it. Both flags
are computed from the copies of the original chains, as in the source. -/
def crossTest {W : Type} (c : World W) (x : Crossing W) : Bool × W :=
  let bFirstOrigChainHigherLike :=
    decide (x.cFirstOrigChain.getLike > x.cSecondOrigChain.getLike)
  let bFirstChainHigherLike :=
    decide (x.cFirstOrigChain.getLike > x.cSecondOrigChain.getLike)
  let g := c.gsl_rng_uniform x.world
  if xor bFirstOrigChainHigherLike bFirstChainHigherLike then
    (decide (g.1 ≤ c.exp
      ((x.cSecondOrigChain.getLike - x.rcFirstChain.getLike) / x.cSecondOrigChain.m_fTemp
        + (x.cFirstOrigChain.getLike - x.rcSecondChain.getLike)
          / x.cFirstOrigChain.m_fTemp)), g.2)
  else
    (decide (g.1 ≤ c.exp
      ((x.cSecondOrigChain.getLike - x.rcSecondChain.getLike) / x.cSecondOrigChain.m_fTemp
        + (x.cFirstOrigChain.getLike - x.rcFirstChain.getLike)
          / x.cFirstOrigChain.m_fTemp)), g.2)

/-- The end of the crossover: the two chains of `vcChains` hold the crossed
chains; when the crossover is not accepted the two copies are assigned back. -/
def crossFinish {W : Type} (c : World W) (s : EMCState W) (x : Crossing W) :
    EMCState W :=
  let t := crossTest c x
  let crossed :=
    (s.vcChains.set x.iFirstChainIndex x.rcFirstChain).set x.iSecondChain x.rcSecondChain
  { vcChains :=
      if !t.1 then
        (crossed.set x.iFirstChainIndex x.cFirstOrigChain).set x.iSecondChain
          x.cSecondOrigChain
      else crossed
    vuChainTempHierarchy := s.vuChainTempHierarchy
    world := t.2 }

/-- The crossover branch of an iteration of `solve_EMC`. -/
def crossover {W : Type} (c : World W) (e : EMCEnv) (fuel : Nat) (s : EMCState W) :
    Except EMCStop (EMCState W) :=
  match crossPropose c e fuel s with
  | .error x => .error x
  | .ok x => .ok (crossFinish c s x)

/-- The choice of the second rank of an exchange attempt: the neighbour of
`uFirstChainIndex` in the hierarchy, drawn with one more `gsl_rng_get` for an
inner rank. -/
def exchangeSecond {W : Type} (c : World W) (P uFirstChainIndex : Nat) (w : W) :
    Nat × W :=
  if uFirstChainIndex == 0 then (uFirstChainIndex + 1, w)
  else if uFirstChainIndex == P - 1 then (P - 2, w)
  else
    let g := c.gsl_rng_get w
    if g.1 &&& 1 != 0 then (uFirstChainIndex - 1, g.2)
    else (uFirstChainIndex + 1, g.2)

/-- The acceptance probability of an exchange,
`min<fast>(exp((L1 - L2) * (1/T1 - 1/T2)), 1)`. -/
def exchangeProb {W : Type} (c : World W) (a b : EMCChain) : ℚ :=
  min (c.exp ((a.getLike - b.getLike) * (1 / a.m_fTemp - 1 / b.m_fTemp))) 1

/-- What an exchange attempt has computed when it reaches its test: the two
ranks, the two chain indices found in the hierarchy and the two chains. -/
structure Exchange (W : Type) where
  uFirstChainIndex : Nat
  uSecondChainIndex : Nat
  uFirstChainHierarchyIndex : Nat
  uSecondCHI : Nat
  first : EMCChain
  second : EMCChain
  world : W

/-- Equality of exchange records is decided member by member. -/
instance instDecidableEqExchange {W : Type} [DecidableEq W] : DecidableEq (Exchange W) :=
  fun a b =>
    decidable_of_iff
      (a.uFirstChainIndex = b.uFirstChainIndex ∧ a.uSecondChainIndex = b.uSecondChainIndex ∧
        a.uFirstChainHierarchyIndex = b.uFirstChainHierarchyIndex ∧
        a.uSecondCHI = b.uSecondCHI ∧ a.first = b.first ∧ a.second = b.second ∧
        a.world = b.world)
      ⟨fun h => by
          cases a; cases b
          simp only [Exchange.mk.injEq]
          exact h,
        fun h => by subst h; exact ⟨rfl, rfl, rfl, rfl, rfl, rfl, rfl⟩⟩

/-- An exchange attempt up to its test. -/
def exchangePropose {W : Type} (c : World W) (e : EMCEnv) (s : EMCState W) :
    Except EMCStop (Exchange W) :=
  let g := c.gsl_rng_get s.world
  let uFirstChainIndex := g.1 % e.s_uParallelChains
  match s.vuChainTempHierarchy[uFirstChainIndex]? with
  | none => .error .outOfRange
  | some uFirstChainHierarchyIndex =>
    let r := exchangeSecond c e.s_uParallelChains uFirstChainIndex g.2
    match s.vuChainTempHierarchy[r.1]? with
    | none => .error .outOfRange
    | some uSecondCHI =>
      match s.vcChains[uFirstChainHierarchyIndex]?, s.vcChains[uSecondCHI]? with
      | some a, some b =>
        .ok { uFirstChainIndex := uFirstChainIndex, uSecondChainIndex := r.1,
              uFirstChainHierarchyIndex := uFirstChainHierarchyIndex,
              uSecondCHI := uSecondCHI, first := a, second := b, world := r.2 }
      | _, _ => .error .outOfRange

/-- The test `gsl_rng_uniform(rng) < fAcceptProb` of an exchange attempt, with
the world after it. -/
def exchangeTest {W : Type} (c : World W) (x : Exchange W) : Bool × W :=
  let g := c.gsl_rng_uniform x.world
  (decide (g.1 < exchangeProb c x.first x.second), g.2)

/-- The temperatures after an accepted exchange: the first chain takes the
temperature of the second, then the second takes the temperature the first had
before. -/
def exchangeTemps (vcChains : List EMCChain) (x1 x2 : Nat) (a : EMCChain) :
    List EMCChain :=
  let fTemp := a.m_fTemp
  let chains1 :=
    match vcChains[x2]? with
    | some b => vcChains.set x1 (a.setTemp b.m_fTemp)
    | none => vcChains
  match chains1[x2]? with
  | some b1 => chains1.set x2 (b1.setTemp fTemp)
  | none => chains1

/-- The end of an exchange attempt: on acceptance the two temperatures and the
two hierarchy entries are exchanged and the counter goes up. -/
def exchangeFinish {W : Type} (c : World W) (s : EMCState W) (uNumExchanges : Nat)
    (x : Exchange W) : EMCState W × Nat :=
  let t := exchangeTest c x
  if t.1 then
    ({ vcChains :=
         exchangeTemps s.vcChains x.uFirstChainHierarchyIndex x.uSecondCHI x.first
       vuChainTempHierarchy :=
         (s.vuChainTempHierarchy.set x.uFirstChainIndex x.uSecondCHI).set
           x.uSecondChainIndex x.uFirstChainHierarchyIndex
       world := t.2 }, uNumExchanges + 1)
  else ({ s with world := t.2 }, uNumExchanges)

/-- One exchange attempt. -/
def exchangeOnce {W : Type} (c : World W) (e : EMCEnv) (s : EMCState W)
    (uNumExchanges : Nat) : Except EMCStop (EMCState W × Nat) :=
  match exchangePropose c e s with
  | .error x => .error x
  | .ok x => .ok (exchangeFinish c s uNumExchanges x)

/-- The exchange loop after `k` attempts, with the number of accepted ones. -/
def exchangeLoop {W : Type} (c : World W) (e : EMCEnv) :
    Nat → EMCState W → Except EMCStop (EMCState W × Nat)
  | 0, s => .ok (s, 0)
  | k + 1, s =>
    match exchangeLoop c e k s with
    | .error x => .error x
    | .ok r => exchangeOnce c e r.1 r.2

/-- The flag `bMutate = gsl_rng_uniform(rng) > fMutationRate` of an iteration
started in state `s`. -/
def bMutate {W : Type} (c : World W) (s : EMCState W) : Bool :=
  decide ((c.gsl_rng_uniform s.world).1 > fMutationRate)

/-- The operator of an iteration: mutation when `bMutate`, crossover
otherwise, from the world left by the draw of the deviate. -/
def emcOperator {W : Type} (c : World W) (e : EMCEnv) (I fuel : Nat) (s : EMCState W) :
    Except EMCStop (EMCState W) :=
  let s0 : EMCState W := { s with world := (c.gsl_rng_uniform s.world).2 }
  if bMutate c s then mutate c e I fuel s0 else crossover c e fuel s0

/-- One pass through the loop body of `solve_EMC`: the operator, then
`s_uParallelChains` exchange attempts. -/
def emcIteration {W : Type} (c : World W) (e : EMCEnv) (I fuel : Nat) (s : EMCState W) :
    Except EMCStop (EMCState W) :=
  match emcOperator c e I fuel s with
  | .error x => .error x
  | .ok s1 =>
    match exchangeLoop c e e.s_uParallelChains s1 with
    | .error x => .error x
    | .ok r => .ok r.1

/-- The loop `for (uint n = 0; n < N; n++)` of `solve_EMC` after `k` passes. -/
def emcLoop {W : Type} (c : World W) (e : EMCEnv) (I fuel : Nat) :
    Nat → EMCState W → Except EMCStop (EMCState W)
  | 0, s => .ok s
  | k + 1, s =>
    match emcLoop c e I fuel k s with
    | .error x => .error x
    | .ok s1 => emcIteration c e I fuel s1

/-- What `solve_EMC` leaves behind: the returned likelihood, the arguments of
its `hmm_work` call, the index of the chain selected at the end, the state
before the commit and the world after it. -/
structure EMCResult (W : Type) where
  ret : ℚ
  workI : Nat
  workParents : Parents
  workPen : ℚ
  iFirstChainIndex : Nat
  state : EMCState W
  world : W

/-- `Insti::solve_EMC(I, N, S)` run in world `w`: set up the chains, iterate `N`
times, select a chain with `RWSelection`, commit its parents with `hmm_work(I,
parents, S)` and return its likelihood. -/
def solve_EMC {W : Type} (c : World W) (e : EMCEnv) (I N : Nat) (S : ℚ) (fuel : Nat)
    (w : W) : Except EMCStop (EMCResult W) :=
  match emcInit c e I fuel e.s_uParallelChains w with
  | .error x => .error x
  | .ok s0 =>
    match emcLoop c e I fuel N s0 with
    | .error x => .error x
    | .ok s =>
      let g := c.gsl_rng_uniform s.world
      match RWSelection (s.vcChains.map e.getSelection) g.1 with
      | .error f => .error (.fatal f)
      | .ok iFirstChainIndex =>
        match s.vcChains[iFirstChainIndex]? with
        | none => .error .outOfRange
        | some rcFirstChain =>
          .ok { ret := rcFirstChain.getLike
                workI := I
                workParents := rcFirstChain.getParents
                workPen := S
                iFirstChainIndex := iFirstChainIndex
                state := s
                world := c.hmm_work I rcFirstChain.getParents S g.2 }

/-- The invariant of the chains of individual `I`: no parent of a chain is one
of the two haplotypes of `I`. -/
def ParentsOK (I : Nat) (vcChains : List EMCChain) : Prop :=
  ∀ ch ∈ vcChains, ∀ j : Fin 4, ch.getParent j / 2 ≠ I

/-- A population setting for trying the evolutionary sampler out: two chains,
four individuals with eight haplotypes, every chain with selection score `1`. -/
def emcEnv2 : EMCEnv where
  s_uParallelChains := 2
  in_ := 4
  hn := 8
  hapNumOf := fun n => 2 * n
  getSelection := fun _ => 1

/-- The first chain of the set-up in the counter world with `emcEnv2`, for
individual `0`. -/
def emcChainA : EMCChain :=
  { m_fTemp := 1, m_fSelectTemp := 10000, m_uI := 0, m_uHapNum := 8, m_uChainID := 0,
    m_auParents := ![2, 3, 4, 5], m_fCurr := 14 }

/-- The second chain of the set-up in the counter world with `emcEnv2`, for
individual `0`. -/
def emcChainB : EMCChain :=
  { m_fTemp := 2, m_fSelectTemp := 10000, m_uI := 0, m_uHapNum := 8, m_uChainID := 1,
    m_auParents := ![6, 7, 2, 3], m_fCurr := 18 }

/-- The state after the set-up in the counter world with `emcEnv2`, for
individual `0`, started at counter `0`. -/
def emcState2 : EMCState Nat :=
  { vcChains := [emcChainA, emcChainB], vuChainTempHierarchy := [0, 1], world := 12 }

/-- The state `emcState2` with the counter at `16`, from which the crossover
exchanges slot `1` of the two chains. -/
def emcState16 : EMCState Nat :=
  { vcChains := [emcChainA, emcChainB], vuChainTempHierarchy := [0, 1], world := 16 }

/-- A crossover record of the chains `emcChainA` and `emcChainB` with slot `1`
exchanged: likelihoods `14` and `18` before, `18` and `14` after, so that the
first chain is the lower one before and the higher one after. -/
def emcCrossingAt {W : Type} (w : W) : Crossing W :=
  { iFirstChainIndex := 0, iSecondChain := 1,
    cFirstOrigChain := emcChainA, cSecondOrigChain := emcChainB,
    rcFirstChain := { emcChainA with m_auParents := ![2, 7, 4, 5], m_fCurr := 18 },
    rcSecondChain := { emcChainB with m_auParents := ![6, 3, 2, 3], m_fCurr := 14 },
    world := w }

/-- The crossover record reached from `emcState16` in the counter world. -/
def emcCrossing16 : Crossing Nat := emcCrossingAt 19

/-- The mutation record reached from `emcState2` in the counter world, for
individual `0`: chain `0`, slot `1`, haplotype `3` replaced by `6`, likelihood
`17` after `14`. -/
def emcMutation12 : Mutation Nat :=
  { j := 0, curr := 14, rp := 1, oh := 3,
    chain := { emcChainA with m_auParents := ![2, 6, 4, 5] }, prop := 17, world := 15 }

/-- An exchange record with two chains of equal likelihood `14` and the
temperatures `1` and `2`. -/
def emcExchangeEqual : Exchange Nat :=
  { uFirstChainIndex := 0, uSecondChainIndex := 1, uFirstChainHierarchyIndex := 0,
    uSecondCHI := 1, first := emcChainA, second := { emcChainB with m_fCurr := 14 },
    world := 0 }

/-- The invariant of the likelihoods of the chains of individual `I`, for an
oracle whose value is `f` of the individual and the parents: every chain belongs
to `I` and stores the likelihood of its own parents. -/
def LikeOK (f : Nat → Parents → ℚ) (I : Nat) (vcChains : List EMCChain) : Prop :=
  ∀ ch ∈ vcChains, ch.m_uI = I ∧ ch.getLike = f I ch.getParents

/-- The invariant of the hierarchy for `P` chains: `P` chains, `P` ranks, and
the chain whose index stands at rank `r` holds the temperature `r + 1`, the
`r`-th smallest of the temperatures `1, ..., P` of the set-up. -/
def HierOK (P : Nat) (vcChains : List EMCChain) (vuChainTempHierarchy : List Nat) : Prop :=
  vcChains.length = P ∧ vuChainTempHierarchy.length = P ∧
    ∀ r, r < P → ∃ i ch, vuChainTempHierarchy[r]? = some i ∧ vcChains[i]? = some ch ∧
      ch.m_fTemp = (r : ℚ) + 1

/-! ## The estimation loops `estimate`, `estimate_EMC`, `estimate_AMH` -/

/-- The members the estimation loops read: the number of individuals `in`, the
number of haplotypes `hn`, the number of reference haplotypes, the lengths `bn`
and `sn` of the burn-in and of the sampling, the number of cycles per individual
and the static kick-start flag. `in`, `hn`, `bn` and `sn` are declared outside
these sources; they are natural numbers here and the loop bound `bn + sn` is
their sum. -/
structure EstParams where
  in_ : Nat
  hn : Nat
  m_uNumRefHaps : Nat
  bn : Nat
  sn : Nat
  m_uCycles : Nat
  s_bKickStartFromRef : Bool

/-- The collaborators of the estimation loops that the samplers do not call,
none of them defined in `insti.cpp`: `init uRelMatType in hnAll` is
`m_oRelGraph.init(uRelMatType, in, hn + m_uNumRefHaps)`, `swap` is `swap(hnew,
haps)`, `replace i` and `result` are the calls of these names. -/
structure Driver (W : Type) where
  init : Nat → Nat → Nat → W → W
  swap : W → W
  replace : Nat → W → W
  result : W → W

/-- How a progress line ends: with `endl` in `estimate` and `estimate_AMH`, with
a carriage return in `estimate_EMC`. -/
inductive LineEnd where
  | endl
  | cr
  deriving DecidableEq

/-- What the estimation loops write on `cerr`. A progress line is recorded by
the generation `n`, the penalty, and the variables `sum` and `iter` from which
its last two fields are printed. -/
inductive CerrLine where
  /-- `"iter\tpress\tlike\tfold\trunTime\texpectedRunTime" << endl` -/
  | header_estimate
  /-- `"Running Evolutionary Monte Carlo\n"` -/
  | title_EMC
  /-- `"iter\tpress\tlike\tfold\n"` -/
  | header_EMC
  /-- `"Running Adaptive Metropolis Hastings\n"` -/
  | title_AMH
  /-- `"iter\tpress\tlike\tfold" << endl` -/
  | header_AMH
  | progress (n : Nat) (pen sum iter : ℚ) (last : LineEnd)
  /-- The `cerr << endl` after the generation loop. -/
  | endl
  deriving DecidableEq

/-- What an estimation loop does, in order. A sampler call is recorded with the
member `m_nIteration` at the time of the call, its arguments and what came out
of it: for `solve` the returned likelihood and the calls it made, for
`solve_EMC` the returned likelihood and the parents it committed. -/
inductive EstEvent where
  | cerr (line : CerrLine)
  | init (uRelMatType in_ hnAll : Nat)
  | solve (m_nIteration I N : Nat) (pen ret : ℚ) (calls : List Call)
  | solve_EMC (m_nIteration I N : Nat) (S ret : ℚ) (workParents : Parents)
  | swap
  | replace (i : Nat)
  | result

namespace EstEvent

/-- The event is a `replace` call. -/
def isReplace : EstEvent → Bool
  | .replace _ => true
  | _ => false

/-- The event is the swap of the two haplotype buffers. -/
def isSwap : EstEvent → Bool
  | .swap => true
  | _ => false

/-- The event is an initialisation of the relationship graph. -/
def isInit : EstEvent → Bool
  | .init _ _ _ => true
  | _ => false

/-- The event is an output on `cerr`. -/
def isCerr : EstEvent → Bool
  | .cerr _ => true
  | _ => false

/-- For a sampler call: whether the sampler is `solve_EMC`, then `m_nIteration`
and the three arguments. -/
def solverArgs : EstEvent → Option (Bool × Nat × Nat × Nat × ℚ)
  | .solve m_nIteration I N pen _ _ => some (false, m_nIteration, I, N, pen)
  | .solve_EMC m_nIteration I N S _ _ => some (true, m_nIteration, I, N, S)
  | _ => none

/-- For a sampler call: the returned likelihood. -/
def ret : EstEvent → Option ℚ
  | .solve _ _ _ _ ret _ => some ret
  | .solve_EMC _ _ _ _ ret _ => some ret
  | _ => none

/-- For a sampler call: the individual, the configurations committed and the
penalties they were committed with. -/
def commits : EstEvent → List (Nat × Parents × ℚ)
  | .solve _ _ _ _ _ calls => committed calls
  | .solve_EMC _ I _ S _ workParents => [(I, workParents, S)]
  | _ => []

end EstEvent

/-- A sampler as a generation sees it: from `m_nIteration`, the individual, the
penalty and the world to the returned likelihood, the event recorded and the
world left behind; or a stop. -/
abbrev Solver (W : Type) := Nat → Nat → ℚ → W → Except EMCStop (ℚ × EstEvent × W)

/-- The call `solve(i, m_uCycles, pen, m_oRelGraph)`. -/
def solveSolver {W : Type} (c : World W) (q : EstParams) : Solver W :=
  fun m_nIteration i pen w =>
    let r := solve c q.s_bKickStartFromRef m_nIteration i q.m_uCycles pen w
    .ok (r.ret, .solve m_nIteration i q.m_uCycles pen r.ret r.calls, r.world)

/-- The call `solve_EMC(i, m_uCycles, pen)`. -/
def emcSolver {W : Type} (c : World W) (e : EMCEnv) (q : EstParams) (fuel : Nat) :
    Solver W :=
  fun m_nIteration i pen w =>
    match solve_EMC c e i q.m_uCycles pen fuel w with
    | .error x => .error x
    | .ok r =>
      .ok (r.ret, .solve_EMC m_nIteration i q.m_uCycles pen r.ret r.workParents, r.world)

/-- The local variables `sum` and `iter` of a generation, the events of the
generation so far and the world. -/
structure GenState (W : Type) where
  sum : ℚ
  iter : ℚ
  events : List EstEvent
  world : W

/-- The loop `for (uint i = 0; i < in; i++) { sum += solver(i, ...); iter +=
m_uCycles; }` over the individuals that are left. -/
def individualLoop {W : Type} (solver : Solver W) (m_uCycles m_nIteration : Nat)
    (pen : ℚ) : List Nat → GenState W → Except EMCStop (GenState W)
  | [], s => .ok s
  | i :: rest, s =>
    match solver m_nIteration i pen s.world with
    | .error x => .error x
    | .ok r =>
      individualLoop solver m_uCycles m_nIteration pen rest
        { sum := s.sum + r.1
          iter := s.iter + (m_uCycles : ℚ)
          events := s.events ++ [r.2.1]
          world := r.2.2 }

/-- The individuals `replace` is called on in generation `n`:
`if (n >= bn) for (uint i = 0; i < in; i++) replace(i)`. -/
def replaced (q : EstParams) (n : Nat) : List Nat :=
  if n ≥ q.bn then List.range q.in_ else []

/-- The body of the generation loop for generation `n`: set `m_nIteration`,
compute the penalty, run the sampler on every individual, swap the buffers,
call `replace` after the burn-in and print the progress line. The result is the
events of the generation and the world after it. -/
def generation {W : Type} (d : Driver W) (solver : Solver W) (q : EstParams)
    (last : LineEnd) (n : Nat) (w : W) : Except EMCStop (List EstEvent × W) :=
  match individualLoop solver q.m_uCycles n (pen q.bn n) (List.range q.in_)
      { sum := 0, iter := 0, events := [], world := w } with
  | .error x => .error x
  | .ok s =>
    .ok (s.events ++ [EstEvent.swap] ++ (replaced q n).map EstEvent.replace
          ++ [EstEvent.cerr (CerrLine.progress n (pen q.bn n) s.sum s.iter last)],
        (replaced q n).foldl (fun w1 i => d.replace i w1) (d.swap s.world))

/-- The loop `for (uint n = 0; n < bn + sn; n++)` after `k` passes: the events
of the generations `0 .. k-1`, one list for each, and the world. -/
def generationLoop {W : Type} (d : Driver W) (solver : Solver W) (q : EstParams)
    (last : LineEnd) : Nat → W → Except EMCStop (List (List EstEvent) × W)
  | 0, w => .ok ([], w)
  | k + 1, w =>
    match generationLoop d solver q last k w with
    | .error x => .error x
    | .ok r =>
      match generation d solver q last k r.2 with
      | .error x => .error x
      | .ok g => .ok (r.1 ++ [g.1], g.2)

/-- What an estimation loop leaves behind: the events before the generation
loop, the events of every generation, the events after the loop, the world at
the end of the generation loop and the world after `result()`. -/
structure EstResult (W : Type) where
  head : List EstEvent
  gens : List (List EstEvent)
  tail : List EstEvent
  loopWorld : W
  world : W

/-- All events of a run, in order. -/
def EstResult.events {W : Type} (r : EstResult W) : List EstEvent :=
  r.head ++ r.gens.flatten ++ r.tail

/-- The events of a run but for the output on `cerr`. -/
def control (events : List EstEvent) : List EstEvent :=
  events.filter (fun ev => !ev.isCerr)

/-- `Insti::estimate()`. -/
def estimate {W : Type} (c : World W) (d : Driver W) (q : EstParams) (w : W) :
    Except EMCStop (EstResult W) :=
  match generationLoop d (solveSolver c q) q LineEnd.endl (q.bn + q.sn)
      (d.init 2 q.in_ (q.hn + q.m_uNumRefHaps) w) with
  | .error x => .error x
  | .ok r =>
    .ok { head := [EstEvent.cerr CerrLine.header_estimate,
            EstEvent.init 2 q.in_ (q.hn + q.m_uNumRefHaps)]
          gens := r.1
          tail := [EstEvent.cerr CerrLine.endl, EstEvent.result]
          loopWorld := r.2
          world := d.result r.2 }

/-- `Insti::estimate_EMC()`, with the parameters `e` of the evolutionary sampler
and the fuel of its do-while loops. -/
def estimate_EMC {W : Type} (c : World W) (d : Driver W) (e : EMCEnv) (q : EstParams)
    (fuel : Nat) (w : W) : Except EMCStop (EstResult W) :=
  match generationLoop d (emcSolver c e q fuel) q LineEnd.cr (q.bn + q.sn) w with
  | .error x => .error x
  | .ok r =>
    .ok { head := [EstEvent.cerr CerrLine.title_EMC, EstEvent.cerr CerrLine.header_EMC]
          gens := r.1
          tail := [EstEvent.cerr CerrLine.endl, EstEvent.result]
          loopWorld := r.2
          world := d.result r.2 }

/-- `Insti::estimate_AMH(uRelMatType)`. -/
def estimate_AMH {W : Type} (c : World W) (d : Driver W) (q : EstParams)
    (uRelMatType : Nat) (w : W) : Except EMCStop (EstResult W) :=
  match generationLoop d (solveSolver c q) q LineEnd.endl (q.bn + q.sn)
      (d.init uRelMatType q.in_ (q.hn + q.m_uNumRefHaps) w) with
  | .error x => .error x
  | .ok r =>
    .ok { head := [EstEvent.cerr CerrLine.title_AMH, EstEvent.cerr CerrLine.header_AMH,
            EstEvent.init uRelMatType q.in_ (q.hn + q.m_uNumRefHaps)]
          gens := r.1
          tail := [EstEvent.cerr CerrLine.endl, EstEvent.result]
          loopWorld := r.2
          world := d.result r.2 }

/-- The shape of the events of generation `n`: one sampler call for each
individual `0 .. in-1` in this order, with `m_nIteration = n`, `m_uCycles`
cycles and the penalty of the generation; then the swap; then `replace` on
every individual in order if `n >= bn`; then the progress line. -/
def GenShape (emc : Bool) (q : EstParams) (last : LineEnd) (n : Nat)
    (g : List EstEvent) : Prop :=
  ∃ (evs : List EstEvent) (sum iter : ℚ),
    g = evs ++ [EstEvent.swap] ++ (replaced q n).map EstEvent.replace
          ++ [EstEvent.cerr (CerrLine.progress n (pen q.bn n) sum iter last)] ∧
      evs.length = q.in_ ∧
      ∀ i, i < q.in_ → ∃ ev, evs[i]? = some ev ∧
        ev.solverArgs = some (emc, n, i, q.m_uCycles, pen q.bn n)

/-- The collaborators of the samplers leave the observation `out` of the world
alone. -/
def Keeps {W α : Type} (c : World W) (out : W → α) : Prop :=
  (∀ w, out (c.gsl_rng_get w).2 = out w) ∧
    (∀ w, out (c.gsl_rng_uniform w).2 = out w) ∧
    (∀ I r w, out (c.SampleHap I r w).2 = out w) ∧
    (∀ p b I x w, out (c.UpdateGraph p b I x w) = out w) ∧
    (∀ I p w, out (c.hmm_like I p w).2 = out w) ∧
    (∀ I p x w, out (c.hmm_work I p x w) = out w)

/-- Two sets of collaborators, on worlds related by `R`, answer alike and keep
the worlds related. -/
def Simulates {W1 W2 : Type} (c1 : World W1) (c2 : World W2) (R : W1 → W2 → Prop) :
    Prop :=
  (∀ a b, R a b → (c1.gsl_rng_get a).1 = (c2.gsl_rng_get b).1 ∧
      R (c1.gsl_rng_get a).2 (c2.gsl_rng_get b).2) ∧
    (∀ a b, R a b → (c1.gsl_rng_uniform a).1 = (c2.gsl_rng_uniform b).1 ∧
      R (c1.gsl_rng_uniform a).2 (c2.gsl_rng_uniform b).2) ∧
    (∀ I r a b, R a b → (c1.SampleHap I r a).1 = (c2.SampleHap I r b).1 ∧
      R (c1.SampleHap I r a).2 (c2.SampleHap I r b).2) ∧
    (∀ p f I x a b, R a b → R (c1.UpdateGraph p f I x a) (c2.UpdateGraph p f I x b)) ∧
    (∀ I p a b, R a b → (c1.hmm_like I p a).1 = (c2.hmm_like I p b).1 ∧
      R (c1.hmm_like I p a).2 (c2.hmm_like I p b).2) ∧
    (∀ I p x a b, R a b → R (c1.hmm_work I p x a) (c2.hmm_work I p x b)) ∧
    (∀ x, c1.exp x = c2.exp x)

/-- The collaborators of two estimation loops keep the worlds related. -/
def DriverSimulates {W1 W2 : Type} (d1 : Driver W1) (d2 : Driver W2)
    (R : W1 → W2 → Prop) : Prop :=
  (∀ k n m a b, R a b → R (d1.init k n m a) (d2.init k n m b)) ∧
    (∀ a b, R a b → R (d1.swap a) (d2.swap b)) ∧
    (∀ i a b, R a b → R (d1.replace i a) (d2.replace i b)) ∧
    (∀ a b, R a b → R (d1.result a) (d2.result b))

/-- A driver for trying the loops out on the counter world: the graph
initialisation sets the counter to the matrix kind, the swap leaves it, `replace
i` adds `1000 * (i + 1)` and `result` adds one. -/
def counterDriver : Driver Nat where
  init := fun uRelMatType _ _ _ => uRelMatType
  swap := fun w => w
  replace := fun i w => w + 1000 * (i + 1)
  result := fun w => w + 1

/-- The scenario of two individuals, eight haplotypes, no reference panel, a
burn-in of four generations, no sampling and twenty cycles per individual. -/
def estParams2 : EstParams where
  in_ := 2
  hn := 8
  m_uNumRefHaps := 0
  bn := 4
  sn := 0
  m_uCycles := 20
  s_bKickStartFromRef := false

/-- A small scenario with sampling: two individuals, a burn-in of one
generation, two generations of sampling, three cycles per individual. -/
def estParams3 : EstParams where
  in_ := 2
  hn := 4
  m_uNumRefHaps := 0
  bn := 1
  sn := 2
  m_uCycles := 3
  s_bKickStartFromRef := false

/-- A second world for trying the loops out: the counter world paired with a
tally of the calls made, which no collaborator reads. -/
def talliedWorld : World (Nat × Nat) where
  gsl_rng_get := fun w => (w.1, (w.1 + 1, w.2 + 1))
  gsl_rng_uniform := fun w => (1 / 2, (w.1 + 1, w.2 + 1))
  SampleHap := fun _ refOnly w => (if refOnly then w.1 % 4 else w.1 + 10, (w.1 + 1, w.2 + 1))
  UpdateGraph := fun _ _ _ _ w => (w.1, w.2 + 1)
  hmm_like := fun _ p w => (((p 0 + p 1 + p 2 + p 3 : Nat) : ℚ), (w.1, w.2 + 1))
  hmm_work := fun _ _ _ w => (w.1, w.2 + 1)
  exp := fun x => if x < 0 then 1 / 4 else 1

/-- The driver of the counter world on the second world, likewise with a tally
of the calls. -/
def talliedDriver : Driver (Nat × Nat) where
  init := fun uRelMatType _ _ w => (uRelMatType, w.2 + 1)
  swap := fun w => (w.1, w.2 + 1)
  replace := fun i w => (w.1 + 1000 * (i + 1), w.2 + 1)
  result := fun w => (w.1 + 1, w.2 + 1)

/-- The configurations committed for individual `I` in a run, oldest first, each
with the penalty it was committed with; the four parents are listed in the order
of the slots. -/
def commitsOf (I : Nat) (events : List EstEvent) : List (List Nat × ℚ) :=
  ((events.map EstEvent.commits).flatten.filter (fun x => x.1 == I)).map
    (fun x => (List.ofFn x.2.1, x.2.2))

/-- The likelihoods returned by the sampler calls of a run, oldest first. -/
def likelihoods (events : List EstEvent) : List ℚ :=
  events.filterMap EstEvent.ret

/-! ## The reference panel loader `Insti::load_refPanel` -/

/-- The width of `unsigned`: the line counter `uLineNum` is computed modulo
`2 ^ 32`. -/
def uintSize : Nat := 2 ^ 32

/-- An entry of `site` as `load_refPanel` reads it: the position `pos` and the
two alleles `all`. The type is declared outside these sources. -/
structure Site where
  pos : Nat
  all : String
  deriving DecidableEq

/-- The ways `load_refPanel` stops without returning: `exit(code)`, one of its
three assertions, `throw 1` after the message "All alleles are not 0 or 1 In
haplotypes file `hapsFile` at line number `uLineNum`", `throw 2` after the
message "num ref haps is 0", and an index past the end of `tokens` or `site`. -/
inductive LoadStop where
  | exit (code : Nat)
  /-- "Alleles in legend file need to match current data" -/
  | assertAlleles
  /-- "Number of Positions in legend file needs to match current data" -/
  | assertNumPositions
  /-- "Every row of haplotypes file must have the same number of columns" -/
  | assertColumns
  | throw1 (hapsFile : String) (uLineNum : Nat)
  | throw2
  | outOfRange
  deriving DecidableEq

/-- What a successful load leaves behind: the number of reference haplotypes
and the calls of `set0` and `set1` made on `m_vRefHaps`, oldest first, each as
the haplotype `i`, the bit index `uLineNum - 1` and the allele written. The
packing of the bits is left to `set0` and `set1`. -/
structure RefPanel where
  m_uNumRefHaps : Nat
  writes : List (Nat × Nat × Bool)
  deriving DecidableEq

/-- The white space `atoi` skips: space, tab, line feed, vertical tab, form feed
and carriage return. -/
def isspace (c : Char) : Bool :=
  c.toNat == 32 || (9 ≤ c.toNat && c.toNat ≤ 13)

/-- The value of the leading decimal digits of `cs`, continuing from `acc`. -/
def atoiDigits : List Char → Nat → Nat
  | [], acc => acc
  | c :: rest, acc =>
    if 48 ≤ c.toNat && c.toNat ≤ 57 then atoiDigits rest (10 * acc + (c.toNat - 48))
    else acc

/-- The C library function `atoi` on the characters of a token: white space is
skipped, then an optional sign and the longest run of decimal digits are read;
the value is `0` when there is no digit. The value is the exact integer; `atoi`
is undefined where it does not fit an `int`. -/
def atoi (s : String) : Int :=
  match s.toList.dropWhile isspace with
  | [] => 0
  | c :: rest =>
    if c.toNat == 45 then -((atoiDigits rest 0 : Nat) : Int)
    else if c.toNat == 43 then ((atoiDigits rest 0 : Nat) : Int)
    else ((atoiDigits (c :: rest) 0 : Nat) : Int)

/-- The tokens of the header `"id position a0 a1"`. -/
def headerTokenized : List String := ["id", "position", "a0", "a1"]

/-- The loop `for (int i = 0; i != 4; i++)` on the first line of the legend,
from index `i` on: a token that differs from the header's is answered with
`exit(2)`. -/
def headerLoop (tokens : List String) : List String → Nat → Except LoadStop Unit
  | [], _ => .ok ()
  | h :: rest, i =>
    match tokens[i]? with
    | none => .error .outOfRange
    | some t => if t != h then .error (.exit 2) else headerLoop tokens rest (i + 1)

/-- The body of the legend loop on a data line, with `uLineNum` already
incremented: the position must be the rendering of the position of
`site[uLineNum - 2]` (or `exit(1)`), the two alleles must be its alleles. -/
def legendLine (uint2str : Nat → String) (site : List Site) (uLineNum : Nat)
    (tokens : List String) : Except LoadStop Unit :=
  match site[(uLineNum + uintSize - 2) % uintSize]? with
  | none => .error .outOfRange
  | some s =>
    match tokens[1]? with
    | none => .error .outOfRange
    | some t1 =>
      if t1 != uint2str s.pos then .error (.exit 1)
      else
        match tokens[2]?, tokens[3]? with
        | some t2, some t3 =>
          if t2 ++ t3 == s.all then .ok () else .error .assertAlleles
        | _, _ => .error .outOfRange

/-- The loop over the lines of the legend file that are left, each given by its
tokens, from the line counter `uLineNum`; the result is the line counter at the
end of the file. -/
def legendLoop (uint2str : Nat → String) (site : List Site) :
    List (List String) → Nat → Except LoadStop Nat
  | [], uLineNum => .ok uLineNum
  | tokens :: rest, uLineNum =>
    let uLineNum1 := (uLineNum + 1) % uintSize
    if uLineNum1 == 1 then
      match headerLoop tokens headerTokenized 0 with
      | .error x => .error x
      | .ok _ => legendLoop uint2str site rest uLineNum1
    else
      match legendLine uint2str site uLineNum1 tokens with
      | .error x => .error x
      | .ok _ => legendLoop uint2str site rest uLineNum1

/-- The reading of the legend file: the loop over its lines, then the
assertion `site.size() == uLineNum - 1`. -/
def legendPhase (uint2str : Nat → String) (site : List Site)
    (legend : List (List String)) : Except LoadStop Unit :=
  match legendLoop uint2str site legend 0 with
  | .error x => .error x
  | .ok uLineNum =>
    if site.length == (uLineNum + uintSize - 1) % uintSize then .ok ()
    else .error .assertNumPositions

/-- The loop `for (unsigned i = 0; i != tokens.size(); i++)` over the tokens of
a line of the haplotypes file that are left, from index `i`. -/
def hapsTokens (hapsFile : String) (uLineNum : Nat) :
    List String → Nat → List (Nat × Nat × Bool) → Except LoadStop (List (Nat × Nat × Bool))
  | [], _, writes => .ok writes
  | t :: rest, i, writes =>
    let val := atoi t
    if val == 0 then
      hapsTokens hapsFile uLineNum rest (i + 1)
        (writes ++ [(i, (uLineNum + uintSize - 1) % uintSize, false)])
    else if val == 1 then
      hapsTokens hapsFile uLineNum rest (i + 1)
        (writes ++ [(i, (uLineNum + uintSize - 1) % uintSize, true)])
    else .error (.throw1 hapsFile uLineNum)

/-- The loop over the lines of the haplotypes file that are left, from the line
counter `uLineNum`, the member `m_uNumRefHaps` and the writes made so far. -/
def hapsLoop (hapsFile : String) :
    List (List String) → Nat → Nat → List (Nat × Nat × Bool) → Except LoadStop RefPanel
  | [], _, m_uNumRefHaps, writes =>
    .ok { m_uNumRefHaps := m_uNumRefHaps, writes := writes }
  | tokens :: rest, uLineNum, m_uNumRefHaps, writes =>
    let uLineNum1 := (uLineNum + 1) % uintSize
    let m_uNumRefHaps1 := if uLineNum1 == 1 then tokens.length else m_uNumRefHaps
    if tokens.length == m_uNumRefHaps1 then
      match hapsTokens hapsFile uLineNum1 tokens 0 writes with
      | .error x => .error x
      | .ok writes1 => hapsLoop hapsFile rest uLineNum1 m_uNumRefHaps1 writes1
    else .error .assertColumns

/-- The reading of the haplotypes file: the loop over its lines, then `throw 2`
if `m_uNumRefHaps` is zero. -/
def hapsPhase (hapsFile : String) (m_uNumRefHaps : Nat) (haps : List (List String)) :
    Except LoadStop RefPanel :=
  match hapsLoop hapsFile haps 0 m_uNumRefHaps [] with
  | .error x => .error x
  | .ok r => if r.m_uNumRefHaps == 0 then .error .throw2 else .ok r

/-- `Insti::load_refPanel(legendFile, hapsFile)`, for the loaded sites `site`,
the value of the member `m_uNumRefHaps` on entry and the two files, each given
as the list of its lines and each line as the list of tokens that
`sutils::tokenize` makes of it. `uint2str` is `sutils::uint2str`. -/
def load_refPanel (uint2str : Nat → String) (site : List Site) (m_uNumRefHaps : Nat)
    (legendFile hapsFile : String) (legend haps : List (List String)) :
    Except LoadStop RefPanel :=
  if legendFile.length == 0 then .error (.exit 1)
  else if hapsFile.length == 0 then .error (.exit 1)
  else
    match legendPhase uint2str site legend with
    | .error x => .error x
    | .ok _ => hapsPhase hapsFile m_uNumRefHaps haps

/-- Two loaded sites, at the positions `100` and `250`. -/
def sites2 : List Site := [{ pos := 100, all := "AC" }, { pos := 250, all := "GT" }]

/-- A legend that matches `sites2`. -/
def legend2 : List (List String) :=
  [["id", "position", "a0", "a1"], ["rs1", "100", "A", "C"], ["rs2", "250", "G", "T"]]

/-- The legend is not aligned with the loaded sites: its first line does not
start with the four fields of the header, or the position field of some data
line `k` is not the rendering of the position of site `k`, or the number of its
data lines is not the number of sites. -/
def Misaligned (uint2str : Nat → String) (site : List Site)
    (legend : List (List String)) : Prop :=
  (∃ tokens, legend.head? = some tokens ∧ tokens.take 4 ≠ headerTokenized) ∨
    (∃ (k : Nat) (tokens : List String) (s : Site), legend[k + 1]? = some tokens ∧
      site[k]? = some s ∧ tokens[1]? ≠ some (uint2str s.pos)) ∨
    legend.tail.length ≠ site.length

/-- The stops of the reading of the legend file. -/
def LegendStop (x : LoadStop) : Prop :=
  x = .exit 1 ∨ x = .exit 2 ∨ x = .assertAlleles ∨ x = .assertNumPositions ∨
    x = .outOfRange

/-- The token is one of the alleles `0` and `1` for `load_refPanel`: `atoi`
makes `0` or `1` of it. -/
def AlleleOK (t : String) : Prop := atoi t = 0 ∨ atoi t = 1

/-! ## The likelihood reader `GLReader::LoadSTBinGLs` -/

/-- The two ways of returning the likelihoods, `GLHelper::gl_ret_t`. -/
inductive gl_ret_t where
  | STANDARD
  | ST_DROP_FIRST
  deriving DecidableEq

/-- The ways `LoadSTBinNames` and `LoadSTBinGLs` stop without returning: the
five `runtime_error`s they throw ("Error opening file", "does not contain any
sample information", "Error reading from file", "Input line `lineNum` does not
have the correct number of columns [`expected`]", "Could not parse alleles"),
an exception of `stoi` or `stof`, the failed assertion and a character read
past the end of the allele field. -/
inductive GLStop where
  | errorOpening
  | noSampleInformation
  | errorReading
  | columns (lineNum expected : Nat)
  | couldNotParseAlleles (field : String)
  | invalidArgument
  | assertFailed
  | outOfRange
  deriving DecidableEq

/-- The arguments `LoadSTBinGLs` constructs a site from: `snp(tokens[0],
stoi(tokens[1]), ref, alt)`. -/
structure snp where
  chr : String
  pos : Int
  ref : String
  alt : String
  deriving DecidableEq

/-- The two library functions that parse numbers: `stoi` gives the integer, or
nothing when it throws; `stof` gives the number and the count `idx` of the
characters it has read, or nothing when it throws. Floats are rationals
here. -/
structure GLParsers where
  stoi : String → Option Int
  stof : String → Option (ℚ × Nat)

/-- A file as the reader sees it: nothing when the stream is not good, else its
lines, each as the list of fields that `boost::split` on the tabulator makes of
it. -/
abbrev GLFile := Option (List (List String))

/-- `GLReader::LoadSTBinNames()`: the names are the fields of the first line
from the fourth on. The split of the empty buffer of an empty file is one empty
field. -/
def LoadSTBinNames (nameFile : GLFile) : Except GLStop (List String) :=
  match nameFile with
  | none => .error .errorOpening
  | some lines =>
    let tokens := lines.headD [""]
    if tokens.length < 4 then .error .noSampleInformation
    else .ok (tokens.drop 3)

/-- The reference and the alternative allele of the field `tokens[2]`: split at
the first space when the field has more than two characters, else its first and
its second character (the terminating null character when the field has one
character only). -/
def parseAlleles (field : String) : Except GLStop (String × String) :=
  match field.toList with
  | [] => .error .outOfRange
  | [a] => .ok (String.singleton a, String.singleton (Char.ofNat 0))
  | [a, b] => .ok (String.singleton a, String.singleton b)
  | cs =>
    let ref := cs.takeWhile (fun c => c.toNat != 32)
    if ref.length == cs.length then .error (.couldNotParseAlleles field)
    else .ok (String.mk ref, String.mk (cs.drop (ref.length + 1)))

/-- The loop over the samples of a line, on the fields that are left: two
likelihoods are read from each field, and two or three are pushed on
`m_gls`. -/
def glSamples (stof : String → Option (ℚ × Nat)) (glRetType : gl_ret_t) :
    List String → List ℚ → Except GLStop (List ℚ)
  | [], m_gls => .ok m_gls
  | field :: rest, m_gls =>
    match stof field with
    | none => .error .invalidArgument
    | some het =>
      match stof (String.mk (field.toList.drop het.2)) with
      | none => .error .invalidArgument
      | some homAlt =>
        if het.1 + homAlt.1 ≤ 1 then
          glSamples stof glRetType rest
            (m_gls
              ++ (if glRetType != gl_ret_t.ST_DROP_FIRST then [max 0 (1 - het.1 - homAlt.1)]
                  else [])
              ++ [het.1, homAlt.1])
        else .error .assertFailed

/-- The body of the loop of `LoadSTBinGLs` on the fields of line `lineNum`. -/
def glLine (p : GLParsers) (glRetType : gl_ret_t) (m_names : List String) (lineNum : Nat)
    (tokens : List String) (st : List snp × List ℚ) : Except GLStop (List snp × List ℚ) :=
  if tokens.length != 3 + m_names.length then
    .error (.columns lineNum (3 + m_names.length))
  else
    match tokens[0]?, tokens[1]?, tokens[2]? with
    | some t0, some t1, some t2 =>
      match parseAlleles t2 with
      | .error x => .error x
      | .ok alleles =>
        match p.stoi t1 with
        | none => .error .invalidArgument
        | some pos =>
          match glSamples p.stof glRetType (tokens.drop 3) st.2 with
          | .error x => .error x
          | .ok m_gls =>
            .ok (st.1 ++ [{ chr := t0, pos := pos, ref := alleles.1, alt := alleles.2 }],
              m_gls)
    | _, _, _ => .error .outOfRange

/-- The loop of `LoadSTBinGLs` over the lines that are left; `lineNum` is the
number of the last line read. -/
def glLoop (p : GLParsers) (glRetType : gl_ret_t) (m_names : List String) :
    List (List String) → Nat → List snp × List ℚ → Except GLStop (List snp × List ℚ)
  | [], _, st => .ok st
  | tokens :: rest, lineNum, st =>
    match glLine p glRetType m_names (lineNum + 1) tokens st with
    | .error x => .error x
    | .ok st1 => glLoop p glRetType m_names rest (lineNum + 1) st1

/-- The names `LoadSTBinGLs` works with: the member `m_names`, loaded first when
it is empty. -/
def glNames (m_names : List String) (nameFile : GLFile) : Except GLStop (List String) :=
  if m_names.isEmpty then LoadSTBinNames nameFile else .ok m_names

/-- What `LoadSTBinGLs` leaves in the members of the reader. -/
structure GLState where
  m_names : List String
  m_sites : List snp
  m_gls : List ℚ
  deriving DecidableEq

/-- `GLReader::LoadSTBinGLs()`, for the member `m_names` on entry, the return
type and the two files of `m_init`. The first line of the likelihood file is
discarded; the data lines are numbered from `2`. -/
def LoadSTBinGLs (p : GLParsers) (glRetType : gl_ret_t) (m_names : List String)
    (nameFile glFile : GLFile) : Except GLStop GLState :=
  match glNames m_names nameFile with
  | .error x => .error x
  | .ok names =>
    match glFile with
    | none => .error .errorReading
    | some lines =>
      match glLoop p glRetType names lines.tail 1 ([], []) with
      | .error x => .error x
      | .ok st => .ok { m_names := names, m_sites := st.1, m_gls := st.2 }

/-- The number of entries a sample adds to `m_gls` on each line. -/
def glWidth (glRetType : gl_ret_t) : Nat :=
  if glRetType != gl_ret_t.ST_DROP_FIRST then 3 else 2

/-- Parsers for trying the reader out. The integer is `atoi` of the field. A
likelihood field is one of `"0 0"`, `"0 1"`, `"1 0"`: the number is the digit
and one character is read, a leading space being skipped. -/
def toyParsers : GLParsers where
  stoi := fun s => some (atoi s)
  stof := fun s =>
    match s.toList with
    | [a] => if a.toNat == 48 ∨ a.toNat == 49 then some (((a.toNat - 48 : Nat) : ℚ), 1) else none
    | [a, b] =>
      if a.toNat == 32 ∧ (b.toNat == 48 ∨ b.toNat == 49) then
        some (((b.toNat - 48 : Nat) : ℚ), 2)
      else none
    | [a, _, _] =>
      if a.toNat == 48 ∨ a.toNat == 49 then some (((a.toNat - 48 : Nat) : ℚ), 1) else none
    | _ => none

/-- A likelihood file for two samples: the header, two good lines, and a line
with three fields only. -/
def glFile2 : GLFile :=
  some [["chr", "pos", "allele", "s1", "s2"],
    ["20", "100", "AC", "0 1", "1 0"],
    ["20", "250", "GT", "0 0", "0 1"],
    ["20", "300", "AG"]]

/-- A likelihood file for two samples whose two data lines, the lines `2` and
`3`, both have too few fields. -/
def glFileShort : GLFile :=
  some [["chr", "pos", "allele", "s1", "s2"], ["20", "100"], ["20", "250", "GT"]]

/-- The restriction flags of the `SampleHap` calls of a call sequence, in
order. -/
def sampleFlags : List Call → List Bool
  | [] => []
  | Call.SampleHap _ refOnly :: rest => refOnly :: sampleFlags rest
  | _ :: rest => sampleFlags rest

/-- The arguments of the `UpdateGraph` calls of a call sequence, in order. -/
def updateCalls : List Call → List (Parents × Bool × Nat × ℚ)
  | [] => []
  | Call.UpdateGraph p bAccepted I pen :: rest => (p, bAccepted, I, pen) :: updateCalls rest
  | _ :: rest => updateCalls rest

/-- The state `emcState2` with the likelihood of the second chain set to `14`, the
likelihood of the first. -/
def emcStateEqual : EMCState Nat :=
  { vcChains := [emcChainA, { emcChainB with m_fCurr := 14 }],
    vuChainTempHierarchy := [0, 1], world := 12 }

/-- The exchange record reached from `emcStateEqual` in the counter world: the
ranks `0` and `1`, the chains `0` and `1`. -/
def emcExchange13 : Exchange Nat :=
  { uFirstChainIndex := 0, uSecondChainIndex := 1, uFirstChainHierarchyIndex := 0,
    uSecondCHI := 1, first := emcChainA, second := { emcChainB with m_fCurr := 14 },
    world := 13 }

/-- The state `emcState2` with the counter at `0`, from which the mutation
proposes a haplotype that lowers the likelihood. -/
def emcState0 : EMCState Nat :=
  { vcChains := [emcChainA, emcChainB], vuChainTempHierarchy := [0, 1], world := 0 }

/-- The mutation record reached from `emcState0` in the counter world, for
individual `0`: chain `0`, slot `1`, haplotype `3` replaced by `2`, likelihood
`13` after `14`. -/
def emcMutation0 : Mutation Nat :=
  { j := 0, curr := 14, rp := 1, oh := 3,
    chain := { emcChainA with m_auParents := ![2, 2, 4, 5] }, prop := 13, world := 3 }

/-! ## Lemmas on the roulette wheel -/

theorem foldl_add_eq (ws : List ℚ) (a : ℚ) :
    ws.foldl (fun dTotalProb w => dTotalProb + w) a = a + ws.sum := by
  induction ws generalizing a with
  | nil => simp
  | cons w rest ih => simp [List.foldl_cons, ih, add_assoc]

theorem totalProb_eq_sum (ws : List ℚ) : totalProb ws = ws.sum := by
  simp [totalProb, foldl_add_eq]

theorem cumWeight_zero (ws : List ℚ) : cumWeight ws 0 = 0 := by
  simp [cumWeight]

theorem cumWeight_cons_succ (w : ℚ) (rest : List ℚ) (j : Nat) :
    cumWeight (w :: rest) (j + 1) = w + cumWeight rest j := by
  simp [cumWeight]

theorem cumWeight_length (ws : List ℚ) : cumWeight ws ws.length = ws.sum := by
  simp [cumWeight]

theorem cumWeight_succ (ws : List ℚ) (k : Nat) (h : k < ws.length) :
    cumWeight ws (k + 1) = cumWeight ws k + ws.get ⟨k, h⟩ := by
  induction ws generalizing k with
  | nil => simp at h
  | cons w rest ih =>
    cases k with
    | zero => simp [cumWeight]
    | succ k =>
      have hk : k < rest.length := by simpa using h
      rw [cumWeight_cons_succ, cumWeight_cons_succ, ih k hk]
      simp [add_assoc]

/-- What the scan returns: the first index (counted from the start index `i`)
at which the cumulative weight reaches the stop point. -/
theorem rwScan_eq_some_iff (ws : List ℚ) (d : ℚ) (i k : Nat) :
    rwScan ws d i = some k ↔
      ∃ j, k = i + j ∧ j < ws.length ∧
        (∀ j2, j2 < j → cumWeight ws (j2 + 1) < d) ∧ d ≤ cumWeight ws (j + 1) := by
  induction ws generalizing d i with
  | nil => simp [rwScan]
  | cons w rest ih =>
    by_cases hpos : d - w > 0
    · rw [rwScan, if_pos hpos, ih]
      constructor
      · rintro ⟨j, rfl, hj, hlt, hle⟩
        refine ⟨j + 1, by omega, by simpa using hj, ?_, ?_⟩
        · intro j2 hj2
          cases j2 with
          | zero => rw [cumWeight_cons_succ, cumWeight_zero]; linarith
          | succ j3 =>
            rw [cumWeight_cons_succ]
            have := hlt j3 (by omega)
            linarith
        · rw [cumWeight_cons_succ]; linarith
      · rintro ⟨j, rfl, hj, hlt, hle⟩
        cases j with
        | zero =>
          rw [cumWeight_cons_succ, cumWeight_zero] at hle
          linarith
        | succ j0 =>
          refine ⟨j0, by omega, by simpa using hj, ?_, ?_⟩
          · intro j2 hj2
            have := hlt (j2 + 1) (by omega)
            rw [cumWeight_cons_succ] at this
            linarith
          · rw [cumWeight_cons_succ] at hle; linarith
    · rw [rwScan, if_neg hpos]
      constructor
      · intro h
        have hk : i = k := by simpa using h
        refine ⟨0, by omega, by simp, by simp, ?_⟩
        rw [cumWeight_cons_succ, cumWeight_zero]; linarith
      · rintro ⟨j, rfl, _, hlt, _⟩
        cases j with
        | zero => simp
        | succ j0 =>
          have := hlt 0 (by omega)
          rw [cumWeight_cons_succ, cumWeight_zero] at this
          linarith

/-- The scan finds an index inside the vector whenever the stop point is
positive and not above the total weight. -/
theorem rwScan_some_of_le_sum (ws : List ℚ) (d : ℚ) (i : Nat)
    (hd : 0 < d) (hle : d ≤ ws.sum) :
    ∃ k, rwScan ws d i = some k ∧ i ≤ k ∧ k < i + ws.length := by
  induction ws generalizing d i with
  | nil => simp at hle; linarith
  | cons w rest ih =>
    by_cases hpos : d - w > 0
    · obtain ⟨k, hk, h1, h2⟩ := ih (d - w) (i + 1) hpos (by simp at hle; linarith)
      refine ⟨k, ?_, by omega, by simp; omega⟩
      rw [rwScan, if_pos hpos, hk]
    · exact ⟨i, by rw [rwScan, if_neg hpos], le_refl i, by simp⟩

/-- `RWSelection` returns `k` exactly when all three assertions on the total and
the stop point pass and `k` is the first index whose cumulative weight reaches
the stop point. -/
theorem RWSelection_eq_ok_iff (ws : List ℚ) (u : ℚ) (k : Nat) :
    RWSelection ws u = .ok k ↔
      0 < totalProb ws ∧ totalProb ws < dblMax ∧ 0 < u * totalProb ws ∧
        k < ws.length ∧ (∀ j, j < k → cumWeight ws (j + 1) < u * totalProb ws) ∧
        u * totalProb ws ≤ cumWeight ws (k + 1) := by
  unfold RWSelection
  dsimp only
  by_cases h1 : totalProb ws > 0
  swap
  · rw [if_pos h1]
    constructor
    · intro h; cases h
    · intro h; exact absurd h.1 h1
  rw [if_neg (not_not.mpr h1)]
  by_cases h2 : totalProb ws < dblMax
  swap
  · rw [if_pos h2]
    constructor
    · intro h; cases h
    · intro h; exact absurd h.2.1 h2
  rw [if_neg (not_not.mpr h2)]
  by_cases h3 : u * totalProb ws > 0
  swap
  · rw [if_pos h3]
    constructor
    · intro h; cases h
    · intro h; exact absurd h.2.2.1 h3
  rw [if_neg (not_not.mpr h3)]
  cases hs : rwScan ws (u * totalProb ws) 0 with
  | none =>
    constructor
    · intro h; cases h
    · rintro ⟨_, _, _, hk, hlt, hle⟩
      have : rwScan ws (u * totalProb ws) 0 = some k :=
        (rwScan_eq_some_iff ws _ 0 k).2 ⟨k, by omega, hk, hlt, hle⟩
      rw [hs] at this; cases this
  | some i =>
    obtain ⟨j, hj, hjlt, hlt, hle⟩ := (rwScan_eq_some_iff ws _ 0 i).1 hs
    have hij : i = j := by omega
    subst hij
    dsimp only
    rw [if_pos hjlt]
    constructor
    · intro h
      have : i = k := by injection h
      subst this
      exact ⟨h1, h2, h3, hjlt, hlt, hle⟩
    · rintro ⟨_, _, _, hk, hlt2, hle2⟩
      have : rwScan ws (u * totalProb ws) 0 = some k :=
        (rwScan_eq_some_iff ws _ 0 k).2 ⟨k, by omega, hk, hlt2, hle2⟩
      rw [hs] at this
      have : i = k := by injection this
      rw [this]

theorem cumWeight_le_succ (ws : List ℚ) (hnn : ∀ w ∈ ws, 0 ≤ w) (k : Nat) :
    cumWeight ws k ≤ cumWeight ws (k + 1) := by
  by_cases h : k < ws.length
  · rw [cumWeight_succ ws k h]
    have := hnn (ws.get ⟨k, h⟩) (List.get_mem ws k h)
    linarith
  · have h1 : ws.take k = ws := List.take_of_length_le (by omega)
    have h2 : ws.take (k + 1) = ws := List.take_of_length_le (by omega)
    simp [cumWeight, h1, h2]

theorem cumWeight_mono (ws : List ℚ) (hnn : ∀ w ∈ ws, 0 ≤ w) :
    Monotone (cumWeight ws) :=
  monotone_nat_of_le_succ (cumWeight_le_succ ws hnn)

theorem cumWeight_le_sum (ws : List ℚ) (hnn : ∀ w ∈ ws, 0 ≤ w) (k : Nat) :
    cumWeight ws k ≤ ws.sum := by
  by_cases h : k ≤ ws.length
  · rw [← cumWeight_length ws]; exact cumWeight_mono ws hnn h
  · have h1 : ws.take k = ws := List.take_of_length_le (by omega)
    simp [cumWeight, h1]

/-- With non-negative weights the condition "every earlier cumulative weight is
below the stop point" is the same as "the cumulative weight before `k` is below
the stop point". -/
theorem first_reaching_iff (ws : List ℚ) (hnn : ∀ w ∈ ws, 0 ≤ w) (d : ℚ) (hd : 0 < d)
    (k : Nat) :
    (∀ j, j < k → cumWeight ws (j + 1) < d) ↔ cumWeight ws k < d := by
  constructor
  · intro h
    cases k with
    | zero => rw [cumWeight_zero]; exact hd
    | succ k0 => exact h k0 (by omega)
  · intro h j hj
    exact lt_of_le_of_lt (cumWeight_mono ws hnn (by omega)) h

theorem dblMax_large : (1000 : ℚ) < dblMax := by
  norm_num [dblMax]

theorem dblMax_pos : (1 : ℚ) < dblMax :=
  lt_trans (by norm_num) dblMax_large

/-! ## Roulette-wheel selection: the claims -/

/-- C1, as stated, fails where the total weight does not pass the finiteness
assertion: the single weight `dblMax` is non-negative, its total is positive and
the draw point of `u = 1/2` lies strictly between `0` and the total, yet
`RWSelection` ends in `assert(dTotalProb < max)` and returns no index. -/
theorem RWSelection_total_dblMax_is_fatal :
    ([dblMax] : List ℚ) ≠ [] ∧ (∀ w ∈ ([dblMax] : List ℚ), 0 ≤ w) ∧
      0 < ([dblMax] : List ℚ).sum ∧
      0 < (1 / 2 : ℚ) * ([dblMax] : List ℚ).sum ∧
      (1 / 2 : ℚ) * ([dblMax] : List ℚ).sum < ([dblMax] : List ℚ).sum ∧
      RWSelection [dblMax] (1 / 2) = .error .totalNotFinite ∧
      ¬ ∃ k, RWSelection [dblMax] (1 / 2) = .ok k := by
  have hpos : (0 : ℚ) < dblMax := lt_trans one_pos dblMax_pos
  have h : RWSelection [dblMax] (1 / 2) = .error .totalNotFinite := by
    simp [RWSelection, totalProb, hpos]
  refine ⟨by simp, ?_, ?_, ?_, ?_, h, ?_⟩
  · intro w hw
    have : w = dblMax := by simpa using hw
    rw [this]; norm_num [dblMax]
  · norm_num [dblMax]
  · norm_num [dblMax]
  · norm_num [dblMax]
  · rintro ⟨k, hk⟩
    rw [h] at hk; cases hk

/-- C1 (amended with the finiteness bound): for non-empty, non-negative weights
with total `0 < T < dblMax` and a draw point `d = u * T` with `0 < d < T`,
`RWSelection` returns the unique index `k` with
`w_0 + ... + w_(k-1) < d ≤ w_0 + ... + w_k`, which is the first index whose
cumulative weight reaches `d`; and for every index `k` the draws in `(0, T)`
that select `k` are exactly those of the interval `(cumWeight k, cumWeight (k+1)]`,
whose length is `w_k`, that is `w_k / T` of the total. -/
theorem RWSelection_first_reaching (ws : List ℚ) (u : ℚ)
    (_hne : ws ≠ []) (hnn : ∀ w ∈ ws, 0 ≤ w)
    (hT : 0 < ws.sum) (hfin : ws.sum < dblMax)
    (hd0 : 0 < u * ws.sum) (hdT : u * ws.sum < ws.sum) :
    (∃ k, RWSelection ws u = .ok k ∧ k < ws.length ∧
        cumWeight ws k < u * ws.sum ∧ u * ws.sum ≤ cumWeight ws (k + 1) ∧
        (∀ j, j < k → cumWeight ws (j + 1) < u * ws.sum) ∧
        (∀ j, j < ws.length → cumWeight ws j < u * ws.sum →
          u * ws.sum ≤ cumWeight ws (j + 1) → j = k)) ∧
      (∀ k (hk : k < ws.length),
        (∀ u2 : ℚ, 0 < u2 * ws.sum → u2 * ws.sum < ws.sum →
          (RWSelection ws u2 = .ok k ↔
            cumWeight ws k < u2 * ws.sum ∧ u2 * ws.sum ≤ cumWeight ws (k + 1))) ∧
        cumWeight ws (k + 1) - cumWeight ws k = ws.get ⟨k, hk⟩ ∧
        (cumWeight ws (k + 1) - cumWeight ws k) / ws.sum = ws.get ⟨k, hk⟩ / ws.sum) := by
  have hiff : ∀ (u2 : ℚ) (k : Nat), 0 < u2 * ws.sum →
      (RWSelection ws u2 = .ok k ↔
        k < ws.length ∧ cumWeight ws k < u2 * ws.sum ∧
          u2 * ws.sum ≤ cumWeight ws (k + 1)) := by
    intro u2 k h0
    rw [RWSelection_eq_ok_iff, totalProb_eq_sum, first_reaching_iff ws hnn _ h0]
    constructor
    · rintro ⟨_, _, _, h4, h5, h6⟩; exact ⟨h4, h5, h6⟩
    · rintro ⟨h4, h5, h6⟩; exact ⟨hT, hfin, h0, h4, h5, h6⟩
  constructor
  · obtain ⟨k, hk, _, hklt⟩ := rwScan_some_of_le_sum ws (u * ws.sum) 0 hd0 (le_of_lt hdT)
    have hsel : RWSelection ws u = .ok k := by
      rw [RWSelection_eq_ok_iff, totalProb_eq_sum]
      obtain ⟨j, hj, hjlt, hlt, hle⟩ := (rwScan_eq_some_iff ws _ 0 k).1 hk
      have hkj : k = j := by omega
      subst hkj
      exact ⟨hT, hfin, hd0, hjlt, hlt, hle⟩
    obtain ⟨h1, h2, h3⟩ := (hiff u k hd0).1 hsel
    refine ⟨k, hsel, h1, h2, h3, (first_reaching_iff ws hnn _ hd0 k).2 h2, ?_⟩
    intro j _ hj2 hj3
    rcases Nat.lt_trichotomy j k with hlt | heq | hgt
    · have := cumWeight_mono ws hnn (show j + 1 ≤ k by omega)
      linarith
    · exact heq
    · have := cumWeight_mono ws hnn (show k + 1 ≤ j by omega)
      linarith
  · intro k hk
    refine ⟨?_, ?_, ?_⟩
    · intro u2 h0 _
      rw [hiff u2 k h0]
      constructor
      · rintro ⟨_, h2, h3⟩; exact ⟨h2, h3⟩
      · rintro ⟨h2, h3⟩; exact ⟨hk, h2, h3⟩
    · rw [cumWeight_succ ws k hk]; ring
    · rw [cumWeight_succ ws k hk]; ring

/-- C1 (amended) at the weights `[1, 1, 1, 1]` and `u = 3/8`, draw point `3/2`. -/
theorem RWSelection_first_reaching_witness :
    (([1, 1, 1, 1] : List ℚ) ≠ [] ∧ (∀ w ∈ ([1, 1, 1, 1] : List ℚ), 0 ≤ w) ∧
      0 < ([1, 1, 1, 1] : List ℚ).sum ∧ ([1, 1, 1, 1] : List ℚ).sum < dblMax ∧
      0 < (3 / 8 : ℚ) * ([1, 1, 1, 1] : List ℚ).sum ∧
      (3 / 8 : ℚ) * ([1, 1, 1, 1] : List ℚ).sum < ([1, 1, 1, 1] : List ℚ).sum) ∧
    ∃ k, RWSelection [1, 1, 1, 1] (3 / 8) = .ok k ∧ k < ([1, 1, 1, 1] : List ℚ).length ∧
      cumWeight [1, 1, 1, 1] k < (3 / 8 : ℚ) * ([1, 1, 1, 1] : List ℚ).sum ∧
      (3 / 8 : ℚ) * ([1, 1, 1, 1] : List ℚ).sum ≤ cumWeight [1, 1, 1, 1] (k + 1) ∧
      (∀ j, j < k → cumWeight [1, 1, 1, 1] (j + 1) < (3 / 8 : ℚ) * ([1, 1, 1, 1] : List ℚ).sum) ∧
      (∀ j, j < ([1, 1, 1, 1] : List ℚ).length →
        cumWeight [1, 1, 1, 1] j < (3 / 8 : ℚ) * ([1, 1, 1, 1] : List ℚ).sum →
        (3 / 8 : ℚ) * ([1, 1, 1, 1] : List ℚ).sum ≤ cumWeight [1, 1, 1, 1] (j + 1) → j = k) :=
  have h1 : ([1, 1, 1, 1] : List ℚ) ≠ [] := by simp
  have h2 : ∀ w ∈ ([1, 1, 1, 1] : List ℚ), 0 ≤ w := by
    intro w hw
    have : w = 1 := by simpa using hw
    rw [this]; norm_num
  have h3 : 0 < ([1, 1, 1, 1] : List ℚ).sum := by norm_num
  have h4 : ([1, 1, 1, 1] : List ℚ).sum < dblMax :=
    lt_trans (by norm_num) dblMax_large
  have h5 : 0 < (3 / 8 : ℚ) * ([1, 1, 1, 1] : List ℚ).sum := by norm_num
  have h6 : (3 / 8 : ℚ) * ([1, 1, 1, 1] : List ℚ).sum < ([1, 1, 1, 1] : List ℚ).sum := by
    norm_num
  ⟨⟨h1, h2, h3, h4, h5, h6⟩,
    (RWSelection_first_reaching [1, 1, 1, 1] (3 / 8) h1 h2 h3 h4 h5 h6).1⟩

/-- C2, as stated, fails at the draw value `0`: the population with the single
weight `1` has a positive total below `dblMax`, the deviate `u = 0` lies in
`[0, 1)` and its draw value in `[0, total)`, and `RWSelection` ends in
`assert(dStopPoint > 0)`. -/
theorem RWSelection_zero_draw_is_fatal :
    0 < ([1] : List ℚ).sum ∧ ([1] : List ℚ).sum < dblMax ∧
      (0 : ℚ) ≤ 0 ∧ (0 : ℚ) < 1 ∧
      0 ≤ (0 : ℚ) * ([1] : List ℚ).sum ∧ (0 : ℚ) * ([1] : List ℚ).sum < ([1] : List ℚ).sum ∧
      RWSelection [1] 0 = .error .stopPointNotPositive ∧
      ¬ ∃ i, RWSelection [1] 0 = .ok i := by
  have h : RWSelection [1] 0 = .error .stopPointNotPositive := by
    simp [RWSelection, totalProb, dblMax_pos]
  refine ⟨by norm_num, ?_, le_refl 0, by norm_num, by norm_num, by norm_num, h, ?_⟩
  · have := dblMax_pos
    simpa using this
  · rintro ⟨i, hi⟩
    rw [h] at hi; cases hi

/-- C2 (amended to draw values above `0`): for every population with total
weight `0 < T < dblMax`, whatever the signs of the single weights, and every
uniform deviate `0 < u < 1` (draw value in `(0, T)`), `RWSelection` passes all
its assertions and returns an index below the population size; at `u = 0` it
ends in `assert(dStopPoint > 0)`. -/
theorem RWSelection_in_range (ws : List ℚ) (u : ℚ)
    (hT : 0 < ws.sum) (hfin : ws.sum < dblMax) (hu0 : 0 < u) (hu1 : u < 1) :
    (∃ i, RWSelection ws u = .ok i ∧ 0 ≤ i ∧ i < ws.length) ∧
      RWSelection ws 0 = .error .stopPointNotPositive := by
  constructor
  · have hd0 : 0 < u * ws.sum := mul_pos hu0 hT
    have hdT : u * ws.sum ≤ ws.sum := by nlinarith
    obtain ⟨k, hk, _, _⟩ := rwScan_some_of_le_sum ws (u * ws.sum) 0 hd0 hdT
    obtain ⟨j, hj, hjlt, hlt, hle⟩ := (rwScan_eq_some_iff ws _ 0 k).1 hk
    have hkj : k = j := by omega
    subst hkj
    refine ⟨k, ?_, Nat.zero_le k, hjlt⟩
    rw [RWSelection_eq_ok_iff, totalProb_eq_sum]
    exact ⟨hT, hfin, hd0, hjlt, hlt, hle⟩
  · unfold RWSelection
    dsimp only
    rw [totalProb_eq_sum, if_neg (not_not.mpr hT), if_neg (not_not.mpr hfin),
      if_pos (by simp)]

/-- C2 (amended) at the weights `[2, -1, 3]` and `u = 1/2`. -/
theorem RWSelection_in_range_witness :
    (0 < ([2, -1, 3] : List ℚ).sum ∧ ([2, -1, 3] : List ℚ).sum < dblMax ∧
      (0 : ℚ) < 1 / 2 ∧ (1 / 2 : ℚ) < 1) ∧
    ((∃ i, RWSelection [2, -1, 3] (1 / 2) = .ok i ∧ 0 ≤ i ∧
        i < ([2, -1, 3] : List ℚ).length) ∧
      RWSelection [2, -1, 3] 0 = .error .stopPointNotPositive) :=
  have h1 : 0 < ([2, -1, 3] : List ℚ).sum := by norm_num
  have h2 : ([2, -1, 3] : List ℚ).sum < dblMax :=
    lt_trans (by norm_num) dblMax_large
  ⟨⟨h1, h2, by norm_num, by norm_num⟩,
    RWSelection_in_range [2, -1, 3] (1 / 2) h1 h2 (by norm_num) (by norm_num)⟩

/-- C3: whenever the sum of the selection weights is `≤ 0`, `RWSelection` ends
in the fatal failure of `assert(dTotalProb > 0)` for every deviate and returns no
index; the empty population is such a case. -/
theorem RWSelection_nonpositive_total_is_fatal (ws : List ℚ) (u : ℚ)
    (h : ws.sum ≤ 0) :
    RWSelection ws u = .error .totalNotPositive ∧
      (¬ ∃ k, RWSelection ws u = .ok k) ∧
      RWSelection [] u = .error .totalNotPositive := by
  have h1 : RWSelection ws u = .error .totalNotPositive := by
    unfold RWSelection
    dsimp only
    rw [totalProb_eq_sum, if_pos (not_lt.mpr h)]
  refine ⟨h1, ?_, ?_⟩
  · rintro ⟨k, hk⟩
    rw [h1] at hk; cases hk
  · simp [RWSelection, totalProb]

/-- C3 at the weights `[1, -1]`, whose sum is `0`, and `u = 1/2`. -/
theorem RWSelection_nonpositive_total_is_fatal_witness :
    ([1, -1] : List ℚ).sum ≤ 0 ∧
    (RWSelection [1, -1] (1 / 2) = .error .totalNotPositive ∧
      (¬ ∃ k, RWSelection [1, -1] (1 / 2) = .ok k) ∧
      RWSelection [] (1 / 2) = .error .totalNotPositive) :=
  ⟨by norm_num, RWSelection_nonpositive_total_is_fatal [1, -1] (1 / 2) (by norm_num)⟩

/-- C4: whenever `RWSelection` returns an index for non-negative weights with a
positive total, the weight at that index is strictly positive; for the weights
`[0, 0, 0, 1]` the returned index is therefore always `3`. -/
theorem RWSelection_positive_weight (ws : List ℚ) (u : ℚ) (k : Nat)
    (hnn : ∀ w ∈ ws, 0 ≤ w) (hT : 0 < ws.sum)
    (hret : RWSelection ws u = .ok k) :
    (∃ h : k < ws.length, 0 < ws.get ⟨k, h⟩) ∧ (ws = [0, 0, 0, 1] → k = 3) := by
  obtain ⟨_, _, hd, hk, hlt, hle⟩ := (RWSelection_eq_ok_iff ws u k).1 hret
  have hbefore : cumWeight ws k < u * totalProb ws :=
    (first_reaching_iff ws hnn _ hd k).1 hlt
  have hw : 0 < ws.get ⟨k, hk⟩ := by
    rw [cumWeight_succ ws k hk] at hle
    linarith
  refine ⟨⟨hk, hw⟩, ?_⟩
  intro hws
  subst hws
  have hk4 : k < 4 := by simpa using hk
  interval_cases k
  · simp at hw
  · simp at hw
  · simp at hw
  · rfl

/-- C4 at the weights `[0, 0, 0, 1]` and `u = 1/2`, where index `3` is
returned. -/
theorem RWSelection_positive_weight_witness :
    ((∀ w ∈ ([0, 0, 0, 1] : List ℚ), 0 ≤ w) ∧ 0 < ([0, 0, 0, 1] : List ℚ).sum ∧
      RWSelection [0, 0, 0, 1] (1 / 2) = .ok 3) ∧
    ((∃ h : 3 < ([0, 0, 0, 1] : List ℚ).length, 0 < ([0, 0, 0, 1] : List ℚ).get ⟨3, h⟩) ∧
      (([0, 0, 0, 1] : List ℚ) = [0, 0, 0, 1] → 3 = 3)) :=
  have h1 : ∀ w ∈ ([0, 0, 0, 1] : List ℚ), 0 ≤ w := by
    intro w hw
    have : w = 0 ∨ w = 1 := by simpa using hw
    rcases this with h | h <;> simp [h]
  have h2 : 0 < ([0, 0, 0, 1] : List ℚ).sum := by norm_num
  have h3 : RWSelection [0, 0, 0, 1] (1 / 2) = .ok 3 := by
    norm_num [RWSelection, totalProb, rwScan, dblMax_pos]
  ⟨⟨h1, h2, h3⟩, RWSelection_positive_weight [0, 0, 0, 1] (1 / 2) 3 h1 h2 h3⟩

/-! ## Penalty schedule: lemmas and claims -/

theorem pen_eq_sq (bn n : Nat) :
    pen bn n = (min (2 * ((n : ℚ) + 1) / (bn : ℚ)) 1) ^ 2 := by
  simp [pen, sq]

theorem pen_ratio_pos (bn n : Nat) (hbn : 0 < bn) :
    0 < 2 * ((n : ℚ) + 1) / (bn : ℚ) := by
  have h1 : (0 : ℚ) < bn := by exact_mod_cast hbn
  have h2 : (0 : ℚ) ≤ n := by exact_mod_cast Nat.zero_le n
  have h3 : (0 : ℚ) < 2 * ((n : ℚ) + 1) := by linarith
  exact div_pos h3 h1

theorem pen_clamp_pos (bn n : Nat) (hbn : 0 < bn) :
    0 < min (2 * ((n : ℚ) + 1) / (bn : ℚ)) 1 :=
  lt_min (pen_ratio_pos bn n hbn) one_pos

theorem pen_clamp_mono (bn n m : Nat) (h : n ≤ m) :
    min (2 * ((n : ℚ) + 1) / (bn : ℚ)) 1 ≤ min (2 * ((m : ℚ) + 1) / (bn : ℚ)) 1 := by
  have h1 : (0 : ℚ) ≤ bn := by exact_mod_cast Nat.zero_le bn
  have h2 : (n : ℚ) ≤ m := by exact_mod_cast h
  have h3 : 2 * ((n : ℚ) + 1) / (bn : ℚ) ≤ 2 * ((m : ℚ) + 1) / (bn : ℚ) :=
    div_le_div_of_nonneg_right (by linarith) h1
  exact min_le_min h3 (le_refl 1)

/-- C5: for every burn-in length `bn > 0` and every generation `n`, the penalty
computed by the estimation loops is `min(2*(n+1)/bn, 1)^2` and lies in
`(0, 1]`. -/
theorem pen_pos_le_one (bn n : Nat) (hbn : 0 < bn) :
    pen bn n = (min (2 * ((n : ℚ) + 1) / (bn : ℚ)) 1) ^ 2 ∧
      0 < pen bn n ∧ pen bn n ≤ 1 := by
  have hpos := pen_clamp_pos bn n hbn
  have hle : min (2 * ((n : ℚ) + 1) / (bn : ℚ)) 1 ≤ 1 := min_le_right _ _
  refine ⟨pen_eq_sq bn n, ?_, ?_⟩
  · rw [pen_eq_sq]; positivity
  · rw [pen_eq_sq]; nlinarith

/-- C5 at the default burn-in `56`, generation `3`. -/
theorem pen_pos_le_one_witness :
    0 < 56 ∧
    (pen 56 3 = (min (2 * (((3 : Nat) : ℚ) + 1) / ((56 : Nat) : ℚ)) 1) ^ 2 ∧
      0 < pen 56 3 ∧ pen 56 3 ≤ 1) :=
  ⟨by decide, pen_pos_le_one 56 3 (by decide)⟩

/-- C6: for every burn-in length `bn > 0` the penalty is monotonically
non-decreasing in the generation index. -/
theorem pen_mono (bn n m : Nat) (hbn : 0 < bn) (h : n ≤ m) :
    pen bn n ≤ pen bn m := by
  have hpos := pen_clamp_pos bn n hbn
  have hmono := pen_clamp_mono bn n m h
  rw [pen_eq_sq, pen_eq_sq]
  exact pow_le_pow_left₀ (le_of_lt hpos) hmono 2

/-- C6 at burn-in `56`, generations `3 ≤ 40`. -/
theorem pen_mono_witness : (0 < 56 ∧ 3 ≤ 40) ∧ pen 56 3 ≤ pen 56 40 :=
  ⟨⟨by decide, by decide⟩, pen_mono 56 3 40 (by decide) (by decide)⟩

/-- The penalty is `1` exactly from `n ≥ bn/2 - 1` (exact quotient) on. -/
theorem pen_eq_one_iff (bn n : Nat) (hbn : 0 < bn) :
    pen bn n = 1 ↔ (bn : ℚ) / 2 - 1 ≤ (n : ℚ) := by
  have h1 : (0 : ℚ) < bn := by exact_mod_cast hbn
  constructor
  · intro h
    by_contra hlt
    have h2 : 2 * ((n : ℚ) + 1) / (bn : ℚ) < 1 := by
      rw [div_lt_iff₀ h1]; linarith [not_le.mp hlt]
    have h3 := pen_ratio_pos bn n hbn
    rw [pen_eq_sq, min_eq_left (le_of_lt h2)] at h
    nlinarith
  · intro h
    have h2 : (1 : ℚ) ≤ 2 * ((n : ℚ) + 1) / (bn : ℚ) := by
      rw [le_div_iff₀ h1]; linarith
    rw [pen_eq_sq, min_eq_right h2]; norm_num

/-- C7: for every burn-in length `bn > 0` and every generation `n` with
`n ≥ bn/2 - 1` (the exact quotient), the penalty equals `1`. -/
theorem pen_eq_one (bn n : Nat) (hbn : 0 < bn) (h : (bn : ℚ) / 2 - 1 ≤ (n : ℚ)) :
    pen bn n = 1 :=
  (pen_eq_one_iff bn n hbn).2 h

/-- C7 at burn-in `56`, generation `27 = 56/2 - 1`. -/
theorem pen_eq_one_witness :
    (0 < 56 ∧ (((56 : Nat) : ℚ)) / 2 - 1 ≤ ((27 : Nat) : ℚ)) ∧ pen 56 27 = 1 :=
  ⟨⟨by decide, by norm_num⟩, pen_eq_one 56 27 (by decide) (by norm_num)⟩

/-- With the rounded-down quotient of an odd burn-in (`5 / 2 - 1 = 1`) the
penalty is still below `1`. -/
theorem pen_odd_burnin_example : pen 5 1 = 16 / 25 := by
  norm_num [pen]

/-- C8: for every generation `n` with `2*(n+1) < bn` the clamp is inactive, the
penalty equals `(2*(n+1)/bn)^2` and is strictly below `1`; in particular
`pen(n = 0, bn = 56) = (2/56)^2`. -/
theorem pen_unclamped (bn n : Nat) (hbn : 0 < bn) (h : 2 * (n + 1) < bn) :
    pen bn n = (2 * ((n : ℚ) + 1) / (bn : ℚ)) ^ 2 ∧ pen bn n < 1 ∧
      pen 56 0 = (2 / 56 : ℚ) ^ 2 := by
  have h1 : (0 : ℚ) < bn := by exact_mod_cast hbn
  have h2 : 2 * ((n : ℚ) + 1) < (bn : ℚ) := by exact_mod_cast h
  have h3 : 2 * ((n : ℚ) + 1) / (bn : ℚ) < 1 := by
    rw [div_lt_iff₀ h1]; linarith
  have h4 := pen_ratio_pos bn n hbn
  have h5 : pen bn n = (2 * ((n : ℚ) + 1) / (bn : ℚ)) ^ 2 := by
    rw [pen_eq_sq, min_eq_left (le_of_lt h3)]
  refine ⟨h5, ?_, ?_⟩
  · rw [h5]; nlinarith
  · norm_num [pen]

/-- C8 at burn-in `56`, generation `0`. -/
theorem pen_unclamped_witness :
    (0 < 56 ∧ 2 * (0 + 1) < 56) ∧
    (pen 56 0 = (2 * (((0 : Nat) : ℚ) + 1) / ((56 : Nat) : ℚ)) ^ 2 ∧ pen 56 0 < 1 ∧
      pen 56 0 = (2 / 56 : ℚ) ^ 2) :=
  ⟨⟨by decide, by decide⟩, pen_unclamped 56 0 (by decide) (by decide)⟩

/-! ## The Metropolis sampler: lemmas and claims -/

theorem updateFlags_append (a b : List Call) :
    updateFlags (a ++ b) = updateFlags a ++ updateFlags b := by
  induction a with
  | nil => rfl
  | cons x rest ih => cases x <;> simp [updateFlags, ih]

theorem committed_append (a b : List Call) :
    committed (a ++ b) = committed a ++ committed b := by
  induction a with
  | nil => rfl
  | cons x rest ih => cases x <;> simp [committed, ih]

theorem solveTest_fst {W : Type} (c : World W) (curr prop pen : ℚ) (w : W) :
    (solveTest c curr prop pen w).1 = true ↔
      prop > curr ∨ (c.gsl_rng_uniform w).1 < c.exp ((prop - curr) * pen) := by
  unfold solveTest
  by_cases h : prop > curr
  · simp [h]
  · simp [h]

theorem solveTest_calls {W : Type} (c : World W) (curr prop pen : ℚ) (w : W) :
    updateFlags (solveTest c curr prop pen w).2.2 = [] ∧
      committed (solveTest c curr prop pen w).2.2 = [] := by
  unfold solveTest
  by_cases h : prop > curr
  · simp [h, updateFlags, committed]
  · simp [h, updateFlags, committed]

theorem solveLoop_zero {W : Type} (c : World W) (kick : Bool) (iter I : Nat)
    (pen : ℚ) (s : SolveState W) : solveLoop c kick iter I pen 0 s = s := by
  simp [solveLoop]

theorem solveLoop_succ {W : Type} (c : World W) (kick : Bool) (iter I : Nat)
    (pen : ℚ) (k : Nat) (s : SolveState W) :
    solveLoop c kick iter I pen (k + 1) s =
      solveStep c kick iter I pen k (solveLoop c kick iter I pen k s) := by
  simp [solveLoop, List.range_succ, List.foldl_append]

theorem solveStep_updateFlags {W : Type} (c : World W) (kick : Bool) (iter I : Nat)
    (pen : ℚ) (n : Nat) (s : SolveState W) :
    updateFlags (solveStep c kick iter I pen n s).calls =
      updateFlags s.calls ++ [solveAccepted c kick I pen n s] := by
  have h := (solveTest_calls c s.curr (solvePropose c kick I n s).prop pen
    (solvePropose c kick I n s).world).1
  unfold solveStep solveAccepted
  dsimp only
  rw [updateFlags_append, updateFlags_append, updateFlags_append, updateFlags_append, h]
  cases (solveTest c s.curr (solvePropose c kick I n s).prop pen
    (solvePropose c kick I n s).world).1 <;> simp [updateFlags]

theorem solveStep_committed {W : Type} (c : World W) (kick : Bool) (iter I : Nat)
    (pen : ℚ) (n : Nat) (s : SolveState W) :
    committed (solveStep c kick iter I pen n s).calls = committed s.calls := by
  have h := (solveTest_calls c s.curr (solvePropose c kick I n s).prop pen
    (solvePropose c kick I n s).world).2
  unfold solveStep
  dsimp only
  rw [committed_append, committed_append, committed_append, committed_append, h]
  cases (solveTest c s.curr (solvePropose c kick I n s).prop pen
    (solvePropose c kick I n s).world).1 <;> simp [committed]

theorem solveStep_of_accepted {W : Type} (c : World W) (kick : Bool) (iter I : Nat)
    (pen : ℚ) (n : Nat) (s : SolveState W)
    (h : solveAccepted c kick I pen n s = true) :
    (solveStep c kick iter I pen n s).curr = (solvePropose c kick I n s).prop ∧
      (solveStep c kick iter I pen n s).p = (solvePropose c kick I n s).p := by
  unfold solveAccepted at h
  dsimp only at h
  unfold solveStep
  dsimp only
  rw [h]
  simp

theorem solveStep_of_rejected {W : Type} (c : World W) (kick : Bool) (iter I : Nat)
    (pen : ℚ) (n : Nat) (s : SolveState W)
    (h : solveAccepted c kick I pen n s = false) :
    (solveStep c kick iter I pen n s).curr = s.curr ∧
      (solveStep c kick iter I pen n s).p = s.p := by
  unfold solveAccepted at h
  dsimp only at h
  unfold solveStep
  dsimp only
  rw [h]
  simp [solvePropose]

theorem solveLoop_committed {W : Type} (c : World W) (kick : Bool) (iter I : Nat)
    (pen : ℚ) (k : Nat) (s : SolveState W) :
    committed (solveLoop c kick iter I pen k s).calls = committed s.calls := by
  induction k with
  | zero => rw [solveLoop_zero]
  | succ k ih => rw [solveLoop_succ, solveStep_committed, ih]

/-- C9: in every step of `solve` the proposal is accepted exactly when
`prop > curr` or the uniform deviate `u` of the generator is below
`exp((prop - curr) * pen)`; the flag decided this way is the one handed to
`UpdateGraph`, and on acceptance the current likelihood becomes `prop`. -/
theorem solveStep_accepts_iff {W : Type} (c : World W) (kick : Bool) (iter I : Nat)
    (pen : ℚ) (n : Nat) (s : SolveState W) :
    (solveAccepted c kick I pen n s = true ↔
        (solvePropose c kick I n s).prop > s.curr ∨
          (c.gsl_rng_uniform (solvePropose c kick I n s).world).1 <
            c.exp (((solvePropose c kick I n s).prop - s.curr) * pen)) ∧
      updateFlags (solveStep c kick iter I pen n s).calls =
        updateFlags s.calls ++ [solveAccepted c kick I pen n s] ∧
      (solveAccepted c kick I pen n s = true →
        (solveStep c kick iter I pen n s).curr = (solvePropose c kick I n s).prop) := by
  refine ⟨?_, solveStep_updateFlags c kick iter I pen n s, ?_⟩
  · unfold solveAccepted
    exact solveTest_fst c _ _ _ _
  · intro h
    exact (solveStep_of_accepted c kick iter I pen n s h).1

set_option maxRecDepth 4000

/-- C9 at the first step in the counter world: the proposal `[15, 11, 12, 13]`
has likelihood `51 > 46`, is accepted, and `51` becomes the current
likelihood. -/
theorem solveStep_accepts_iff_witness :
    solveAccepted counterWorld false 0 1 0 (solveInit counterWorld 0 0) = true ∧
      (solveStep counterWorld false 0 0 1 0 (solveInit counterWorld 0 0)).curr =
        (solvePropose counterWorld false 0 0 (solveInit counterWorld 0 0)).prop :=
  ⟨by decide,
    (solveStep_accepts_iff counterWorld false 0 0 1 0 (solveInit counterWorld 0 0)).2.2
      (by decide)⟩

/-- A rejected step: with kickstart the first replacement comes from the
reference panel, the proposal `[1, 11, 12, 13]` has likelihood `37 < 46`, the
deviate `1/2` is not below `exp(-9) = 1/4` (in the counter world), and the step
keeps the likelihood `46` and the parents `[10, 11, 12, 13]`. -/
theorem solveStep_counterWorld_rejects :
    solveAccepted counterWorld true 0 1 0 (solveInit counterWorld 0 0) = false ∧
      (solvePropose counterWorld true 0 0 (solveInit counterWorld 0 0)).prop = 37 ∧
      (solveStep counterWorld true 0 0 1 0 (solveInit counterWorld 0 0)).curr = 46 ∧
      (solveStep counterWorld true 0 0 1 0 (solveInit counterWorld 0 0)).p =
        ![10, 11, 12, 13] ∧
      updateFlags (solveStep counterWorld true 0 0 1 0 (solveInit counterWorld 0 0)).calls =
        [false] := by
  have hp : (solvePropose counterWorld true 0 0 (solveInit counterWorld 0 0)).prop = 37 := by
    decide
  have hc : (solveInit counterWorld 0 0).curr = 46 := by decide
  have hacc : solveAccepted counterWorld true 0 1 0 (solveInit counterWorld 0 0) = false := by
    unfold solveAccepted
    dsimp only
    rw [hp, hc]
    norm_num [solveTest, counterWorld]
  have hrej := solveStep_of_rejected counterWorld true 0 0 1 0 (solveInit counterWorld 0 0) hacc
  refine ⟨hacc, hp, ?_, ?_, ?_⟩
  · rw [hrej.1, hc]
  · rw [hrej.2]; decide
  · rw [solveStep_updateFlags, hacc]; decide

/-- C10: if at every one of the `N ≥ 1` steps the oracle returns for the
proposal a likelihood strictly greater than the current one, then `solve` hands
`accepted = true` to all `N` graph updates, commits (once, for `I`, with `pen`)
the configuration of the last proposal tried, and returns the likelihood of that
proposal. -/
theorem solve_all_accepted {W : Type} (c : World W) (kick : Bool) (iter I N : Nat)
    (pen : ℚ) (w : W) (hN : 1 ≤ N)
    (hbetter : ∀ k, k < N →
      (solveLoop c kick iter I pen k (solveInit c I w)).curr <
        (solvePropose c kick I k (solveLoop c kick iter I pen k (solveInit c I w))).prop) :
    updateFlags (solve c kick iter I N pen w).calls = List.replicate N true ∧
      committed (solve c kick iter I N pen w).calls =
        [(I, (solvePropose c kick I (N - 1)
          (solveLoop c kick iter I pen (N - 1) (solveInit c I w))).p, pen)] ∧
      (solve c kick iter I N pen w).ret =
        (solvePropose c kick I (N - 1)
          (solveLoop c kick iter I pen (N - 1) (solveInit c I w))).prop := by
  have hacc : ∀ k, k < N →
      solveAccepted c kick I pen k (solveLoop c kick iter I pen k (solveInit c I w)) = true := by
    intro k hk
    unfold solveAccepted
    exact (solveTest_fst c _ _ _ _).2 (Or.inl (hbetter k hk))
  have hflags : ∀ k, k ≤ N →
      updateFlags (solveLoop c kick iter I pen k (solveInit c I w)).calls =
        List.replicate k true := by
    intro k
    induction k with
    | zero => intro _; simp [solveLoop_zero, solveInit, updateFlags]
    | succ k ih =>
      intro hk
      rw [solveLoop_succ, solveStep_updateFlags, ih (by omega), hacc k (by omega),
        List.replicate_succ']
  obtain ⟨M, rfl⟩ : ∃ M, N = M + 1 := ⟨N - 1, by omega⟩
  have hlast := solveStep_of_accepted c kick iter I pen M
    (solveLoop c kick iter I pen M (solveInit c I w)) (hacc M (by omega))
  refine ⟨?_, ?_, ?_⟩
  · unfold solve
    dsimp only
    rw [updateFlags_append, hflags (M + 1) (le_refl _)]
    simp [updateFlags]
  · unfold solve
    dsimp only
    rw [committed_append, solveLoop_committed, solveLoop_succ, hlast.2]
    simp [solveInit, committed]
  · unfold solve
    dsimp only
    rw [solveLoop_succ, hlast.1]
    simp

/-- C10 in the counter world, for individual `0`, `N = 2` steps and penalty `1`:
both proposals raise the sum of the parents (from `46` to `51` to `56`). -/
theorem solve_all_accepted_witness :
    (1 ≤ 2 ∧ ∀ k, k < 2 →
      (solveLoop counterWorld false 0 0 1 k (solveInit counterWorld 0 0)).curr <
        (solvePropose counterWorld false 0 k
          (solveLoop counterWorld false 0 0 1 k (solveInit counterWorld 0 0))).prop) ∧
    (updateFlags (solve counterWorld false 0 0 2 1 0).calls = List.replicate 2 true ∧
      committed (solve counterWorld false 0 0 2 1 0).calls =
        [(0, (solvePropose counterWorld false 0 (2 - 1)
          (solveLoop counterWorld false 0 0 1 (2 - 1) (solveInit counterWorld 0 0))).p, 1)] ∧
      (solve counterWorld false 0 0 2 1 0).ret =
        (solvePropose counterWorld false 0 (2 - 1)
          (solveLoop counterWorld false 0 0 1 (2 - 1) (solveInit counterWorld 0 0))).prop) :=
  ⟨⟨by decide, by decide⟩,
    solve_all_accepted counterWorld false 0 0 2 1 0 (by decide) (by decide)⟩

/-- The run of the counter world used above, evaluated: two accepted updates,
the configuration `[15, 11, 17, 13]` committed for individual `0`, likelihood
`56` returned. -/
theorem solve_counterWorld_run :
    updateFlags (solve counterWorld false 0 0 2 1 0).calls = [true, true] ∧
      committed (solve counterWorld false 0 0 2 1 0).calls = [(0, ![15, 11, 17, 13], 1)] ∧
      (solve counterWorld false 0 0 2 1 0).ret = 56 := by
  decide

/-! ## The Metropolis sampler: the likelihood invariant -/

theorem solvePropose_prop {W : Type} (c : World W) (kick : Bool) (I n : Nat)
    (s : SolveState W) (f : Nat → Parents → ℚ)
    (hpure : ∀ I p w, (c.hmm_like I p w).1 = f I p) :
    (solvePropose c kick I n s).prop = f I (solvePropose c kick I n s).p := by
  unfold solvePropose
  dsimp only
  rw [hpure]

theorem solveStep_keeps_invariant {W : Type} (c : World W) (kick : Bool) (iter I : Nat)
    (pen : ℚ) (n : Nat) (s : SolveState W) (f : Nat → Parents → ℚ)
    (hpure : ∀ I p w, (c.hmm_like I p w).1 = f I p)
    (hinv : s.curr = f I s.p) :
    (solveStep c kick iter I pen n s).curr = f I (solveStep c kick iter I pen n s).p := by
  cases hacc : solveAccepted c kick I pen n s with
  | true =>
    obtain ⟨h1, h2⟩ := solveStep_of_accepted c kick iter I pen n s hacc
    rw [h1, h2]
    exact solvePropose_prop c kick I n s f hpure
  | false =>
    obtain ⟨h1, h2⟩ := solveStep_of_rejected c kick iter I pen n s hacc
    rw [h1, h2]
    exact hinv

theorem solveInit_invariant {W : Type} (c : World W) (I : Nat) (w : W)
    (f : Nat → Parents → ℚ) (hpure : ∀ I p w, (c.hmm_like I p w).1 = f I p) :
    (solveInit c I w).curr = f I (solveInit c I w).p := by
  unfold solveInit
  dsimp only
  rw [hpure]

theorem solveLoop_invariant {W : Type} (c : World W) (kick : Bool) (iter I : Nat)
    (pen : ℚ) (k : Nat) (w : W) (f : Nat → Parents → ℚ)
    (hpure : ∀ I p w, (c.hmm_like I p w).1 = f I p) :
    (solveLoop c kick iter I pen k (solveInit c I w)).curr =
      f I (solveLoop c kick iter I pen k (solveInit c I w)).p := by
  induction k with
  | zero => rw [solveLoop_zero]; exact solveInit_invariant c I w f hpure
  | succ k ih =>
    rw [solveLoop_succ]
    exact solveStep_keeps_invariant c kick iter I pen k _ f hpure ih

/-- C11: if the oracle's value is a function `f` of the individual and the four
parents alone, then `curr = f I p` holds after every number `k` of steps, and the
value `solve` returns is `f I p` for exactly the configuration `p` that its one
`hmm_work` call commits (for `I`, with `pen`), for every `N ≥ 0`. -/
theorem solve_returns_committed_likelihood {W : Type} (c : World W) (kick : Bool)
    (iter I N : Nat) (pen : ℚ) (w : W) (f : Nat → Parents → ℚ)
    (hpure : ∀ I p w, (c.hmm_like I p w).1 = f I p) :
    (∀ k, (solveLoop c kick iter I pen k (solveInit c I w)).curr =
        f I (solveLoop c kick iter I pen k (solveInit c I w)).p) ∧
      ∃ p, committed (solve c kick iter I N pen w).calls = [(I, p, pen)] ∧
        (solve c kick iter I N pen w).ret = f I p := by
  refine ⟨fun k => solveLoop_invariant c kick iter I pen k w f hpure, ?_⟩
  refine ⟨(solveLoop c kick iter I pen N (solveInit c I w)).p, ?_, ?_⟩
  · unfold solve
    dsimp only
    rw [committed_append, solveLoop_committed]
    simp [solveInit, committed]
  · unfold solve
    dsimp only
    exact solveLoop_invariant c kick iter I pen N w f hpure

/-- C11 in the counter world, whose oracle is the sum of the four parents, for
`N = 2` steps. -/
theorem solve_returns_committed_likelihood_witness :
    (∀ (I : Nat) (p : Parents) (w : Nat),
        (counterWorld.hmm_like I p w).1 = ((p 0 + p 1 + p 2 + p 3 : Nat) : ℚ)) ∧
    ((∀ k, (solveLoop counterWorld false 0 0 1 k (solveInit counterWorld 0 0)).curr =
        (((solveLoop counterWorld false 0 0 1 k (solveInit counterWorld 0 0)).p 0 +
          (solveLoop counterWorld false 0 0 1 k (solveInit counterWorld 0 0)).p 1 +
          (solveLoop counterWorld false 0 0 1 k (solveInit counterWorld 0 0)).p 2 +
          (solveLoop counterWorld false 0 0 1 k (solveInit counterWorld 0 0)).p 3 : Nat) : ℚ)) ∧
      ∃ p, committed (solve counterWorld false 0 0 2 1 0).calls = [(0, p, 1)] ∧
        (solve counterWorld false 0 0 2 1 0).ret = ((p 0 + p 1 + p 2 + p 3 : Nat) : ℚ)) :=
  ⟨fun _ _ _ => rfl,
    solve_returns_committed_likelihood counterWorld false 0 0 2 1 0
      (fun _ p => ((p 0 + p 1 + p 2 + p 3 : Nat) : ℚ)) (fun _ _ _ => rfl)⟩

/-! ## The evolutionary sampler: the set-up of the chains -/

namespace EMCChain

theorem setParent_setParent (ch : EMCChain) (j : Fin 4) (a b : Nat) :
    (ch.setParent j a).setParent j b = ch.setParent j b := by
  simp [setParent]

theorem getParent_setParent_same (ch : EMCChain) (j : Fin 4) (a : Nat) :
    (ch.setParent j a).getParent j = a := by
  simp [setParent, getParent]

theorem getParent_setParent_ne (ch : EMCChain) (j k : Fin 4) (a : Nat) (h : k ≠ j) :
    (ch.setParent j a).getParent k = ch.getParent k := by
  simp [setParent, getParent, Function.update_noteq h]

theorem setParent_getParent (ch : EMCChain) (j : Fin 4) :
    ch.setParent j (ch.getParent j) = ch := by
  simp [setParent, getParent]

end EMCChain

/-- What the drawing loop returns: the chain it was given with slot `j` set to
a value `v % m` of the generator that is not a haplotype of `I`. -/
theorem drawParent_spec {W : Type} (c : World W) (m I : Nat) (j : Fin 4) (fuel : Nat) :
    ∀ (ch : EMCChain) (w : W) (r : EMCChain × W),
      drawParent c m I j fuel ch w = .ok r →
        r.1.getParent j / 2 ≠ I ∧ ∃ v, r.1 = ch.setParent j (v % m) := by
  induction fuel with
  | zero => intro ch w r h; simp [drawParent] at h
  | succ fuel ih =>
    intro ch w r h
    rw [drawParent] at h
    by_cases hc : (ch.setParent j ((c.gsl_rng_get w).1 % m)).getParent j / 2 = I
    · rw [if_pos (by simpa using hc)] at h
      obtain ⟨h1, v, h2⟩ := ih _ _ _ h
      refine ⟨h1, v, ?_⟩
      rw [h2, EMCChain.setParent_setParent]
    · rw [if_neg (by simpa using hc)] at h
      have hr : r = (ch.setParent j ((c.gsl_rng_get w).1 % m), (c.gsl_rng_get w).2) := by
        injection h with h; exact h.symm
      subst hr
      exact ⟨hc, (c.gsl_rng_get w).1, rfl⟩

/-- What the set-up of chain `i` returns: a chain of individual `I` with
identifier `i`, temperature `(i+1) * fMaxTemp / s_uParallelChains` and four
parents none of which is a haplotype of `I`. -/
theorem initChain_spec {W : Type} (c : World W) (e : EMCEnv) (I i fuel : Nat) (w : W)
    (r : EMCChain × W) (h : initChain c e I i fuel w = .ok r) :
    r.1.m_fTemp = ((i : ℚ) + 1) * fMaxTemp e / (e.s_uParallelChains : ℚ) ∧
      r.1.m_uI = I ∧ r.1.m_uChainID = i ∧ ∀ j : Fin 4, r.1.getParent j / 2 ≠ I := by
  unfold initChain at h
  dsimp only at h
  split at h
  · cases h
  next r0 h0 =>
  obtain ⟨p0, v0, e0⟩ := drawParent_spec c _ _ _ _ _ _ _ h0
  have hI0 : r0.1.m_uI = I := by rw [e0]; rfl
  split at h
  · cases h
  next r1 h1 =>
  obtain ⟨p1, v1, e1⟩ := drawParent_spec c _ _ _ _ _ _ _ h1
  have hI1 : r1.1.m_uI = I := by rw [e1]; exact hI0
  split at h
  · cases h
  next r2 h2 =>
  obtain ⟨p2, v2, e2⟩ := drawParent_spec c _ _ _ _ _ _ _ h2
  have hI2 : r2.1.m_uI = I := by rw [e2]; exact hI1
  split at h
  · cases h
  next r3 h3 =>
  obtain ⟨p3, v3, e3⟩ := drawParent_spec c _ _ _ _ _ _ _ h3
  have hI3 : r3.1.m_uI = I := by rw [e3]; exact hI2
  have p0 : r0.1.getParent 0 / 2 ≠ I := p0
  rw [hI0] at p1
  rw [hI1] at p2
  rw [hI2] at p3
  have hr : r = (r3.1.setLike (c.hmm_like r3.1.m_uI r3.1.getParents r3.2).1,
      (c.hmm_like r3.1.m_uI r3.1.getParents r3.2).2) := by
    injection h with h; exact h.symm
  subst hr
  have q2 : r3.1.getParent 2 / 2 ≠ I := by
    rw [e3, EMCChain.getParent_setParent_ne _ _ _ _ (by decide)]; exact p2
  have q1 : r3.1.getParent 1 / 2 ≠ I := by
    rw [e3, EMCChain.getParent_setParent_ne _ _ _ _ (by decide), e2,
      EMCChain.getParent_setParent_ne _ _ _ _ (by decide)]; exact p1
  have q0 : r3.1.getParent 0 / 2 ≠ I := by
    rw [e3, EMCChain.getParent_setParent_ne _ _ _ _ (by decide), e2,
      EMCChain.getParent_setParent_ne _ _ _ _ (by decide), e1,
      EMCChain.getParent_setParent_ne _ _ _ _ (by decide)]; exact p0
  refine ⟨?_, hI3, ?_, ?_⟩
  · show r3.1.m_fTemp = _
    rw [e3, e2, e1, e0]; rfl
  · show r3.1.m_uChainID = i
    rw [e3, e2, e1, e0]; rfl
  · intro j
    show r3.1.getParent j / 2 ≠ I
    fin_cases j
    · exact q0
    · exact q1
    · exact q2
    · exact p3

/-- What the set-up loop returns after `k` passes: `k` chains, the identity
hierarchy, and at every index `r` a chain as `initChain` builds it. -/
theorem emcInit_spec {W : Type} (c : World W) (e : EMCEnv) (I fuel k : Nat) :
    ∀ (w : W) (s : EMCState W), emcInit c e I fuel k w = .ok s →
      s.vcChains.length = k ∧ s.vuChainTempHierarchy = List.range k ∧
        ∀ (r : Nat) (ch : EMCChain), s.vcChains[r]? = some ch →
          ch.m_fTemp = ((r : ℚ) + 1) * fMaxTemp e / (e.s_uParallelChains : ℚ) ∧
            ch.m_uI = I ∧ ch.m_uChainID = r ∧ ∀ j : Fin 4, ch.getParent j / 2 ≠ I := by
  induction k with
  | zero =>
    intro w s h
    rw [emcInit] at h
    injection h with h
    subst h
    simp
  | succ k ih =>
    intro w s h
    rw [emcInit] at h
    split at h
    · cases h
    next s1 h1 =>
    obtain ⟨hlen, hhier, hch⟩ := ih w s1 h1
    split at h
    · cases h
    next r1 h2 =>
    injection h with h
    subst h
    have hspec := initChain_spec c e I k fuel s1.world r1 h2
    refine ⟨by simp [hlen], by simp [hhier, List.range_succ], ?_⟩
    intro r ch hr
    dsimp only at hr
    rw [List.getElem?_append] at hr
    by_cases hlt : r < s1.vcChains.length
    · rw [if_pos hlt] at hr
      exact hch r ch hr
    · rw [if_neg hlt] at hr
      have hrk : r = k := by
        by_contra hne
        have : r - s1.vcChains.length ≠ 0 := by omega
        obtain ⟨n, hn⟩ := Nat.exists_eq_succ_of_ne_zero this
        rw [hn] at hr
        simp at hr
      subst hrk
      rw [hlen] at hr
      simp at hr
      subst hr
      exact hspec

/-- C12, as stated, fails: with two chains and the spread `S = 1/2` the run of
`solve_EMC` with no iteration ends with the temperatures `1` and `2` of the
set-up, whereas `(r+1) * S / parallelChains` is `1/4` and `1/2`. -/
theorem solve_EMC_temperature_ignores_spread :
    (solve_EMC counterWorld emcEnv2 0 0 (1 / 2) 4 0).toOption.map
        (fun r => r.state.vcChains.map (fun ch => ch.m_fTemp)) = some [1, 2] ∧
      (1 : ℚ) ≠ ((0 : ℚ) + 1) * (1 / 2) / 2 ∧ (2 : ℚ) ≠ ((1 : ℚ) + 1) * (1 / 2) / 2 := by
  refine ⟨by decide!, by norm_num, by norm_num⟩

/-- C12 (amended): the set-up of `solve_EMC`, which does not read the spread `S`,
gives the chain at rank `r` the temperature
`(r+1) * fMaxTemp / parallelChains` with `fMaxTemp = parallelChains`, that is
`r + 1`. -/
theorem emcInit_temperature {W : Type} (c : World W) (e : EMCEnv) (I fuel : Nat) (w : W)
    (s : EMCState W) (h : emcInit c e I fuel e.s_uParallelChains w = .ok s) :
    s.vcChains.length = e.s_uParallelChains ∧
      ∀ r, r < e.s_uParallelChains → ∃ ch, s.vcChains[r]? = some ch ∧
        ch.m_fTemp = ((r : ℚ) + 1) * fMaxTemp e / (e.s_uParallelChains : ℚ) ∧
        fMaxTemp e = (e.s_uParallelChains : ℚ) ∧ ch.m_fTemp = (r : ℚ) + 1 := by
  obtain ⟨hlen, _, hch⟩ := emcInit_spec c e I fuel _ w s h
  refine ⟨hlen, ?_⟩
  intro r hr
  have hr2 : r < s.vcChains.length := by omega
  refine ⟨s.vcChains[r], List.getElem?_eq_getElem hr2, ?_⟩
  obtain ⟨ht, _, _, _⟩ := hch r _ (List.getElem?_eq_getElem hr2)
  have hP : (e.s_uParallelChains : ℚ) ≠ 0 := by
    have : 0 < e.s_uParallelChains := by omega
    exact_mod_cast this.ne'
  refine ⟨ht, rfl, ?_⟩
  rw [ht, fMaxTemp]
  field_simp

/-- C12 (amended) in the counter world with two chains. -/
theorem emcInit_temperature_witness :
    emcInit counterWorld emcEnv2 0 4 emcEnv2.s_uParallelChains 0 = .ok emcState2 ∧
    (emcState2.vcChains.length = emcEnv2.s_uParallelChains ∧
      ∀ r, r < emcEnv2.s_uParallelChains → ∃ ch, emcState2.vcChains[r]? = some ch ∧
        ch.m_fTemp = ((r : ℚ) + 1) * fMaxTemp emcEnv2 / (emcEnv2.s_uParallelChains : ℚ) ∧
        fMaxTemp emcEnv2 = (emcEnv2.s_uParallelChains : ℚ) ∧ ch.m_fTemp = (r : ℚ) + 1) :=
  have h : emcInit counterWorld emcEnv2 0 4 emcEnv2.s_uParallelChains 0 = .ok emcState2 := by
    decide!
  ⟨h, emcInit_temperature counterWorld emcEnv2 0 4 0 emcState2 h⟩

theorem exists_ok_of_isSome {ε α : Type} (x : Except ε α)
    (h : x.toOption.isSome = true) : ∃ a, x = .ok a := by
  cases x with
  | error e => simp [Except.toOption] at h
  | ok a => exact ⟨a, rfl⟩

/-- C13: whenever the set-up loop of `solve_EMC` finishes, every one of the four
parents of every chain satisfies `parent / 2 ≠ I`, and every chain belongs to
`I`. -/
theorem emcInit_parents_ok {W : Type} (c : World W) (e : EMCEnv) (I fuel : Nat) (w : W)
    (s : EMCState W) (h : emcInit c e I fuel e.s_uParallelChains w = .ok s) :
    (∀ ch ∈ s.vcChains, ∀ j : Fin 4, ch.getParent j / 2 ≠ I) ∧
      ∀ ch ∈ s.vcChains, ch.m_uI = I := by
  obtain ⟨_, _, hch⟩ := emcInit_spec c e I fuel _ w s h
  constructor
  · intro ch hmem j
    obtain ⟨r, hr⟩ := List.getElem?_of_mem hmem
    exact (hch r ch hr).2.2.2 j
  · intro ch hmem
    obtain ⟨r, hr⟩ := List.getElem?_of_mem hmem
    exact (hch r ch hr).2.1

/-- C13 in the counter world with two chains, for individual `0`: the parents
are `[2, 3, 4, 5]` and `[6, 7, 2, 3]`. -/
theorem emcInit_parents_ok_witness :
    emcInit counterWorld emcEnv2 0 4 emcEnv2.s_uParallelChains 0 = .ok emcState2 ∧
    ((∀ ch ∈ emcState2.vcChains, ∀ j : Fin 4, ch.getParent j / 2 ≠ 0) ∧
      ∀ ch ∈ emcState2.vcChains, ch.m_uI = 0) :=
  have h : emcInit counterWorld emcEnv2 0 4 emcEnv2.s_uParallelChains 0 = .ok emcState2 := by
    decide!
  ⟨h, emcInit_parents_ok counterWorld emcEnv2 0 4 0 emcState2 h⟩

/-! ## The evolutionary sampler: mutation -/

theorem parentsOK_set (I : Nat) (l : List EMCChain) (i : Nat) (ch : EMCChain)
    (hl : ParentsOK I l) (hch : ∀ j : Fin 4, ch.getParent j / 2 ≠ I) :
    ParentsOK I (l.set i ch) := by
  intro x hx j
  rcases List.mem_or_eq_of_mem_set hx with h | h
  · exact hl x h j
  · rw [h]; exact hch j

/-- What the mutation has in hand at its test: the chain `ch` at index
`j = gsl_rng_get % s_uParallelChains`, its likelihood, the old haplotype of the
slot, and `ch` with the slot set to a value `v % hn` that is not a haplotype of
`I`, evaluated by the oracle. -/
theorem mutatePropose_spec {W : Type} (c : World W) (e : EMCEnv) (I fuel : Nat)
    (s : EMCState W) (m : Mutation W) (h : mutatePropose c e I fuel s = .ok m) :
    ∃ ch, s.vcChains[m.j]? = some ch ∧
      m.j = (c.gsl_rng_get s.world).1 % e.s_uParallelChains ∧
      m.curr = ch.getLike ∧ m.oh = ch.getParent m.rp ∧
      m.chain.getParent m.rp / 2 ≠ I ∧
      (∃ v, m.chain = ch.setParent m.rp (v % e.hn)) ∧
      ∃ w3, m.prop = (c.hmm_like m.chain.m_uI m.chain.getParents w3).1 ∧
        m.world = (c.hmm_like m.chain.m_uI m.chain.getParents w3).2 := by
  unfold mutatePropose at h
  dsimp only at h
  split at h
  · cases h
  next ch hch =>
  split at h
  · cases h
  next r hr =>
  obtain ⟨h1, h2⟩ := drawParent_spec c _ _ _ _ _ _ _ hr
  injection h with h
  subst h
  exact ⟨ch, hch, rfl, rfl, rfl, h1, h2, r.2, rfl, rfl⟩

theorem list_set_self_of_getElem? {α : Type} (l : List α) (i : Nat) (a : α)
    (h : l[i]? = some a) : l.set i a = l := by
  apply List.ext_getElem?
  intro n
  rw [List.getElem?_set]
  by_cases hin : i = n
  · subst hin
    rw [if_pos rfl]
    obtain ⟨hlt, _⟩ := List.getElem?_eq_some.1 h
    rw [if_pos hlt, h]
  · rw [if_neg hin]

/-- The two ways a mutation ends: accepted, the chain at `j` is the proposed
chain with likelihood `prop`; rejected, the population is what it was. -/
theorem mutateFinish_spec {W : Type} (c : World W) (e : EMCEnv) (I fuel : Nat)
    (s : EMCState W) (m : Mutation W) (h : mutatePropose c e I fuel s = .ok m) :
    ((mutateTest c m.curr m.prop m.chain.m_fTemp m.world).1 = true →
        (mutateFinish c s m).vcChains = s.vcChains.set m.j (m.chain.setLike m.prop)) ∧
      ((mutateTest c m.curr m.prop m.chain.m_fTemp m.world).1 = false →
        (mutateFinish c s m).vcChains = s.vcChains) ∧
      (mutateFinish c s m).vuChainTempHierarchy = s.vuChainTempHierarchy := by
  obtain ⟨ch, hch, _, _, hoh, _, ⟨v, hv⟩, _⟩ := mutatePropose_spec c e I fuel s m h
  refine ⟨?_, ?_, rfl⟩
  · intro ht
    unfold mutateFinish
    dsimp only
    rw [ht]; rfl
  · intro ht
    unfold mutateFinish
    dsimp only
    rw [ht]
    have : m.chain.setParent m.rp m.oh = ch := by
      rw [hv, hoh, EMCChain.setParent_setParent, EMCChain.setParent_getParent]
    simp only [Bool.false_eq_true, if_false, this]
    exact list_set_self_of_getElem? _ _ _ hch

theorem mutate_keeps_parents_ok {W : Type} (c : World W) (e : EMCEnv) (I fuel : Nat)
    (s s1 : EMCState W) (hinv : ParentsOK I s.vcChains)
    (h : mutate c e I fuel s = .ok s1) : ParentsOK I s1.vcChains := by
  unfold mutate at h
  split at h
  · cases h
  next m hm =>
  injection h with h
  subst h
  obtain ⟨ch, hch, _, _, _, hok, ⟨v, hv⟩, _⟩ := mutatePropose_spec c e I fuel s m hm
  obtain ⟨hacc, hrej, _⟩ := mutateFinish_spec c e I fuel s m hm
  cases ht : (mutateTest c m.curr m.prop m.chain.m_fTemp m.world).1 with
  | true =>
    rw [hacc ht]
    apply parentsOK_set I _ _ _ hinv
    intro k
    show m.chain.getParent k / 2 ≠ I
    by_cases hk : k = m.rp
    · rw [hk]; exact hok
    · rw [hv, EMCChain.getParent_setParent_ne _ _ _ _ hk]
      exact hinv ch (List.getElem?_mem hch) k
  | false =>
    rw [hrej ht]; exact hinv

/-! ## The evolutionary sampler: crossover -/

/-- The loop over the four slots, slot by slot: where the mask bit is set each
chain holds the parent of the other, elsewhere its own; nothing else changes. -/
theorem crossParents_eq (cS : Nat) (a b : EMCChain) :
    crossParents cS a b =
      ({ a with m_auParents := fun i => if test cS i then b.m_auParents i else a.m_auParents i },
       { b with m_auParents := fun i => if test cS i then a.m_auParents i else b.m_auParents i }) := by
  cases a with
  | mk t st ui hn id pa l =>
  cases b with
  | mk t2 st2 ui2 hn2 id2 pb l2 =>
  simp only [crossParents, List.foldl, crossSlot, EMCChain.setParent, EMCChain.getParent]
  by_cases h0 : test cS 0 <;> by_cases h1 : test cS 1 <;> by_cases h2 : test cS 2 <;>
    by_cases h3 : test cS 3 <;>
    simp only [h0, h1, h2, h3, if_true, if_false, Bool.false_eq_true, Prod.mk.injEq,
      EMCChain.mk.injEq, true_and, and_true] <;>
    constructor <;> funext i <;> fin_cases i <;> simp [h0, h1, h2, h3, Function.update]

theorem secondChain_spec {W : Type} (c : World W) (P iFirst : Nat) (fuel : Nat) :
    ∀ (w : W) (r : Nat × W), secondChain c P iFirst fuel w = .ok r →
      r.1 ≠ iFirst ∧ ∃ v, r.1 = v % P := by
  induction fuel with
  | zero => intro w r h; simp [secondChain] at h
  | succ fuel ih =>
    intro w r h
    rw [secondChain] at h
    by_cases hc : (c.gsl_rng_get w).1 % P = iFirst
    · rw [if_pos (by simpa using hc)] at h
      exact ih _ _ h
    · rw [if_neg (by simpa using hc)] at h
      injection h with h
      subst h
      exact ⟨hc, _, rfl⟩

/-- What the crossover has in hand at its test: the first index from
`RWSelection`, a second index different from it, the two chains found there, and
the two crossed chains with likelihoods from the oracle. -/
theorem crossPropose_spec {W : Type} (c : World W) (e : EMCEnv) (fuel : Nat)
    (s : EMCState W) (x : Crossing W) (h : crossPropose c e fuel s = .ok x) :
    RWSelection (s.vcChains.map e.getSelection) (c.gsl_rng_uniform s.world).1 =
        .ok x.iFirstChainIndex ∧
      x.iSecondChain ≠ x.iFirstChainIndex ∧
      (∃ v, x.iSecondChain = v % e.s_uParallelChains) ∧
      s.vcChains[x.iFirstChainIndex]? = some x.cFirstOrigChain ∧
      s.vcChains[x.iSecondChain]? = some x.cSecondOrigChain ∧
      ∃ cS w1 w2,
        x.rcFirstChain = (crossParents cS x.cFirstOrigChain x.cSecondOrigChain).1.setLike
          (c.hmm_like x.rcFirstChain.m_uI x.rcFirstChain.getParents w1).1 ∧
        x.rcSecondChain = (crossParents cS x.cFirstOrigChain x.cSecondOrigChain).2.setLike
          (c.hmm_like x.rcSecondChain.m_uI x.rcSecondChain.getParents w2).1 := by
  unfold crossPropose at h
  dsimp only at h
  split at h
  · cases h
  next iFirst hsel =>
  split at h
  · cases h
  next r hr =>
  obtain ⟨hne, hv⟩ := secondChain_spec c _ _ _ _ _ hr
  split at h
  next a b ha hb =>
    injection h with h
    subst h
    exact ⟨hsel, hne, hv, ha, hb, (c.gsl_rng_get r.2).1 &&& 15, _, _, rfl, rfl⟩
  · cases h

theorem list_set_restore {α : Type} (l : List α) (i j : Nat) (a b a2 b2 : α)
    (ha : l[i]? = some a) (hb : l[j]? = some b) :
    (((l.set i a2).set j b2).set i a).set j b = l := by
  obtain ⟨hi, _⟩ := List.getElem?_eq_some.1 ha
  obtain ⟨hj, _⟩ := List.getElem?_eq_some.1 hb
  apply List.ext_getElem?
  intro n
  simp only [List.getElem?_set, List.length_set]
  by_cases h1 : j = n
  · subst h1; simp [hj, hb]
  · by_cases h2 : i = n
    · subst h2; simp [h1, hi, ha]
    · simp [h1, h2]

/-- The two ways a crossover ends: accepted, the two chains are the crossed
ones; rejected, the population is what it was. -/
theorem crossFinish_spec {W : Type} (c : World W) (e : EMCEnv) (fuel : Nat)
    (s : EMCState W) (x : Crossing W) (h : crossPropose c e fuel s = .ok x) :
    ((crossTest c x).1 = true →
        (crossFinish c s x).vcChains =
          (s.vcChains.set x.iFirstChainIndex x.rcFirstChain).set x.iSecondChain
            x.rcSecondChain) ∧
      ((crossTest c x).1 = false → (crossFinish c s x).vcChains = s.vcChains) ∧
      (crossFinish c s x).vuChainTempHierarchy = s.vuChainTempHierarchy := by
  obtain ⟨_, _, _, ha, hb, _⟩ := crossPropose_spec c e fuel s x h
  refine ⟨?_, ?_, rfl⟩
  · intro ht
    unfold crossFinish
    dsimp only
    rw [ht]; rfl
  · intro ht
    unfold crossFinish
    dsimp only
    rw [ht]
    simp only [Bool.not_false, if_true]
    exact list_set_restore _ _ _ _ _ _ _ ha hb

theorem crossover_keeps_parents_ok {W : Type} (c : World W) (e : EMCEnv) (I fuel : Nat)
    (s s1 : EMCState W) (hinv : ParentsOK I s.vcChains)
    (h : crossover c e fuel s = .ok s1) : ParentsOK I s1.vcChains := by
  unfold crossover at h
  split at h
  · cases h
  next x hx =>
  injection h with h
  subst h
  obtain ⟨_, _, _, ha, hb, cS, w1, w2, h1, h2⟩ := crossPropose_spec c e fuel s x hx
  obtain ⟨hacc, hrej, _⟩ := crossFinish_spec c e fuel s x hx
  have hA := hinv _ (List.getElem?_mem ha)
  have hB := hinv _ (List.getElem?_mem hb)
  cases ht : (crossTest c x).1 with
  | true =>
    rw [hacc ht]
    apply parentsOK_set I _ _ _ (parentsOK_set I _ _ _ hinv ?_) ?_
    · intro k
      rw [h1, crossParents_eq]
      show (if test cS k then x.cSecondOrigChain.m_auParents k
        else x.cFirstOrigChain.m_auParents k) / 2 ≠ I
      split
      · exact hB k
      · exact hA k
    · intro k
      rw [h2, crossParents_eq]
      show (if test cS k then x.cFirstOrigChain.m_auParents k
        else x.cSecondOrigChain.m_auParents k) / 2 ≠ I
      split
      · exact hA k
      · exact hB k
  | false =>
    rw [hrej ht]; exact hinv

/-! ## The evolutionary sampler: exchange and the whole iteration -/

/-- What an exchange attempt has in hand at its test: the first rank
`gsl_rng_get % s_uParallelChains`, the second rank from `exchangeSecond`, the
chain indices found at the two ranks of the hierarchy and the chains found at
these indices. -/
theorem exchangePropose_spec {W : Type} (c : World W) (e : EMCEnv) (s : EMCState W)
    (x : Exchange W) (h : exchangePropose c e s = .ok x) :
    x.uFirstChainIndex = (c.gsl_rng_get s.world).1 % e.s_uParallelChains ∧
      x.uSecondChainIndex =
        (exchangeSecond c e.s_uParallelChains x.uFirstChainIndex (c.gsl_rng_get s.world).2).1 ∧
      s.vuChainTempHierarchy[x.uFirstChainIndex]? = some x.uFirstChainHierarchyIndex ∧
      s.vuChainTempHierarchy[x.uSecondChainIndex]? = some x.uSecondCHI ∧
      s.vcChains[x.uFirstChainHierarchyIndex]? = some x.first ∧
      s.vcChains[x.uSecondCHI]? = some x.second := by
  unfold exchangePropose at h
  dsimp only at h
  split at h
  · cases h
  next i1 h1 =>
  split at h
  · cases h
  next i2 h2 =>
  split at h
  next a b ha hb =>
    injection h with h
    subst h
    exact ⟨rfl, rfl, h1, h2, ha, hb⟩
  · cases h

theorem exchangeTemps_parents_ok (I : Nat) (l : List EMCChain) (x1 x2 : Nat)
    (a : EMCChain) (hl : ParentsOK I l) (ha : ∀ j : Fin 4, a.getParent j / 2 ≠ I) :
    ParentsOK I (exchangeTemps l x1 x2 a) := by
  unfold exchangeTemps
  dsimp only
  have h1 : ParentsOK I (match l[x2]? with
      | some b => l.set x1 (a.setTemp b.m_fTemp)
      | none => l) := by
    split
    · exact parentsOK_set I _ _ _ hl ha
    · exact hl
  split
  next b1 hb1 =>
    exact parentsOK_set I _ _ _ h1 (h1 b1 (List.getElem?_mem hb1))
  · exact h1

theorem exchangeOnce_keeps_parents_ok {W : Type} (c : World W) (e : EMCEnv) (I : Nat)
    (s : EMCState W) (n : Nat) (r : EMCState W × Nat)
    (hinv : ParentsOK I s.vcChains) (h : exchangeOnce c e s n = .ok r) :
    ParentsOK I r.1.vcChains := by
  unfold exchangeOnce at h
  split at h
  · cases h
  next x hx =>
  injection h with h
  subst h
  obtain ⟨_, _, _, _, ha, _⟩ := exchangePropose_spec c e s x hx
  unfold exchangeFinish
  dsimp only
  split
  · exact exchangeTemps_parents_ok I _ _ _ _ hinv (hinv _ (List.getElem?_mem ha))
  · exact hinv

theorem exchangeLoop_keeps_parents_ok {W : Type} (c : World W) (e : EMCEnv) (I k : Nat) :
    ∀ (s : EMCState W) (r : EMCState W × Nat), ParentsOK I s.vcChains →
      exchangeLoop c e k s = .ok r → ParentsOK I r.1.vcChains := by
  induction k with
  | zero =>
    intro s r hinv h
    rw [exchangeLoop] at h
    injection h with h
    subst h
    exact hinv
  | succ k ih =>
    intro s r hinv h
    rw [exchangeLoop] at h
    split at h
    · cases h
    next r1 h1 =>
    exact exchangeOnce_keeps_parents_ok c e I _ _ _ (ih s r1 hinv h1) h

theorem emcOperator_keeps_parents_ok {W : Type} (c : World W) (e : EMCEnv) (I fuel : Nat)
    (s s1 : EMCState W) (hinv : ParentsOK I s.vcChains)
    (h : emcOperator c e I fuel s = .ok s1) : ParentsOK I s1.vcChains := by
  unfold emcOperator at h
  dsimp only at h
  split at h
  · exact mutate_keeps_parents_ok c e I fuel
      { s with world := (c.gsl_rng_uniform s.world).2 } s1 hinv h
  · exact crossover_keeps_parents_ok c e I fuel
      { s with world := (c.gsl_rng_uniform s.world).2 } s1 hinv h

theorem emcIteration_keeps_parents_ok {W : Type} (c : World W) (e : EMCEnv) (I fuel : Nat)
    (s s1 : EMCState W) (hinv : ParentsOK I s.vcChains)
    (h : emcIteration c e I fuel s = .ok s1) : ParentsOK I s1.vcChains := by
  unfold emcIteration at h
  split at h
  · cases h
  next s2 h2 =>
  split at h
  · cases h
  next r h3 =>
  injection h with h
  subst h
  exact exchangeLoop_keeps_parents_ok c e I _ _ _
    (emcOperator_keeps_parents_ok c e I fuel s s2 hinv h2) h3

theorem emcLoop_keeps_parents_ok {W : Type} (c : World W) (e : EMCEnv) (I fuel k : Nat) :
    ∀ (s s1 : EMCState W), ParentsOK I s.vcChains →
      emcLoop c e I fuel k s = .ok s1 → ParentsOK I s1.vcChains := by
  induction k with
  | zero =>
    intro s s1 hinv h
    rw [emcLoop] at h
    injection h with h
    subst h
    exact hinv
  | succ k ih =>
    intro s s1 hinv h
    rw [emcLoop] at h
    split at h
    · cases h
    next s2 h2 =>
    exact emcIteration_keeps_parents_ok c e I fuel _ _ (ih s s2 hinv h2) h

/-- What a finished run of `solve_EMC` is made of: the set-up, the loop, and the
chain selected by `RWSelection` at the end, whose likelihood is returned and
whose parents are handed to `hmm_work` with `I` and `S`. -/
theorem solve_EMC_spec {W : Type} (c : World W) (e : EMCEnv) (I N : Nat) (S : ℚ)
    (fuel : Nat) (w : W) (res : EMCResult W)
    (h : solve_EMC c e I N S fuel w = .ok res) :
    ∃ s0 ch, emcInit c e I fuel e.s_uParallelChains w = .ok s0 ∧
      emcLoop c e I fuel N s0 = .ok res.state ∧
      RWSelection (res.state.vcChains.map e.getSelection)
        (c.gsl_rng_uniform res.state.world).1 = .ok res.iFirstChainIndex ∧
      res.state.vcChains[res.iFirstChainIndex]? = some ch ∧
      res.ret = ch.getLike ∧ res.workI = I ∧ res.workParents = ch.getParents ∧
      res.workPen = S ∧
      res.world = c.hmm_work I ch.getParents S (c.gsl_rng_uniform res.state.world).2 := by
  unfold solve_EMC at h
  split at h
  · cases h
  next s0 h0 =>
  split at h
  · cases h
  next s1 h1 =>
  dsimp only at h
  split at h
  · cases h
  next i hi =>
  split at h
  · cases h
  next ch hch =>
  injection h with h
  subst h
  exact ⟨s0, ch, h0, h1, hi, hch, rfl, rfl, rfl, rfl, rfl⟩

/-- C14: the invariant `parent / 2 ≠ I` of the chains is kept by the operator of
an iteration (mutation or crossover, accepted or rejected), by the exchange
attempts, hence by a whole iteration; and the parents that a finished run of
`solve_EMC` commits satisfy it. -/
theorem solve_EMC_keeps_parents_ok {W : Type} (c : World W) (e : EMCEnv) (I fuel : Nat) :
    (∀ s s1 : EMCState W, ParentsOK I s.vcChains →
        mutate c e I fuel s = .ok s1 → ParentsOK I s1.vcChains) ∧
      (∀ s s1 : EMCState W, ParentsOK I s.vcChains →
        crossover c e fuel s = .ok s1 → ParentsOK I s1.vcChains) ∧
      (∀ (k : Nat) (s : EMCState W) (r : EMCState W × Nat), ParentsOK I s.vcChains →
        exchangeLoop c e k s = .ok r → ParentsOK I r.1.vcChains) ∧
      (∀ s s1 : EMCState W, ParentsOK I s.vcChains →
        emcIteration c e I fuel s = .ok s1 → ParentsOK I s1.vcChains) ∧
      (∀ (N : Nat) (S : ℚ) (w : W) (res : EMCResult W),
        solve_EMC c e I N S fuel w = .ok res →
          ParentsOK I res.state.vcChains ∧ res.workI = I ∧
            ∀ j : Fin 4, res.workParents j / 2 ≠ I) := by
  refine ⟨fun s s1 => mutate_keeps_parents_ok c e I fuel s s1,
    fun s s1 => crossover_keeps_parents_ok c e I fuel s s1,
    fun k s r => exchangeLoop_keeps_parents_ok c e I k s r,
    fun s s1 => emcIteration_keeps_parents_ok c e I fuel s s1, ?_⟩
  intro N S w res h
  obtain ⟨s0, ch, h0, h1, _, hch, _, hI, hp, _⟩ := solve_EMC_spec c e I N S fuel w res h
  obtain ⟨_, _, hspec⟩ := emcInit_spec c e I fuel _ w s0 h0
  have hok0 : ParentsOK I s0.vcChains := by
    intro x hx k
    obtain ⟨r, hr⟩ := List.getElem?_of_mem hx
    exact (hspec r x hr).2.2.2 k
  have hok := emcLoop_keeps_parents_ok c e I fuel N s0 res.state hok0 h1
  refine ⟨hok, hI, ?_⟩
  intro k
  rw [hp]
  exact hok ch (List.getElem?_mem hch) k

/-- C14 in the counter world: a run of three iterations for individual `0`
finishes, and the parents it commits are no haplotypes of individual `0`. -/
theorem solve_EMC_keeps_parents_ok_witness :
    ∃ res, solve_EMC counterWorld emcEnv2 0 3 (1 / 2) 4 0 = .ok res ∧
      ParentsOK 0 res.state.vcChains ∧ res.workI = 0 ∧
      ∀ j : Fin 4, res.workParents j / 2 ≠ 0 := by
  obtain ⟨res, h⟩ := exists_ok_of_isSome
    (solve_EMC counterWorld emcEnv2 0 3 (1 / 2) 4 0) (by decide!)
  exact ⟨res, h, (solve_EMC_keeps_parents_ok counterWorld emcEnv2 0 4).2.2.2.2 3 (1 / 2) 0 res h⟩

/-! ## The evolutionary sampler: the claims on the operators -/

/-- C15: an iteration draws one uniform deviate `u`; it mutates exactly when
`u > fMutationRate = 3/10` and crosses over otherwise, one of the two and never
both, and then goes on to the exchange attempts. The deviates of `[0, 1)` that
give a mutation are those of the interval `(3/10, 1)`, of length
`1 - fMutationRate`. -/
theorem emcOperator_choice {W : Type} (c : World W) (e : EMCEnv) (I fuel : Nat)
    (s : EMCState W) :
    fMutationRate = 3 / 10 ∧
      (bMutate c s = true ↔ (c.gsl_rng_uniform s.world).1 > fMutationRate) ∧
      (bMutate c s = true →
        emcOperator c e I fuel s =
          mutate c e I fuel { s with world := (c.gsl_rng_uniform s.world).2 }) ∧
      (bMutate c s = false →
        emcOperator c e I fuel s =
          crossover c e fuel { s with world := (c.gsl_rng_uniform s.world).2 }) ∧
      (∀ s1, emcOperator c e I fuel s = .ok s1 →
        emcIteration c e I fuel s =
          (exchangeLoop c e e.s_uParallelChains s1).map (fun r => r.1)) ∧
      (∀ u : ℚ, 0 ≤ u → u < 1 → (u > fMutationRate ↔ u ∈ Set.Ioo fMutationRate 1)) ∧
      (1 : ℚ) - fMutationRate = 7 / 10 := by
  refine ⟨rfl, ?_, ?_, ?_, ?_, ?_, ?_⟩
  · simp [bMutate]
  · intro h
    unfold emcOperator
    dsimp only
    rw [if_pos h]
  · intro h
    unfold emcOperator
    dsimp only
    rw [if_neg (by simp [h])]
  · intro s1 h
    unfold emcIteration
    rw [h]
    dsimp only
    cases exchangeLoop c e e.s_uParallelChains s1 <;> rfl
  · intro u _ h1
    simp [Set.mem_Ioo, h1]
  · norm_num [fMutationRate]

/-- C15 in the counter world: the deviate is `1/2 > 3/10` and the iteration
mutates. -/
theorem emcOperator_choice_witness :
    bMutate counterWorld emcState2 = true ∧
      emcOperator counterWorld emcEnv2 0 4 emcState2 =
        mutate counterWorld emcEnv2 0 4
          { emcState2 with world := (counterWorld.gsl_rng_uniform emcState2.world).2 } :=
  ⟨by decide!,
    (emcOperator_choice counterWorld emcEnv2 0 4 emcState2).2.2.1 (by decide!)⟩

theorem mutateTest_fst {W : Type} (c : World W) (curr prop fTemp : ℚ) (w : W) :
    (mutateTest c curr prop fTemp w).1 = true ↔
      prop > curr ∨ (c.gsl_rng_uniform w).1 < c.exp ((curr - prop) / fTemp) := by
  unfold mutateTest
  by_cases h : prop > curr
  · simp [h]
  · simp [h]

/-- C16: in a mutation of the chain `ch` at index `j`, with likelihood
`curr = old` and temperature `T`, the proposal of likelihood `prop = new` is
accepted exactly when `new > old` or `u < exp((old - new) / T)`; accepted, the
chain at `j` is the proposed chain with likelihood `new`; rejected, the chain at
`j` is `ch` again (slot restored, likelihood unchanged) and so is the whole
population. -/
theorem mutate_accepts_iff {W : Type} (c : World W) (e : EMCEnv) (I fuel : Nat)
    (s : EMCState W) (m : Mutation W) (h : mutatePropose c e I fuel s = .ok m) :
    ∃ ch, s.vcChains[m.j]? = some ch ∧ m.curr = ch.getLike ∧
      m.chain.m_fTemp = ch.m_fTemp ∧
      mutate c e I fuel s = .ok (mutateFinish c s m) ∧
      ((mutateTest c m.curr m.prop m.chain.m_fTemp m.world).1 = true ↔
        m.prop > ch.getLike ∨
          (c.gsl_rng_uniform m.world).1 < c.exp ((ch.getLike - m.prop) / ch.m_fTemp)) ∧
      ((mutateTest c m.curr m.prop m.chain.m_fTemp m.world).1 = true →
        (mutateFinish c s m).vcChains[m.j]? = some (m.chain.setLike m.prop) ∧
          (m.chain.setLike m.prop).getLike = m.prop) ∧
      ((mutateTest c m.curr m.prop m.chain.m_fTemp m.world).1 = false →
        (mutateFinish c s m).vcChains[m.j]? = some ch ∧
          (mutateFinish c s m).vcChains = s.vcChains) := by
  obtain ⟨ch, hch, _, hcurr, _, _, ⟨v, hv⟩, _⟩ := mutatePropose_spec c e I fuel s m h
  obtain ⟨hacc, hrej, _⟩ := mutateFinish_spec c e I fuel s m h
  have hT : m.chain.m_fTemp = ch.m_fTemp := by rw [hv]; rfl
  refine ⟨ch, hch, hcurr, hT, ?_, ?_, ?_, ?_⟩
  · unfold mutate
    rw [h]
  · rw [mutateTest_fst, hcurr, hT]
  · intro ht
    refine ⟨?_, rfl⟩
    rw [hacc ht]
    obtain ⟨hlt, _⟩ := List.getElem?_eq_some.1 hch
    exact List.getElem?_set_self hlt
  · intro ht
    rw [hrej ht]
    exact ⟨hch, rfl⟩

/-- C16 in the counter world: from `emcState2` the mutation proposes haplotype
`6` for slot `1` of chain `0`, likelihood `17 > 14`, and is accepted. -/
theorem mutate_accepts_iff_witness :
    mutatePropose counterWorld emcEnv2 0 4 emcState2 = .ok emcMutation12 ∧
      (mutateTest counterWorld emcMutation12.curr emcMutation12.prop
        emcMutation12.chain.m_fTemp emcMutation12.world).1 = true ∧
      ∃ ch, emcState2.vcChains[emcMutation12.j]? = some ch ∧
        (emcMutation12.prop > ch.getLike ∨
          (counterWorld.gsl_rng_uniform emcMutation12.world).1 <
            counterWorld.exp ((ch.getLike - emcMutation12.prop) / ch.m_fTemp)) ∧
        (mutateFinish counterWorld emcState2 emcMutation12).vcChains[emcMutation12.j]? =
          some (emcMutation12.chain.setLike emcMutation12.prop) := by
  have h : mutatePropose counterWorld emcEnv2 0 4 emcState2 = .ok emcMutation12 := by
    decide!
  have ht : (mutateTest counterWorld emcMutation12.curr emcMutation12.prop
      emcMutation12.chain.m_fTemp emcMutation12.world).1 = true := by decide!
  obtain ⟨ch, h1, _, _, _, h5, h6, _⟩ :=
    mutate_accepts_iff counterWorld emcEnv2 0 4 emcState2 emcMutation12 h
  exact ⟨h, ht, ch, h1, h5.1 ht, (h6 ht).1⟩

theorem drawParent_reaches {W : Type} (c : World W) (m I : Nat) (j : Fin 4) (fuel : Nat)
    (ch : EMCChain) (w : W) (h : Nat) (hw : (c.gsl_rng_get w).1 = h) (hlt : h < m)
    (hI : h / 2 ≠ I) :
    drawParent c m I j (fuel + 1) ch w = .ok (ch.setParent j h, (c.gsl_rng_get w).2) := by
  rw [drawParent]
  rw [hw, Nat.mod_eq_of_lt hlt, EMCChain.getParent_setParent_same,
    if_neg (by simpa using hI)]

/-- C17, what the code does: the replacement proposed by the mutation is
`gsl_rng_get(rng) % hn`. It is never a haplotype of `I` and every sample
haplotype `h < hn` with `h / 2 ≠ I` is proposed when the generator returns `h`;
but it is always below `hn`, so that no haplotype `h` of a reference panel
(`hn ≤ h < hn + numRefHaps`) is ever proposed. -/
theorem mutate_proposal_range {W : Type} (c : World W) (e : EMCEnv) (I fuel : Nat)
    (hhn : 0 < e.hn) :
    (∀ (s : EMCState W) (m : Mutation W), mutatePropose c e I fuel s = .ok m →
        m.chain.getParent m.rp < e.hn ∧ m.chain.getParent m.rp / 2 ≠ I) ∧
      (∀ h, h < e.hn → h / 2 ≠ I → ∀ (ch : EMCChain) (rp : Fin 4) (w : W),
        (c.gsl_rng_get w).1 = h →
          drawParent c e.hn I rp (fuel + 1) ch w =
            .ok (ch.setParent rp h, (c.gsl_rng_get w).2)) ∧
      (∀ numRefHaps h, e.hn ≤ h → h < e.hn + numRefHaps →
        ∀ (s : EMCState W) (m : Mutation W), mutatePropose c e I fuel s = .ok m →
          m.chain.getParent m.rp ≠ h) := by
  have hrange : ∀ (s : EMCState W) (m : Mutation W), mutatePropose c e I fuel s = .ok m →
      m.chain.getParent m.rp < e.hn ∧ m.chain.getParent m.rp / 2 ≠ I := by
    intro s m h
    obtain ⟨ch, _, _, _, _, hok, ⟨v, hv⟩, _⟩ := mutatePropose_spec c e I fuel s m h
    refine ⟨?_, hok⟩
    rw [hv, EMCChain.getParent_setParent_same]
    exact Nat.mod_lt _ hhn
  refine ⟨hrange, ?_, ?_⟩
  · intro h hlt hI ch rp w hw
    exact drawParent_reaches c e.hn I rp fuel ch w h hw hlt hI
  · intro numRefHaps h hle _ s m hm heq
    have := (hrange s m hm).1
    omega

/-- C17 in the counter world with eight sample haplotypes and a reference panel
of two: the mutation from `emcState2` proposes haplotype `6`; the reference
haplotype `8`, which is not one of individual `0`, is proposed by no
mutation. -/
theorem mutate_proposal_range_witness :
    0 < emcEnv2.hn ∧
      mutatePropose counterWorld emcEnv2 0 4 emcState2 = .ok emcMutation12 ∧
      emcMutation12.chain.getParent emcMutation12.rp = 6 ∧
      8 / 2 ≠ 0 ∧ 8 < emcEnv2.hn + 2 ∧
      ∀ (s : EMCState Nat) (m : Mutation Nat),
        mutatePropose counterWorld emcEnv2 0 4 s = .ok m → m.chain.getParent m.rp ≠ 8 :=
  ⟨by decide, by decide!, by decide, by decide, by decide,
    (mutate_proposal_range counterWorld emcEnv2 0 4 (by decide)).2.2 2 8 (by decide)
      (by decide)⟩

/-- The acceptance test of the crossover never takes its first branch: the two
flags are the same comparison of the original likelihoods, so that the bound is
the one of the "same order" case whatever the likelihoods after the exchange. -/
theorem crossTest_same_order_formula {W : Type} (c : World W) (x : Crossing W) :
    (crossTest c x).1 =
      decide ((c.gsl_rng_uniform x.world).1 ≤ c.exp
        ((x.cSecondOrigChain.getLike - x.rcSecondChain.getLike) / x.cSecondOrigChain.m_fTemp
          + (x.cFirstOrigChain.getLike - x.rcFirstChain.getLike)
            / x.cFirstOrigChain.m_fTemp)) := by
  unfold crossTest
  simp

/-- C18, what the code does when the order of the likelihoods flips: for the two
chains with likelihoods `14`, `18` before and `18`, `14` after the exchange and
temperatures `1`, `2`, the bound of the claim for a flipped order is
`exp((18 - 18)/2 + (14 - 14)/1) = exp 0`, which accepts the deviate `1/2`; the
code uses `exp((18 - 14)/2 + (14 - 18)/1) = exp (-2)` and rejects. -/
theorem crossTest_flipped_order_rejects {W : Type} (c : World W) (w : W)
    (hu : (c.gsl_rng_uniform w).1 = 1 / 2) (h0 : c.exp 0 = 1)
    (h2 : c.exp (-2) < 1 / 2) :
    (decide ((emcCrossingAt w).cFirstOrigChain.getLike >
          (emcCrossingAt w).cSecondOrigChain.getLike) = false ∧
        decide ((emcCrossingAt w).rcFirstChain.getLike >
          (emcCrossingAt w).rcSecondChain.getLike) = true) ∧
      (c.gsl_rng_uniform (emcCrossingAt w).world).1 ≤ c.exp
        (((emcCrossingAt w).cSecondOrigChain.getLike - (emcCrossingAt w).rcFirstChain.getLike)
            / (emcCrossingAt w).cSecondOrigChain.m_fTemp
          + ((emcCrossingAt w).cFirstOrigChain.getLike
              - (emcCrossingAt w).rcSecondChain.getLike)
            / (emcCrossingAt w).cFirstOrigChain.m_fTemp) ∧
      (crossTest c (emcCrossingAt w)).1 = false := by
  refine ⟨⟨?_, ?_⟩, ?_, ?_⟩
  · norm_num [emcCrossingAt, emcChainA, emcChainB, EMCChain.getLike]
  · norm_num [emcCrossingAt, emcChainA, emcChainB, EMCChain.getLike]
  · have harg : ((emcCrossingAt w).cSecondOrigChain.getLike
          - (emcCrossingAt w).rcFirstChain.getLike)
            / (emcCrossingAt w).cSecondOrigChain.m_fTemp
          + ((emcCrossingAt w).cFirstOrigChain.getLike
              - (emcCrossingAt w).rcSecondChain.getLike)
            / (emcCrossingAt w).cFirstOrigChain.m_fTemp = 0 := by
      norm_num [emcCrossingAt, emcChainA, emcChainB, EMCChain.getLike]
    rw [harg, h0]
    show (c.gsl_rng_uniform w).1 ≤ 1
    rw [hu]; norm_num
  · rw [crossTest_same_order_formula]
    have harg : ((emcCrossingAt w).cSecondOrigChain.getLike
          - (emcCrossingAt w).rcSecondChain.getLike)
            / (emcCrossingAt w).cSecondOrigChain.m_fTemp
          + ((emcCrossingAt w).cFirstOrigChain.getLike
              - (emcCrossingAt w).rcFirstChain.getLike)
            / (emcCrossingAt w).cFirstOrigChain.m_fTemp = -2 := by
      norm_num [emcCrossingAt, emcChainA, emcChainB, EMCChain.getLike]
    rw [harg]
    show decide ((c.gsl_rng_uniform w).1 ≤ c.exp (-2)) = false
    rw [hu]
    simpa using h2

/-- C18 in the counter world, where the crossover from `emcState16` reaches
exactly this record: it is rejected although the order has flipped and
`1/2 ≤ exp 0`. -/
theorem crossTest_flipped_order_rejects_witness :
    ((counterWorld.gsl_rng_uniform 19).1 = 1 / 2 ∧ counterWorld.exp 0 = 1 ∧
      counterWorld.exp (-2) < 1 / 2) ∧
    crossPropose counterWorld emcEnv2 4 emcState16 = .ok (emcCrossingAt 19) ∧
    (crossTest counterWorld (emcCrossingAt 19)).1 = false :=
  ⟨⟨by decide!, by decide!, by decide!⟩, by decide!,
    (crossTest_flipped_order_rejects counterWorld 19 (by decide!) (by decide!)
      (by decide!)).2.2⟩

/-- C19: a rejected crossover leaves the whole population (every chain with its
parents, likelihood, temperature and identifier) and the hierarchy as they were
before the crossover. -/
theorem crossover_rejected_restores {W : Type} (c : World W) (e : EMCEnv) (fuel : Nat)
    (s : EMCState W) (x : Crossing W) (hx : crossPropose c e fuel s = .ok x)
    (hrej : (crossTest c x).1 = false) :
    ∃ s1, crossover c e fuel s = .ok s1 ∧ s1.vcChains = s.vcChains ∧
      s1.vuChainTempHierarchy = s.vuChainTempHierarchy := by
  obtain ⟨_, h2, h3⟩ := crossFinish_spec c e fuel s x hx
  refine ⟨crossFinish c s x, ?_, h2 hrej, h3⟩
  unfold crossover
  rw [hx]

/-- C19 in the counter world: the crossover from `emcState16` exchanges slot `1`
of the two chains, is rejected, and the two chains are `emcChainA` and
`emcChainB` again. -/
theorem crossover_rejected_restores_witness :
    (crossPropose counterWorld emcEnv2 4 emcState16 = .ok emcCrossing16 ∧
      (crossTest counterWorld emcCrossing16).1 = false) ∧
    ∃ s1, crossover counterWorld emcEnv2 4 emcState16 = .ok s1 ∧
      s1.vcChains = emcState16.vcChains ∧
      s1.vuChainTempHierarchy = emcState16.vuChainTempHierarchy :=
  ⟨⟨by decide!, by decide!⟩,
    crossover_rejected_restores counterWorld emcEnv2 4 emcState16 emcCrossing16
      (by decide!) (by decide!)⟩

/-- C20: for two chains of equal likelihood and non-zero temperatures the
acceptance probability `min(exp((L1 - L2) * (1/T1 - 1/T2)), 1)` of an exchange
is `1` (given `exp 0 = 1`), and the exchange is accepted and counted for every
deviate of `[0, 1)`. -/
theorem exchange_equal_likelihood_accepted {W : Type} (c : World W) (s : EMCState W)
    (n : Nat) (x : Exchange W) (hexp : c.exp 0 = 1)
    (hL : x.first.getLike = x.second.getLike)
    (_hT1 : x.first.m_fTemp ≠ 0) (_hT2 : x.second.m_fTemp ≠ 0)
    (_hu0 : 0 ≤ (c.gsl_rng_uniform x.world).1) (hu1 : (c.gsl_rng_uniform x.world).1 < 1) :
    exchangeProb c x.first x.second = 1 ∧ (exchangeTest c x).1 = true ∧
      (exchangeFinish c s n x).2 = n + 1 := by
  have hp : exchangeProb c x.first x.second = 1 := by
    unfold exchangeProb
    rw [hL, sub_self, zero_mul, hexp, min_self]
  have ht : (exchangeTest c x).1 = true := by
    unfold exchangeTest
    dsimp only
    rw [hp]
    simpa using hu1
  refine ⟨hp, ht, ?_⟩
  unfold exchangeFinish
  dsimp only
  rw [ht]
  rfl

/-- C20 in the counter world, for two chains of likelihood `14` with the
temperatures `1` and `2` and the deviate `1/2`. -/
theorem exchange_equal_likelihood_accepted_witness :
    (counterWorld.exp 0 = 1 ∧
      emcExchangeEqual.first.getLike = emcExchangeEqual.second.getLike ∧
      emcExchangeEqual.first.m_fTemp ≠ 0 ∧ emcExchangeEqual.second.m_fTemp ≠ 0 ∧
      0 ≤ (counterWorld.gsl_rng_uniform emcExchangeEqual.world).1 ∧
      (counterWorld.gsl_rng_uniform emcExchangeEqual.world).1 < 1) ∧
    (exchangeProb counterWorld emcExchangeEqual.first emcExchangeEqual.second = 1 ∧
      (exchangeTest counterWorld emcExchangeEqual).1 = true ∧
      (exchangeFinish counterWorld emcState2 0 emcExchangeEqual).2 = 0 + 1) :=
  ⟨⟨by decide!, by decide!, by decide!, by decide!, by decide!, by decide!⟩,
    exchange_equal_likelihood_accepted counterWorld emcState2 0 emcExchangeEqual
      (by decide!) (by decide!) (by decide!) (by decide!) (by decide!) (by decide!)⟩

/-! ## The Metropolis sampler: what a step leaves alone -/

theorem slot_val (r : Nat) : (slot r).val = r % 4 := by
  show r &&& 3 = r % 4
  exact Nat.and_pow_two_sub_one_eq_mod r 2

theorem solvePropose_p {W : Type} (c : World W) (kick : Bool) (I n : Nat)
    (s : SolveState W) :
    (solvePropose c kick I n s).rp = slot (c.gsl_rng_get s.world).1 ∧
      (solvePropose c kick I n s).oh = s.p (solvePropose c kick I n s).rp ∧
      ∀ k, k ≠ (solvePropose c kick I n s).rp → (solvePropose c kick I n s).p k = s.p k := by
  refine ⟨rfl, rfl, ?_⟩
  intro k hk
  unfold solvePropose
  dsimp only
  exact Function.update_noteq hk _ _

/-- C30: a step of `solve` picks the slot `rp = gsl_rng_get(rng) & 3`, a number of
`0..3`, and changes no other slot of the parent vector; when the proposal is
rejected the whole parent vector and the current likelihood are what they were
before the step. -/
theorem solveStep_changes_one_slot {W : Type} (c : World W) (kick : Bool) (iter I : Nat)
    (pen : ℚ) (n : Nat) (s : SolveState W) :
    ((solvePropose c kick I n s).rp.val = (c.gsl_rng_get s.world).1 % 4 ∧
        (solvePropose c kick I n s).rp.val < 4) ∧
      (∀ k, k ≠ (solvePropose c kick I n s).rp →
        (solveStep c kick iter I pen n s).p k = s.p k) ∧
      (solveAccepted c kick I pen n s = false →
        (solveStep c kick iter I pen n s).p = s.p ∧
          (solveStep c kick iter I pen n s).curr = s.curr) := by
  obtain ⟨hrp, _, hp⟩ := solvePropose_p c kick I n s
  refine ⟨⟨?_, (solvePropose c kick I n s).rp.isLt⟩, ?_, ?_⟩
  · rw [hrp, slot_val]
  · intro k hk
    cases hacc : solveAccepted c kick I pen n s with
    | true =>
      rw [(solveStep_of_accepted c kick iter I pen n s hacc).2]
      exact hp k hk
    | false =>
      rw [(solveStep_of_rejected c kick iter I pen n s hacc).2]
  · intro hacc
    obtain ⟨h1, h2⟩ := solveStep_of_rejected c kick iter I pen n s hacc
    exact ⟨h2, h1⟩

/-- C30 at the rejected step of the counter world (kickstart, first step): the
parents `[10, 11, 12, 13]` and the likelihood `46` are kept. -/
theorem solveStep_changes_one_slot_witness :
    solveAccepted counterWorld true 0 1 0 (solveInit counterWorld 0 0) = false ∧
      ((solveStep counterWorld true 0 0 1 0 (solveInit counterWorld 0 0)).p =
          (solveInit counterWorld 0 0).p ∧
        (solveStep counterWorld true 0 0 1 0 (solveInit counterWorld 0 0)).curr =
          (solveInit counterWorld 0 0).curr) :=
  ⟨by decide!,
    (solveStep_changes_one_slot counterWorld true 0 0 1 0 (solveInit counterWorld 0 0)).2.2
      (by decide!)⟩

/-! ## The evolutionary sampler: the likelihood invariant -/

theorem likeOK_set (f : Nat → Parents → ℚ) (I : Nat) (l : List EMCChain) (i : Nat)
    (ch : EMCChain) (hl : LikeOK f I l)
    (hch : ch.m_uI = I ∧ ch.getLike = f I ch.getParents) : LikeOK f I (l.set i ch) := by
  intro x hx
  rcases List.mem_or_eq_of_mem_set hx with h | h
  · exact hl x h
  · rw [h]; exact hch

theorem initChain_like {W : Type} (c : World W) (e : EMCEnv) (I i fuel : Nat) (w : W)
    (r : EMCChain × W) (f : Nat → Parents → ℚ)
    (hpure : ∀ I p w, (c.hmm_like I p w).1 = f I p)
    (h : initChain c e I i fuel w = .ok r) :
    r.1.getLike = f r.1.m_uI r.1.getParents := by
  unfold initChain at h
  dsimp only at h
  split at h
  · cases h
  split at h
  · cases h
  split at h
  · cases h
  split at h
  · cases h
  next r3 _ =>
  injection h with h
  subst h
  show (c.hmm_like r3.1.m_uI r3.1.getParents r3.2).1 = f r3.1.m_uI r3.1.getParents
  rw [hpure]

theorem emcInit_like {W : Type} (c : World W) (e : EMCEnv) (I fuel k : Nat)
    (f : Nat → Parents → ℚ) (hpure : ∀ I p w, (c.hmm_like I p w).1 = f I p) :
    ∀ (w : W) (s : EMCState W), emcInit c e I fuel k w = .ok s → LikeOK f I s.vcChains := by
  induction k with
  | zero =>
    intro w s h
    rw [emcInit] at h
    injection h with h
    subst h
    intro ch hch
    simp at hch
  | succ k ih =>
    intro w s h
    rw [emcInit] at h
    split at h
    · cases h
    next s1 h1 =>
    split at h
    · cases h
    next r1 h2 =>
    injection h with h
    subst h
    intro ch hch
    rcases List.mem_append.1 hch with hm | hm
    · exact ih w s1 h1 ch hm
    · have hx : ch = r1.1 := by simpa using hm
      subst hx
      have hI := (initChain_spec c e I k fuel s1.world r1 h2).2.1
      have hl := initChain_like c e I k fuel s1.world r1 f hpure h2
      rw [hI] at hl
      exact ⟨hI, hl⟩

theorem mutate_keeps_like {W : Type} (c : World W) (e : EMCEnv) (I fuel : Nat)
    (s s1 : EMCState W) (f : Nat → Parents → ℚ)
    (hpure : ∀ I p w, (c.hmm_like I p w).1 = f I p) (hinv : LikeOK f I s.vcChains)
    (h : mutate c e I fuel s = .ok s1) : LikeOK f I s1.vcChains := by
  unfold mutate at h
  split at h
  · cases h
  next m hm =>
  injection h with h
  subst h
  obtain ⟨ch, hch, _, _, _, _, ⟨v, hv⟩, w3, hprop, _⟩ := mutatePropose_spec c e I fuel s m hm
  obtain ⟨hacc, hrej, _⟩ := mutateFinish_spec c e I fuel s m hm
  cases ht : (mutateTest c m.curr m.prop m.chain.m_fTemp m.world).1 with
  | true =>
    rw [hacc ht]
    apply likeOK_set f I _ _ _ hinv
    have hI : m.chain.m_uI = I := by
      rw [hv]; exact (hinv ch (List.getElem?_mem hch)).1
    refine ⟨hI, ?_⟩
    show m.prop = f I m.chain.getParents
    rw [hprop, hpure, hI]
  | false =>
    rw [hrej ht]; exact hinv

theorem crossover_keeps_like {W : Type} (c : World W) (e : EMCEnv) (I fuel : Nat)
    (s s1 : EMCState W) (f : Nat → Parents → ℚ)
    (hpure : ∀ I p w, (c.hmm_like I p w).1 = f I p) (hinv : LikeOK f I s.vcChains)
    (h : crossover c e fuel s = .ok s1) : LikeOK f I s1.vcChains := by
  unfold crossover at h
  split at h
  · cases h
  next x hx =>
  injection h with h
  subst h
  obtain ⟨_, _, _, ha, hb, cS, w1, w2, h1, h2⟩ := crossPropose_spec c e fuel s x hx
  obtain ⟨hacc, hrej, _⟩ := crossFinish_spec c e fuel s x hx
  have hA := (hinv _ (List.getElem?_mem ha)).1
  have hB := (hinv _ (List.getElem?_mem hb)).1
  cases ht : (crossTest c x).1 with
  | true =>
    rw [hacc ht]
    have hI1 : x.rcFirstChain.m_uI = I := by
      rw [h1, crossParents_eq]; exact hA
    have hI2 : x.rcSecondChain.m_uI = I := by
      rw [h2, crossParents_eq]; exact hB
    apply likeOK_set f I _ _ _ (likeOK_set f I _ _ _ hinv ?_) ?_
    · refine ⟨hI1, ?_⟩
      have : x.rcFirstChain.getLike =
          (c.hmm_like x.rcFirstChain.m_uI x.rcFirstChain.getParents w1).1 := by
        conv_lhs => rw [h1]
        rfl
      rw [this, hpure, hI1]
    · refine ⟨hI2, ?_⟩
      have : x.rcSecondChain.getLike =
          (c.hmm_like x.rcSecondChain.m_uI x.rcSecondChain.getParents w2).1 := by
        conv_lhs => rw [h2]
        rfl
      rw [this, hpure, hI2]
  | false =>
    rw [hrej ht]; exact hinv

/-- A property of chains that `setTemp` does not disturb is kept by the exchange
of two temperatures. -/
theorem exchangeTemps_forall (Q : EMCChain → Prop)
    (hQ : ∀ (ch : EMCChain) (t : ℚ), Q ch → Q (ch.setTemp t))
    (l : List EMCChain) (x1 x2 : Nat) (a : EMCChain)
    (hl : ∀ ch ∈ l, Q ch) (ha : Q a) : ∀ ch ∈ exchangeTemps l x1 x2 a, Q ch := by
  unfold exchangeTemps
  dsimp only
  have h1 : ∀ ch ∈ (match l[x2]? with
      | some b => l.set x1 (a.setTemp b.m_fTemp)
      | none => l), Q ch := by
    split
    · intro ch hch
      rcases List.mem_or_eq_of_mem_set hch with h | h
      · exact hl ch h
      · rw [h]; exact hQ a _ ha
    · exact hl
  split
  next b1 hb1 =>
    intro ch hch
    rcases List.mem_or_eq_of_mem_set hch with h | h
    · exact h1 ch h
    · rw [h]; exact hQ b1 _ (h1 b1 (List.getElem?_mem hb1))
  · exact h1

theorem exchangeOnce_keeps_like {W : Type} (c : World W) (e : EMCEnv) (I : Nat)
    (s : EMCState W) (n : Nat) (r : EMCState W × Nat) (f : Nat → Parents → ℚ)
    (hinv : LikeOK f I s.vcChains) (h : exchangeOnce c e s n = .ok r) :
    LikeOK f I r.1.vcChains := by
  unfold exchangeOnce at h
  split at h
  · cases h
  next x hx =>
  injection h with h
  subst h
  obtain ⟨_, _, _, _, ha, _⟩ := exchangePropose_spec c e s x hx
  unfold exchangeFinish
  dsimp only
  split
  · exact exchangeTemps_forall (fun ch => ch.m_uI = I ∧ ch.getLike = f I ch.getParents)
      (fun ch t h => h) _ _ _ _ hinv (hinv _ (List.getElem?_mem ha))
  · exact hinv

theorem exchangeLoop_keeps_like {W : Type} (c : World W) (e : EMCEnv) (I k : Nat)
    (f : Nat → Parents → ℚ) :
    ∀ (s : EMCState W) (r : EMCState W × Nat), LikeOK f I s.vcChains →
      exchangeLoop c e k s = .ok r → LikeOK f I r.1.vcChains := by
  induction k with
  | zero =>
    intro s r hinv h
    rw [exchangeLoop] at h
    injection h with h
    subst h
    exact hinv
  | succ k ih =>
    intro s r hinv h
    rw [exchangeLoop] at h
    split at h
    · cases h
    next r1 h1 =>
    exact exchangeOnce_keeps_like c e I _ _ _ f (ih s r1 hinv h1) h

theorem emcIteration_keeps_like {W : Type} (c : World W) (e : EMCEnv) (I fuel : Nat)
    (s s1 : EMCState W) (f : Nat → Parents → ℚ)
    (hpure : ∀ I p w, (c.hmm_like I p w).1 = f I p) (hinv : LikeOK f I s.vcChains)
    (h : emcIteration c e I fuel s = .ok s1) : LikeOK f I s1.vcChains := by
  unfold emcIteration at h
  split at h
  · cases h
  next s2 h2 =>
  split at h
  · cases h
  next r h3 =>
  injection h with h
  subst h
  refine exchangeLoop_keeps_like c e I _ f _ _ ?_ h3
  unfold emcOperator at h2
  dsimp only at h2
  split at h2
  · exact mutate_keeps_like c e I fuel
      { s with world := (c.gsl_rng_uniform s.world).2 } s2 f hpure hinv h2
  · exact crossover_keeps_like c e I fuel
      { s with world := (c.gsl_rng_uniform s.world).2 } s2 f hpure hinv h2

theorem emcLoop_keeps_like {W : Type} (c : World W) (e : EMCEnv) (I fuel k : Nat)
    (f : Nat → Parents → ℚ) (hpure : ∀ I p w, (c.hmm_like I p w).1 = f I p) :
    ∀ (s s1 : EMCState W), LikeOK f I s.vcChains →
      emcLoop c e I fuel k s = .ok s1 → LikeOK f I s1.vcChains := by
  induction k with
  | zero =>
    intro s s1 hinv h
    rw [emcLoop] at h
    injection h with h
    subst h
    exact hinv
  | succ k ih =>
    intro s s1 hinv h
    rw [emcLoop] at h
    split at h
    · cases h
    next s2 h2 =>
    exact emcIteration_keeps_like c e I fuel _ _ f hpure (ih s s2 hinv h2) h

/-- C22: with an oracle whose value is `f` of the individual and the parents,
every chain stores `f I parents` after the set-up and after every number `k` of
iterations; a finished run of `solve_EMC` returns the stored likelihood of the
chain that the final `RWSelection` picks, which is `f I` of that chain's
parents, and hands exactly these parents to `hmm_work`, for `I` and with the
spread `S` as penalty. -/
theorem solve_EMC_returns_committed_likelihood {W : Type} (c : World W) (e : EMCEnv)
    (I N : Nat) (S : ℚ) (fuel : Nat) (w : W) (res : EMCResult W) (f : Nat → Parents → ℚ)
    (hpure : ∀ I p w, (c.hmm_like I p w).1 = f I p)
    (h : solve_EMC c e I N S fuel w = .ok res) :
    (∀ (k : Nat) (s0 sk : EMCState W), emcInit c e I fuel e.s_uParallelChains w = .ok s0 →
        emcLoop c e I fuel k s0 = .ok sk → LikeOK f I sk.vcChains) ∧
      ∃ ch, RWSelection (res.state.vcChains.map e.getSelection)
            (c.gsl_rng_uniform res.state.world).1 = .ok res.iFirstChainIndex ∧
        res.state.vcChains[res.iFirstChainIndex]? = some ch ∧
        res.ret = ch.getLike ∧ res.ret = f I ch.getParents ∧
        res.workI = I ∧ res.workParents = ch.getParents ∧ res.workPen = S ∧
        res.world = c.hmm_work I ch.getParents S (c.gsl_rng_uniform res.state.world).2 := by
  have hloop : ∀ (k : Nat) (s0 sk : EMCState W),
      emcInit c e I fuel e.s_uParallelChains w = .ok s0 →
        emcLoop c e I fuel k s0 = .ok sk → LikeOK f I sk.vcChains := by
    intro k s0 sk h0 hk
    exact emcLoop_keeps_like c e I fuel k f hpure s0 sk
      (emcInit_like c e I fuel _ f hpure w s0 h0) hk
  refine ⟨hloop, ?_⟩
  obtain ⟨s0, ch, h0, h1, hsel, hch, hret, hI, hp, hS, hw⟩ :=
    solve_EMC_spec c e I N S fuel w res h
  have hok := hloop N s0 res.state h0 h1
  refine ⟨ch, hsel, hch, hret, ?_, hI, hp, hS, hw⟩
  rw [hret]
  exact (hok ch (List.getElem?_mem hch)).2

/-- C22 in the counter world, whose oracle is the sum of the four parents: a
run of three iterations for individual `0` with spread `1/2`. -/
theorem solve_EMC_returns_committed_likelihood_witness :
    (∀ (I : Nat) (p : Parents) (w : Nat),
        (counterWorld.hmm_like I p w).1 = ((p 0 + p 1 + p 2 + p 3 : Nat) : ℚ)) ∧
    ∃ res, solve_EMC counterWorld emcEnv2 0 3 (1 / 2) 4 0 = .ok res ∧
      ∃ ch, res.state.vcChains[res.iFirstChainIndex]? = some ch ∧
        res.ret = ((ch.getParents 0 + ch.getParents 1 + ch.getParents 2 +
          ch.getParents 3 : Nat) : ℚ) ∧
        res.workI = 0 ∧ res.workParents = ch.getParents ∧ res.workPen = 1 / 2 := by
  refine ⟨fun _ _ _ => rfl, ?_⟩
  obtain ⟨res, h⟩ := exists_ok_of_isSome
    (solve_EMC counterWorld emcEnv2 0 3 (1 / 2) 4 0) (by decide!)
  obtain ⟨_, ch, _, h2, _, h4, h5, h6, h7, _⟩ :=
    solve_EMC_returns_committed_likelihood counterWorld emcEnv2 0 3 (1 / 2) 4 0 res
      (fun _ p => ((p 0 + p 1 + p 2 + p 3 : Nat) : ℚ)) (fun _ _ _ => rfl) h
  exact ⟨res, h, ch, h2, h4, h5, h6, h7⟩

/-! ## The evolutionary sampler: the hierarchy of temperatures -/

theorem hierOK_of_temps_eq (P : Nat) (l l2 : List EMCChain) (hier : List Nat)
    (h : l2.map (fun ch => ch.m_fTemp) = l.map (fun ch => ch.m_fTemp))
    (hok : HierOK P l hier) : HierOK P l2 hier := by
  obtain ⟨h1, h2, h3⟩ := hok
  have hlen : l2.length = l.length := by
    have := congrArg List.length h
    simpa using this
  refine ⟨by omega, h2, ?_⟩
  intro r hr
  obtain ⟨i, ch, hi, hch, ht⟩ := h3 r hr
  have hget := congrArg (fun x => x[i]?) h
  simp only [List.getElem?_map, hch, Option.map_some'] at hget
  cases h2i : l2[i]? with
  | none => rw [h2i] at hget; simp at hget
  | some ch2 =>
    rw [h2i] at hget
    simp only [Option.map_some', Option.some.injEq] at hget
    exact ⟨i, ch2, hi, h2i, by rw [hget, ht]⟩

theorem map_set_of_eq {α β : Type} (g : α → β) (l : List α) (i : Nat) (a a2 : α)
    (ha : l[i]? = some a) (hg : g a2 = g a) : (l.set i a2).map g = l.map g := by
  rw [List.map_set, hg]
  apply list_set_self_of_getElem?
  simp [ha]

theorem emcInit_hierOK {W : Type} (c : World W) (e : EMCEnv) (I fuel : Nat) (w : W)
    (s : EMCState W) (h : emcInit c e I fuel e.s_uParallelChains w = .ok s) :
    s.vuChainTempHierarchy = List.range e.s_uParallelChains ∧
      HierOK e.s_uParallelChains s.vcChains s.vuChainTempHierarchy := by
  obtain ⟨hlen, hhier, hch⟩ := emcInit_spec c e I fuel _ w s h
  refine ⟨hhier, hlen, by simp [hhier], ?_⟩
  intro r hr
  have hr2 : r < s.vcChains.length := by omega
  refine ⟨r, s.vcChains[r], ?_, List.getElem?_eq_getElem hr2, ?_⟩
  · rw [hhier]; exact List.getElem?_range hr
  · have ht := (hch r _ (List.getElem?_eq_getElem hr2)).1
    have hP : (e.s_uParallelChains : ℚ) ≠ 0 := by
      have : 0 < e.s_uParallelChains := by omega
      exact_mod_cast this.ne'
    rw [ht, fMaxTemp]
    field_simp

theorem mutate_temps {W : Type} (c : World W) (e : EMCEnv) (I fuel : Nat)
    (s s1 : EMCState W) (h : mutate c e I fuel s = .ok s1) :
    s1.vcChains.map (fun ch => ch.m_fTemp) = s.vcChains.map (fun ch => ch.m_fTemp) ∧
      s1.vuChainTempHierarchy = s.vuChainTempHierarchy := by
  unfold mutate at h
  split at h
  · cases h
  next m hm =>
  injection h with h
  subst h
  obtain ⟨ch, hch, _, _, _, _, ⟨v, hv⟩, _⟩ := mutatePropose_spec c e I fuel s m hm
  obtain ⟨hacc, hrej, hh⟩ := mutateFinish_spec c e I fuel s m hm
  refine ⟨?_, hh⟩
  cases ht : (mutateTest c m.curr m.prop m.chain.m_fTemp m.world).1 with
  | true =>
    rw [hacc ht]
    apply map_set_of_eq _ _ _ ch _ hch
    show m.chain.m_fTemp = ch.m_fTemp
    rw [hv]; rfl
  | false => rw [hrej ht]

theorem crossover_temps {W : Type} (c : World W) (e : EMCEnv) (fuel : Nat)
    (s s1 : EMCState W) (h : crossover c e fuel s = .ok s1) :
    s1.vcChains.map (fun ch => ch.m_fTemp) = s.vcChains.map (fun ch => ch.m_fTemp) ∧
      s1.vuChainTempHierarchy = s.vuChainTempHierarchy := by
  unfold crossover at h
  split at h
  · cases h
  next x hx =>
  injection h with h
  subst h
  obtain ⟨_, hne, _, ha, hb, cS, w1, w2, h1, h2⟩ := crossPropose_spec c e fuel s x hx
  obtain ⟨hacc, hrej, hh⟩ := crossFinish_spec c e fuel s x hx
  refine ⟨?_, hh⟩
  cases ht : (crossTest c x).1 with
  | true =>
    rw [hacc ht]
    have hT1 : x.rcFirstChain.m_fTemp = x.cFirstOrigChain.m_fTemp := by
      rw [h1, crossParents_eq]; rfl
    have hT2 : x.rcSecondChain.m_fTemp = x.cSecondOrigChain.m_fTemp := by
      rw [h2, crossParents_eq]; rfl
    have hb2 : (s.vcChains.set x.iFirstChainIndex x.rcFirstChain)[x.iSecondChain]? =
        some x.cSecondOrigChain := by
      rw [List.getElem?_set_ne (Ne.symm hne)]; exact hb
    rw [map_set_of_eq _ _ _ _ _ hb2 hT2, map_set_of_eq _ _ _ _ _ ha hT1]
  | false => rw [hrej ht]

theorem exchangeSecond_ne {W : Type} (c : World W) (P a : Nat) (w : W) :
    (exchangeSecond c P a w).1 ≠ a := by
  unfold exchangeSecond
  by_cases h0 : a = 0
  · simp [h0]
  · by_cases h1 : a = P - 1
    · simp only [beq_iff_eq, h0, if_false, ← h1, if_true]
      omega
    · simp only [beq_iff_eq, h0, if_false, h1]
      split
      · show a - 1 ≠ a
        omega
      · show a + 1 ≠ a
        omega

theorem exchangeTemps_eq (l : List EMCChain) (x1 x2 : Nat) (a b : EMCChain)
    (hb : l[x2]? = some b) (hne : x1 ≠ x2) :
    exchangeTemps l x1 x2 a =
      (l.set x1 (a.setTemp b.m_fTemp)).set x2 (b.setTemp a.m_fTemp) := by
  unfold exchangeTemps
  simp only [hb]
  rw [List.getElem?_set_ne hne, hb]

/-- An exchange attempt, accepted or not, keeps the invariant of the
hierarchy. -/
theorem exchangeFinish_hierOK {W : Type} (c : World W) (e : EMCEnv) (s : EMCState W)
    (n : Nat) (x : Exchange W)
    (hok : HierOK e.s_uParallelChains s.vcChains s.vuChainTempHierarchy)
    (hx : exchangePropose c e s = .ok x) :
    HierOK e.s_uParallelChains (exchangeFinish c s n x).1.vcChains
      (exchangeFinish c s n x).1.vuChainTempHierarchy := by
  obtain ⟨_, hsec, ha, hb, hfirst, hsecond⟩ := exchangePropose_spec c e s x hx
  obtain ⟨hlenC, hlenH, hranks⟩ := hok
  unfold exchangeFinish
  dsimp only
  split
  swap
  · exact ⟨hlenC, hlenH, hranks⟩
  have hab : x.uFirstChainIndex ≠ x.uSecondChainIndex := by
    rw [hsec]; exact (exchangeSecond_ne c _ _ _).symm
  have haP : x.uFirstChainIndex < e.s_uParallelChains := by
    obtain ⟨h, _⟩ := List.getElem?_eq_some.1 ha
    omega
  have hbP : x.uSecondChainIndex < e.s_uParallelChains := by
    obtain ⟨h, _⟩ := List.getElem?_eq_some.1 hb
    omega
  have hTa : x.first.m_fTemp = (x.uFirstChainIndex : ℚ) + 1 := by
    obtain ⟨i, ch, hi, hch, ht⟩ := hranks _ haP
    rw [ha] at hi
    injection hi with hi
    subst hi
    rw [hfirst] at hch
    injection hch with hch
    rw [hch]; exact ht
  have hTb : x.second.m_fTemp = (x.uSecondChainIndex : ℚ) + 1 := by
    obtain ⟨i, ch, hi, hch, ht⟩ := hranks _ hbP
    rw [hb] at hi
    injection hi with hi
    subst hi
    rw [hsecond] at hch
    injection hch with hch
    rw [hch]; exact ht
  have hx12 : x.uFirstChainHierarchyIndex ≠ x.uSecondCHI := by
    intro heq
    rw [heq, hsecond] at hfirst
    injection hfirst with hfirst
    rw [hfirst, hTa] at hTb
    have : (x.uFirstChainIndex : ℚ) = (x.uSecondChainIndex : ℚ) := by linarith
    exact hab (by exact_mod_cast this)
  have hx1 : x.uFirstChainHierarchyIndex < s.vcChains.length :=
    (List.getElem?_eq_some.1 hfirst).1
  have hx2 : x.uSecondCHI < s.vcChains.length := (List.getElem?_eq_some.1 hsecond).1
  rw [exchangeTemps_eq _ _ _ _ _ hsecond hx12]
  refine ⟨by simp [hlenC], by simp [hlenH], ?_⟩
  intro r hr
  by_cases hrb : r = x.uSecondChainIndex
  · subst hrb
    refine ⟨x.uFirstChainHierarchyIndex, x.first.setTemp x.second.m_fTemp, ?_, ?_, ?_⟩
    · exact List.getElem?_set_self (by simp; omega)
    · rw [List.getElem?_set_ne (Ne.symm hx12)]
      exact List.getElem?_set_self hx1
    · exact hTb
  · by_cases hra : r = x.uFirstChainIndex
    · subst hra
      refine ⟨x.uSecondCHI, x.second.setTemp x.first.m_fTemp, ?_, ?_, ?_⟩
      · rw [List.getElem?_set_ne (Ne.symm hrb)]
        exact List.getElem?_set_self (by omega)
      · exact List.getElem?_set_self (by simp; omega)
      · exact hTa
    · obtain ⟨i, ch, hi, hch, ht⟩ := hranks r hr
      have hi1 : i ≠ x.uFirstChainHierarchyIndex := by
        intro heq
        rw [heq, hfirst] at hch
        injection hch with hch
        rw [← hch, hTa] at ht
        have : (x.uFirstChainIndex : ℚ) = (r : ℚ) := by linarith
        exact hra (by exact_mod_cast this.symm)
      have hi2 : i ≠ x.uSecondCHI := by
        intro heq
        rw [heq, hsecond] at hch
        injection hch with hch
        rw [← hch, hTb] at ht
        have : (x.uSecondChainIndex : ℚ) = (r : ℚ) := by linarith
        exact hrb (by exact_mod_cast this.symm)
      refine ⟨i, ch, ?_, ?_, ht⟩
      · rw [List.getElem?_set_ne (Ne.symm hrb), List.getElem?_set_ne (Ne.symm hra)]
        exact hi
      · rw [List.getElem?_set_ne (Ne.symm hi2), List.getElem?_set_ne (Ne.symm hi1)]
        exact hch

theorem exchangeOnce_hierOK {W : Type} (c : World W) (e : EMCEnv) (s : EMCState W)
    (n : Nat) (r : EMCState W × Nat)
    (hok : HierOK e.s_uParallelChains s.vcChains s.vuChainTempHierarchy)
    (h : exchangeOnce c e s n = .ok r) :
    HierOK e.s_uParallelChains r.1.vcChains r.1.vuChainTempHierarchy := by
  unfold exchangeOnce at h
  split at h
  · cases h
  next x hx =>
  injection h with h
  subst h
  exact exchangeFinish_hierOK c e s n x hok hx

theorem exchangeLoop_hierOK {W : Type} (c : World W) (e : EMCEnv) (k : Nat) :
    ∀ (s : EMCState W) (r : EMCState W × Nat),
      HierOK e.s_uParallelChains s.vcChains s.vuChainTempHierarchy →
      exchangeLoop c e k s = .ok r →
        HierOK e.s_uParallelChains r.1.vcChains r.1.vuChainTempHierarchy := by
  induction k with
  | zero =>
    intro s r hok h
    rw [exchangeLoop] at h
    injection h with h
    subst h
    exact hok
  | succ k ih =>
    intro s r hok h
    rw [exchangeLoop] at h
    split at h
    · cases h
    next r1 h1 =>
    exact exchangeOnce_hierOK c e _ _ _ (ih s r1 hok h1) h

theorem emcOperator_hierOK {W : Type} (c : World W) (e : EMCEnv) (I fuel : Nat)
    (s s1 : EMCState W)
    (hok : HierOK e.s_uParallelChains s.vcChains s.vuChainTempHierarchy)
    (h : emcOperator c e I fuel s = .ok s1) :
    HierOK e.s_uParallelChains s1.vcChains s1.vuChainTempHierarchy := by
  unfold emcOperator at h
  dsimp only at h
  split at h
  · obtain ⟨h1, h2⟩ := mutate_temps c e I fuel _ s1 h
    rw [h2]
    exact hierOK_of_temps_eq _ _ _ _ h1 hok
  · obtain ⟨h1, h2⟩ := crossover_temps c e fuel _ s1 h
    rw [h2]
    exact hierOK_of_temps_eq _ _ _ _ h1 hok

theorem emcIteration_hierOK {W : Type} (c : World W) (e : EMCEnv) (I fuel : Nat)
    (s s1 : EMCState W)
    (hok : HierOK e.s_uParallelChains s.vcChains s.vuChainTempHierarchy)
    (h : emcIteration c e I fuel s = .ok s1) :
    HierOK e.s_uParallelChains s1.vcChains s1.vuChainTempHierarchy := by
  unfold emcIteration at h
  split at h
  · cases h
  next s2 h2 =>
  split at h
  · cases h
  next r h3 =>
  injection h with h
  subst h
  exact exchangeLoop_hierOK c e _ _ _ (emcOperator_hierOK c e I fuel s s2 hok h2) h3

theorem emcLoop_hierOK {W : Type} (c : World W) (e : EMCEnv) (I fuel k : Nat) :
    ∀ (s s1 : EMCState W),
      HierOK e.s_uParallelChains s.vcChains s.vuChainTempHierarchy →
      emcLoop c e I fuel k s = .ok s1 →
        HierOK e.s_uParallelChains s1.vcChains s1.vuChainTempHierarchy := by
  induction k with
  | zero =>
    intro s s1 hok h
    rw [emcLoop] at h
    injection h with h
    subst h
    exact hok
  | succ k ih =>
    intro s s1 hok h
    rw [emcLoop] at h
    split at h
    · cases h
    next s2 h2 =>
    exact emcIteration_hierOK c e I fuel _ _ (ih s s2 hok h2) h

theorem hierOK_lt (P : Nat) (l : List EMCChain) (hier : List Nat) (hok : HierOK P l hier) :
    ∀ i ∈ hier, i < P := by
  obtain ⟨hlenC, hlenH, hranks⟩ := hok
  intro i hi
  obtain ⟨r, hr⟩ := List.getElem?_of_mem hi
  have hrP : r < P := by
    obtain ⟨h, _⟩ := List.getElem?_eq_some.1 hr
    omega
  obtain ⟨i2, ch, hi2, hch, _⟩ := hranks r hrP
  rw [hr] at hi2
  injection hi2 with hi2
  subst hi2
  obtain ⟨h, _⟩ := List.getElem?_eq_some.1 hch
  omega

theorem hierOK_nodup (P : Nat) (l : List EMCChain) (hier : List Nat)
    (hok : HierOK P l hier) : hier.Nodup := by
  obtain ⟨hlenC, hlenH, hranks⟩ := hok
  rw [List.nodup_iff_getElem?_ne_getElem?]
  intro i j hij hj heq
  obtain ⟨a, cha, ha, hcha, hta⟩ := hranks i (by omega)
  obtain ⟨b, chb, hb, hchb, htb⟩ := hranks j (by omega)
  rw [heq, hb] at ha
  injection ha with ha
  subst ha
  rw [hchb] at hcha
  injection hcha with hcha
  rw [← hcha, htb] at hta
  have : (j : ℚ) = (i : ℚ) := by linarith
  have : j = i := by exact_mod_cast this
  omega

/-- The hierarchy is a permutation of the chain indices `0, ..., P-1`. -/
theorem hierOK_perm (P : Nat) (l : List EMCChain) (hier : List Nat)
    (hok : HierOK P l hier) : hier.Perm (List.range P) := by
  have hnd := hierOK_nodup P l hier hok
  have hlt := hierOK_lt P l hier hok
  apply List.perm_of_nodup_nodup_toFinset_eq hnd (List.nodup_range P)
  apply Finset.eq_of_subset_of_card_le
  · intro i hi
    rw [List.mem_toFinset] at hi
    rw [List.mem_toFinset, List.mem_range]
    exact hlt i hi
  · rw [List.toFinset_card_of_nodup hnd, List.toFinset_card_of_nodup (List.nodup_range P),
      List.length_range, hok.2.1]

/-- The temperatures of the population are, up to order, `1, ..., P`. -/
theorem hierOK_temps_perm (P : Nat) (l : List EMCChain) (hier : List Nat)
    (hok : HierOK P l hier) :
    (l.map (fun ch => ch.m_fTemp)).Perm ((List.range P).map (fun (r : Nat) => (r : ℚ) + 1)) := by
  have hperm := hierOK_perm P l hier hok
  obtain ⟨hlenC, hlenH, hranks⟩ := hok
  have h1 : l.map (fun ch => ch.m_fTemp) =
      (List.range P).map (fun i => ((l[i]?).map (fun ch => ch.m_fTemp)).getD 0) := by
    apply List.ext_getElem?
    intro n
    by_cases hn : n < P
    · rw [List.getElem?_map, List.getElem?_map, List.getElem?_range hn,
        List.getElem?_eq_getElem (show n < l.length by omega)]
      simp [List.getElem?_eq_getElem (show n < l.length by omega)]
    · rw [List.getElem?_eq_none (by simp; omega), List.getElem?_eq_none (by simp; omega)]
  have h2 : hier.map (fun i => ((l[i]?).map (fun ch => ch.m_fTemp)).getD 0) =
      (List.range P).map (fun (r : Nat) => (r : ℚ) + 1) := by
    apply List.ext_getElem?
    intro n
    by_cases hn : n < P
    · obtain ⟨i, ch, hi, hch, ht⟩ := hranks n hn
      rw [List.getElem?_map, List.getElem?_map, List.getElem?_range hn, hi]
      simp [hch, ht]
    · rw [List.getElem?_eq_none (by simp; omega), List.getElem?_eq_none (by simp; omega)]
  rw [h1, ← h2]
  exact (hperm.map _).symm

/-- Along the ranks of the hierarchy the temperatures are strictly
increasing. -/
theorem hierOK_increasing (P : Nat) (l : List EMCChain) (hier : List Nat)
    (hok : HierOK P l hier) (r1 r2 i1 i2 : Nat) (ch1 ch2 : EMCChain) (hr : r1 < r2)
    (h1 : hier[r1]? = some i1) (h2 : hier[r2]? = some i2)
    (hc1 : l[i1]? = some ch1) (hc2 : l[i2]? = some ch2) : ch1.m_fTemp < ch2.m_fTemp := by
  obtain ⟨hlenC, hlenH, hranks⟩ := hok
  have hr2 : r2 < P := by
    obtain ⟨h, _⟩ := List.getElem?_eq_some.1 h2
    omega
  obtain ⟨a, cha, ha, hcha, hta⟩ := hranks r1 (by omega)
  obtain ⟨b, chb, hb, hchb, htb⟩ := hranks r2 hr2
  rw [h1] at ha
  injection ha with ha
  subst ha
  rw [h2] at hb
  injection hb with hb
  subst hb
  rw [hc1] at hcha
  injection hcha with hcha
  rw [hc2] at hchb
  injection hchb with hchb
  rw [hcha, hchb, hta, htb]
  have : (r1 : ℚ) < (r2 : ℚ) := by exact_mod_cast hr
  linarith

/-- C21: the hierarchy starts as the identity; the set-up, every mutation, every
crossover, every exchange attempt and every whole iteration keep the invariant
that the chain at rank `r` holds the temperature `r + 1`, the `r`-th smallest of
the temperatures of the set-up, and so does the state of a finished run. Under
this invariant the hierarchy is a permutation of `0, ..., P-1`, the
temperatures of the population are `1, ..., P` up to order, and they increase
strictly along the ranks. -/
theorem solve_EMC_hierarchy {W : Type} (c : World W) (e : EMCEnv) (I fuel : Nat) :
    (∀ (w : W) (s0 : EMCState W), emcInit c e I fuel e.s_uParallelChains w = .ok s0 →
        s0.vuChainTempHierarchy = List.range e.s_uParallelChains ∧
          HierOK e.s_uParallelChains s0.vcChains s0.vuChainTempHierarchy) ∧
      (∀ s s1 : EMCState W, HierOK e.s_uParallelChains s.vcChains s.vuChainTempHierarchy →
        mutate c e I fuel s = .ok s1 →
          HierOK e.s_uParallelChains s1.vcChains s1.vuChainTempHierarchy) ∧
      (∀ s s1 : EMCState W, HierOK e.s_uParallelChains s.vcChains s.vuChainTempHierarchy →
        crossover c e fuel s = .ok s1 →
          HierOK e.s_uParallelChains s1.vcChains s1.vuChainTempHierarchy) ∧
      (∀ (s : EMCState W) (n : Nat) (r : EMCState W × Nat),
        HierOK e.s_uParallelChains s.vcChains s.vuChainTempHierarchy →
        exchangeOnce c e s n = .ok r →
          HierOK e.s_uParallelChains r.1.vcChains r.1.vuChainTempHierarchy) ∧
      (∀ s s1 : EMCState W, HierOK e.s_uParallelChains s.vcChains s.vuChainTempHierarchy →
        emcIteration c e I fuel s = .ok s1 →
          HierOK e.s_uParallelChains s1.vcChains s1.vuChainTempHierarchy) ∧
      (∀ (N : Nat) (S : ℚ) (w : W) (res : EMCResult W),
        solve_EMC c e I N S fuel w = .ok res →
          HierOK e.s_uParallelChains res.state.vcChains res.state.vuChainTempHierarchy) ∧
      (∀ (l : List EMCChain) (hier : List Nat), HierOK e.s_uParallelChains l hier →
        hier.Perm (List.range e.s_uParallelChains) ∧
          (l.map (fun ch => ch.m_fTemp)).Perm
            ((List.range e.s_uParallelChains).map (fun (r : Nat) => (r : ℚ) + 1)) ∧
          ∀ (r1 r2 i1 i2 : Nat) (ch1 ch2 : EMCChain), r1 < r2 →
            hier[r1]? = some i1 → hier[r2]? = some i2 →
            l[i1]? = some ch1 → l[i2]? = some ch2 → ch1.m_fTemp < ch2.m_fTemp) := by
  refine ⟨fun w s0 h => emcInit_hierOK c e I fuel w s0 h, ?_, ?_,
    fun s n r hok h => exchangeOnce_hierOK c e s n r hok h,
    fun s s1 hok h => emcIteration_hierOK c e I fuel s s1 hok h, ?_, ?_⟩
  · intro s s1 hok h
    obtain ⟨h1, h2⟩ := mutate_temps c e I fuel s s1 h
    rw [h2]
    exact hierOK_of_temps_eq _ _ _ _ h1 hok
  · intro s s1 hok h
    obtain ⟨h1, h2⟩ := crossover_temps c e fuel s s1 h
    rw [h2]
    exact hierOK_of_temps_eq _ _ _ _ h1 hok
  · intro N S w res h
    obtain ⟨s0, _, h0, h1, _⟩ := solve_EMC_spec c e I N S fuel w res h
    exact emcLoop_hierOK c e I fuel N s0 res.state (emcInit_hierOK c e I fuel w s0 h0).2 h1
  · intro l hier hok
    exact ⟨hierOK_perm _ l hier hok, hierOK_temps_perm _ l hier hok,
      fun r1 r2 i1 i2 ch1 ch2 hr h1 h2 hc1 hc2 =>
        hierOK_increasing _ l hier hok r1 r2 i1 i2 ch1 ch2 hr h1 h2 hc1 hc2⟩

/-- C21 in the counter world started at `4`: after one iteration the two temperatures have been
exchanged, the hierarchy is `[1, 0]`, and chain `1` (temperature `1`) stands at
rank `0` before chain `0` (temperature `2`). -/
theorem solve_EMC_hierarchy_witness :
    ∃ res, solve_EMC counterWorld emcEnv2 0 1 (1 / 2) 4 4 = .ok res ∧
      res.state.vuChainTempHierarchy = [1, 0] ∧
      res.state.vcChains.map (fun ch => ch.m_fTemp) = [2, 1] ∧
      HierOK emcEnv2.s_uParallelChains res.state.vcChains res.state.vuChainTempHierarchy ∧
      res.state.vuChainTempHierarchy.Perm (List.range emcEnv2.s_uParallelChains) := by
  obtain ⟨res, h⟩ := exists_ok_of_isSome
    (solve_EMC counterWorld emcEnv2 0 1 (1 / 2) 4 4) (by decide!)
  have hh : (solve_EMC counterWorld emcEnv2 0 1 (1 / 2) 4 4).toOption.map
      (fun r => r.state.vuChainTempHierarchy) = some [1, 0] := by decide!
  have ht : (solve_EMC counterWorld emcEnv2 0 1 (1 / 2) 4 4).toOption.map
      (fun r => r.state.vcChains.map (fun ch => ch.m_fTemp)) = some [2, 1] := by decide!
  have hok := (solve_EMC_hierarchy counterWorld emcEnv2 0 4).2.2.2.2.2.1 1 (1 / 2) 4 res h
  rw [h] at hh ht
  refine ⟨res, h, by simpa [Except.toOption] using hh, by simpa [Except.toOption] using ht,
    hok, hierOK_perm _ _ _ hok⟩

/-! ## The estimation loops: the shape of a run -/

theorem individualLoop_spec {W : Type} (solver : Solver W) (emc : Bool)
    (m_uCycles n : Nat) (x : ℚ)
    (hargs : ∀ i w r, solver n i x w = .ok r →
      r.2.1.solverArgs = some (emc, n, i, m_uCycles, x)) :
    ∀ (l : List Nat) (s s1 : GenState W),
      individualLoop solver m_uCycles n x l s = .ok s1 →
        ∃ evs, s1.events = s.events ++ evs ∧ evs.length = l.length ∧
          ∀ (k i : Nat), l[k]? = some i → ∃ ev : EstEvent, evs[k]? = some ev ∧
            ev.solverArgs = some (emc, n, i, m_uCycles, x) := by
  intro l
  induction l with
  | nil =>
    intro s s1 h
    simp only [individualLoop] at h
    injection h with h
    subst h
    exact ⟨[], by simp, rfl, by simp⟩
  | cons i rest ih =>
    intro s s1 h
    simp only [individualLoop] at h
    split at h
    · exact absurd h (by simp)
    next r hr =>
      obtain ⟨evs, h1, h2, h3⟩ := ih _ _ h
      refine ⟨r.2.1 :: evs, by simp [h1], by simp [h2], ?_⟩
      intro k i2 hk
      cases k with
      | zero =>
        simp only [List.getElem?_cons_zero] at hk
        injection hk with hk
        subst hk
        exact ⟨r.2.1, by simp, hargs _ _ _ hr⟩
      | succ k =>
        simp only [List.getElem?_cons_succ] at hk
        obtain ⟨ev, he1, he2⟩ := h3 k i2 hk
        exact ⟨ev, by simpa using he1, he2⟩

theorem generation_shape {W : Type} (d : Driver W) (solver : Solver W) (emc : Bool)
    (q : EstParams) (last : LineEnd) (n : Nat)
    (hargs : ∀ i w r, solver n i (pen q.bn n) w = .ok r →
      r.2.1.solverArgs = some (emc, n, i, q.m_uCycles, pen q.bn n))
    (w : W) (g : List EstEvent × W) (h : generation d solver q last n w = .ok g) :
    GenShape emc q last n g.1 := by
  simp only [generation] at h
  split at h
  · exact absurd h (by simp)
  next s hs =>
    injection h with h
    subst h
    obtain ⟨evs, h1, h2, h3⟩ := individualLoop_spec solver emc q.m_uCycles n (pen q.bn n)
      hargs _ _ _ hs
    simp only [List.nil_append] at h1
    refine ⟨evs, s.sum, s.iter, by rw [h1], by simpa using h2, ?_⟩
    intro i hi
    exact h3 i i (by simp [List.getElem?_range hi])

theorem generationLoop_shape {W : Type} (d : Driver W) (solver : Solver W) (emc : Bool)
    (q : EstParams) (last : LineEnd)
    (hargs : ∀ n i w r, solver n i (pen q.bn n) w = .ok r →
      r.2.1.solverArgs = some (emc, n, i, q.m_uCycles, pen q.bn n)) :
    ∀ (k : Nat) (w : W) (r : List (List EstEvent) × W),
      generationLoop d solver q last k w = .ok r →
        r.1.length = k ∧ ∀ n, n < k → ∃ g, r.1[n]? = some g ∧ GenShape emc q last n g := by
  intro k
  induction k with
  | zero =>
    intro w r h
    simp only [generationLoop] at h
    injection h with h
    subst h
    exact ⟨rfl, fun n hn => absurd hn (by omega)⟩
  | succ k ih =>
    intro w r h
    simp only [generationLoop] at h
    split at h
    · exact absurd h (by simp)
    next r0 hr0 =>
      split at h
      · exact absurd h (by simp)
      next g hg =>
        injection h with h
        subst h
        obtain ⟨hlen, hsh⟩ := ih w r0 hr0
        refine ⟨by simp [hlen], ?_⟩
        intro n hn
        by_cases hnk : n < k
        · obtain ⟨g0, hg0, hs0⟩ := hsh n hnk
          exact ⟨g0, by rw [List.getElem?_append_left (by omega)]; exact hg0, hs0⟩
        · have hnk2 : n = k := by omega
          subst hnk2
          refine ⟨g.1, ?_, generation_shape d solver emc q last n (hargs n) _ g hg⟩
          rw [List.getElem?_append_right (by omega), hlen]
          simp

theorem generationLoop_total {W : Type} (d : Driver W) (solver : Solver W)
    (q : EstParams) (last : LineEnd)
    (htotal : ∀ n i x w, ∃ r, solver n i x w = .ok r) :
    ∀ (k : Nat) (w : W), ∃ r, generationLoop d solver q last k w = .ok r := by
  have hind : ∀ (n : Nat) (x : ℚ) (l : List Nat) (s : GenState W),
      ∃ s1, individualLoop solver q.m_uCycles n x l s = .ok s1 := by
    intro n x l
    induction l with
    | nil => exact fun s => ⟨s, rfl⟩
    | cons i rest ih =>
      intro s
      obtain ⟨r, hr⟩ := htotal n i x s.world
      simp only [individualLoop, hr]
      exact ih _
  intro k
  induction k with
  | zero => exact fun w => ⟨([], w), rfl⟩
  | succ k ih =>
    intro w
    obtain ⟨r, hr⟩ := ih w
    obtain ⟨s, hs⟩ := hind k (pen q.bn k) (List.range q.in_)
      { sum := 0, iter := 0, events := [], world := r.2 }
    simp only [generationLoop, hr, generation, hs]
    exact ⟨_, rfl⟩

theorem solveSolver_args {W : Type} (c : World W) (q : EstParams) (n i : Nat) (x : ℚ)
    (w : W) (r : ℚ × EstEvent × W) (h : solveSolver c q n i x w = .ok r) :
    r.2.1.solverArgs = some (false, n, i, q.m_uCycles, x) := by
  simp only [solveSolver] at h
  injection h with h
  subst h
  rfl

theorem emcSolver_args {W : Type} (c : World W) (e : EMCEnv) (q : EstParams)
    (fuel n i : Nat) (x : ℚ) (w : W) (r : ℚ × EstEvent × W)
    (h : emcSolver c e q fuel n i x w = .ok r) :
    r.2.1.solverArgs = some (true, n, i, q.m_uCycles, x) := by
  simp only [emcSolver] at h
  split at h
  · exact absurd h (by simp)
  · injection h with h
    subst h
    rfl

theorem solveSolver_total {W : Type} (c : World W) (q : EstParams) (n i : Nat) (x : ℚ)
    (w : W) : ∃ r, solveSolver c q n i x w = .ok r :=
  ⟨_, rfl⟩

/-! ## The samplers leave alone what their collaborators leave alone -/

theorem solveInit_keeps {W α : Type} (c : World W) (out : W → α) (hk : Keeps c out)
    (I : Nat) (w : W) : out (solveInit c I w).world = out w := by
  obtain ⟨_, _, hs, _, hl, _⟩ := hk
  simp only [solveInit]
  rw [hl, hs, hs, hs, hs]

theorem solveStep_keeps {W α : Type} (c : World W) (out : W → α) (hk : Keeps c out)
    (kick : Bool) (iter I : Nat) (x : ℚ) (n : Nat) (s : SolveState W) :
    out (solveStep c kick iter I x n s).world = out s.world := by
  obtain ⟨hg, hu, hs, hup, hl, _⟩ := hk
  have hq : out (solvePropose c kick I n s).world = out s.world := by
    simp only [solvePropose]
    rw [hl]
    split
    · rw [hs, hg]
    · rw [hs, hg]
  have ht : ∀ a b y w, out (solveTest c a b y w).2.1 = out w := by
    intro a b y w
    unfold solveTest
    split
    · rfl
    · exact hu w
  simp only [solveStep]
  rw [hup, ht, hq]

theorem solveLoop_keeps {W α : Type} (c : World W) (out : W → α) (hk : Keeps c out)
    (kick : Bool) (iter I : Nat) (x : ℚ) (s : SolveState W) :
    ∀ N, out (solveLoop c kick iter I x N s).world = out s.world := by
  intro N
  induction N with
  | zero => rw [solveLoop_zero]
  | succ N ih => rw [solveLoop_succ, solveStep_keeps c out hk, ih]

theorem solve_keeps {W α : Type} (c : World W) (out : W → α) (hk : Keeps c out)
    (kick : Bool) (iter I N : Nat) (x : ℚ) (w : W) :
    out (solve c kick iter I N x w).world = out w := by
  simp only [solve]
  rw [hk.2.2.2.2.2, solveLoop_keeps c out hk, solveInit_keeps c out hk]

theorem drawParent_keeps {W α : Type} (c : World W) (out : W → α) (hk : Keeps c out)
    (m I : Nat) (j : Fin 4) :
    ∀ (fuel : Nat) (ch : EMCChain) (w : W) (r : EMCChain × W),
      drawParent c m I j fuel ch w = .ok r → out r.2 = out w := by
  intro fuel
  induction fuel with
  | zero => intro ch w r h; simp [drawParent] at h
  | succ fuel ih =>
    intro ch w r h
    rw [drawParent] at h
    split at h
    · rw [ih _ _ _ h, hk.1]
    · injection h with h
      subst h
      exact hk.1 w

theorem initChain_keeps {W α : Type} (c : World W) (out : W → α) (hk : Keeps c out)
    (e : EMCEnv) (I i fuel : Nat) (w : W) (r : EMCChain × W)
    (h : initChain c e I i fuel w = .ok r) : out r.2 = out w := by
  unfold initChain at h
  dsimp only at h
  split at h
  · cases h
  next r0 h0 =>
  split at h
  · cases h
  next r1 h1 =>
  split at h
  · cases h
  next r2 h2 =>
  split at h
  · cases h
  next r3 h3 =>
  injection h with h
  subst h
  show out (c.hmm_like _ _ r3.2).2 = out w
  rw [hk.2.2.2.2.1, drawParent_keeps c out hk _ _ _ _ _ _ _ h3,
    drawParent_keeps c out hk _ _ _ _ _ _ _ h2, drawParent_keeps c out hk _ _ _ _ _ _ _ h1,
    drawParent_keeps c out hk _ _ _ _ _ _ _ h0]

theorem emcInit_keeps {W α : Type} (c : World W) (out : W → α) (hk : Keeps c out)
    (e : EMCEnv) (I fuel : Nat) :
    ∀ (k : Nat) (w : W) (s : EMCState W), emcInit c e I fuel k w = .ok s →
      out s.world = out w := by
  intro k
  induction k with
  | zero =>
    intro w s h
    rw [emcInit] at h
    injection h with h
    subst h
    rfl
  | succ k ih =>
    intro w s h
    rw [emcInit] at h
    split at h
    · cases h
    next s0 h0 =>
    split at h
    · cases h
    next r hr =>
    injection h with h
    subst h
    show out r.2 = out w
    rw [initChain_keeps c out hk e I k fuel _ r hr, ih w s0 h0]

theorem mutate_keeps {W α : Type} (c : World W) (out : W → α) (hk : Keeps c out)
    (e : EMCEnv) (I fuel : Nat) (s s1 : EMCState W) (h : mutate c e I fuel s = .ok s1) :
    out s1.world = out s.world := by
  unfold mutate at h
  split at h
  · cases h
  next m hm =>
  injection h with h
  subst h
  have hm1 : out m.world = out s.world := by
    unfold mutatePropose at hm
    dsimp only at hm
    split at hm
    · cases hm
    next ch hch =>
    split at hm
    · cases hm
    next r hr =>
    injection hm with hm
    subst hm
    show out (c.hmm_like _ _ r.2).2 = out s.world
    rw [hk.2.2.2.2.1, drawParent_keeps c out hk _ _ _ _ _ _ _ hr, hk.1, hk.1]
  show out (mutateTest c m.curr m.prop m.chain.m_fTemp m.world).2 = out s.world
  unfold mutateTest
  split
  · exact hm1
  · show out (c.gsl_rng_uniform m.world).2 = out s.world
    rw [hk.2.1, hm1]

theorem secondChain_keeps {W α : Type} (c : World W) (out : W → α) (hk : Keeps c out)
    (P iFirst : Nat) :
    ∀ (fuel : Nat) (w : W) (r : Nat × W), secondChain c P iFirst fuel w = .ok r →
      out r.2 = out w := by
  intro fuel
  induction fuel with
  | zero => intro w r h; simp [secondChain] at h
  | succ fuel ih =>
    intro w r h
    rw [secondChain] at h
    split at h
    · rw [ih _ _ h, hk.1]
    · injection h with h
      subst h
      exact hk.1 w

theorem crossover_keeps {W α : Type} (c : World W) (out : W → α) (hk : Keeps c out)
    (e : EMCEnv) (fuel : Nat) (s s1 : EMCState W) (h : crossover c e fuel s = .ok s1) :
    out s1.world = out s.world := by
  unfold crossover at h
  split at h
  · cases h
  next x hx =>
  injection h with h
  subst h
  have hx1 : out x.world = out s.world := by
    unfold crossPropose at hx
    dsimp only at hx
    split at hx
    · cases hx
    next i1 hi1 =>
    split at hx
    · cases hx
    next r hr =>
    split at hx
    next a b ha hb =>
      injection hx with hx
      subst hx
      show out (c.hmm_like _ _ (c.hmm_like _ _ (c.gsl_rng_get r.2).2).2).2 = out s.world
      rw [hk.2.2.2.2.1, hk.2.2.2.2.1, hk.1, secondChain_keeps c out hk _ _ _ _ _ hr, hk.2.1]
    · cases hx
  show out (crossTest c x).2 = out s.world
  unfold crossTest
  dsimp only
  split
  · show out (c.gsl_rng_uniform x.world).2 = out s.world
    rw [hk.2.1, hx1]
  · show out (c.gsl_rng_uniform x.world).2 = out s.world
    rw [hk.2.1, hx1]

theorem exchangeOnce_keeps {W α : Type} (c : World W) (out : W → α) (hk : Keeps c out)
    (e : EMCEnv) (s : EMCState W) (n : Nat) (r : EMCState W × Nat)
    (h : exchangeOnce c e s n = .ok r) : out r.1.world = out s.world := by
  unfold exchangeOnce at h
  split at h
  · cases h
  next x hx =>
  injection h with h
  subst h
  have hsec : ∀ P u w, out (exchangeSecond c P u w).2 = out w := by
    intro P u w
    unfold exchangeSecond
    split
    · rfl
    · split
      · rfl
      · dsimp only
        split
        · exact hk.1 w
        · exact hk.1 w
  have hx1 : out x.world = out s.world := by
    unfold exchangePropose at hx
    dsimp only at hx
    split at hx
    · cases hx
    next i1 h1 =>
    split at hx
    · cases hx
    next i2 h2 =>
    split at hx
    next a b ha hb =>
      injection hx with hx
      subst hx
      show out (exchangeSecond c _ _ (c.gsl_rng_get s.world).2).2 = out s.world
      rw [hsec, hk.1]
    · cases hx
  unfold exchangeFinish
  dsimp only
  split
  · show out (exchangeTest c x).2 = out s.world
    show out (c.gsl_rng_uniform x.world).2 = out s.world
    rw [hk.2.1, hx1]
  · show out (c.gsl_rng_uniform x.world).2 = out s.world
    rw [hk.2.1, hx1]

theorem exchangeLoop_keeps {W α : Type} (c : World W) (out : W → α) (hk : Keeps c out)
    (e : EMCEnv) :
    ∀ (k : Nat) (s : EMCState W) (r : EMCState W × Nat),
      exchangeLoop c e k s = .ok r → out r.1.world = out s.world := by
  intro k
  induction k with
  | zero =>
    intro s r h
    rw [exchangeLoop] at h
    injection h with h
    subst h
    rfl
  | succ k ih =>
    intro s r h
    rw [exchangeLoop] at h
    split at h
    · cases h
    next r0 h0 =>
    rw [exchangeOnce_keeps c out hk e _ _ _ h, ih s r0 h0]

theorem emcIteration_keeps {W α : Type} (c : World W) (out : W → α) (hk : Keeps c out)
    (e : EMCEnv) (I fuel : Nat) (s s1 : EMCState W)
    (h : emcIteration c e I fuel s = .ok s1) : out s1.world = out s.world := by
  unfold emcIteration at h
  split at h
  · cases h
  next s2 h2 =>
  split at h
  · cases h
  next r hr =>
  injection h with h
  subst h
  rw [exchangeLoop_keeps c out hk e _ _ _ hr]
  unfold emcOperator at h2
  dsimp only at h2
  split at h2
  · rw [mutate_keeps c out hk e I fuel _ _ h2]
    exact hk.2.1 s.world
  · rw [crossover_keeps c out hk e fuel _ _ h2]
    exact hk.2.1 s.world

theorem emcLoop_keeps {W α : Type} (c : World W) (out : W → α) (hk : Keeps c out)
    (e : EMCEnv) (I fuel : Nat) :
    ∀ (k : Nat) (s s1 : EMCState W), emcLoop c e I fuel k s = .ok s1 →
      out s1.world = out s.world := by
  intro k
  induction k with
  | zero =>
    intro s s1 h
    rw [emcLoop] at h
    injection h with h
    subst h
    rfl
  | succ k ih =>
    intro s s1 h
    rw [emcLoop] at h
    split at h
    · cases h
    next s2 h2 =>
    rw [emcIteration_keeps c out hk e I fuel _ _ h, ih s s2 h2]

theorem solve_EMC_keeps {W α : Type} (c : World W) (out : W → α) (hk : Keeps c out)
    (e : EMCEnv) (I N : Nat) (S : ℚ) (fuel : Nat) (w : W) (res : EMCResult W)
    (h : solve_EMC c e I N S fuel w = .ok res) : out res.world = out w := by
  obtain ⟨s0, ch, h0, h1, _, _, _, _, _, _, hw⟩ := solve_EMC_spec c e I N S fuel w res h
  rw [hw, hk.2.2.2.2.2, hk.2.1, emcLoop_keeps c out hk e I fuel N s0 _ h1,
    emcInit_keeps c out hk e I fuel _ w s0 h0]

/-! ## The estimation loops: `replace`, the swap and the order of a generation -/

theorem filter_isReplace_map (l : List Nat) :
    (l.map EstEvent.replace).filter EstEvent.isReplace = l.map EstEvent.replace := by
  induction l with
  | nil => rfl
  | cons i rest ih => simp [List.filter_cons, EstEvent.isReplace, ih]

theorem filterMap_of_map_eq_some {α β : Type} (f : α → Option β) :
    ∀ (l : List α) (l2 : List β), l.map f = l2.map some → l.filterMap f = l2 := by
  intro l
  induction l with
  | nil =>
    intro l2 h
    cases l2 with
    | nil => rfl
    | cons b l2 => simp at h
  | cons a l ih =>
    intro l2 h
    cases l2 with
    | nil => simp at h
    | cons b l2 =>
      simp only [List.map_cons, List.cons.injEq] at h
      rw [List.filterMap_cons, h.1, ih l2 h.2]

theorem solverArgs_some {ev : EstEvent} {a : Bool × Nat × Nat × Nat × ℚ}
    (h : ev.solverArgs = some a) :
    ev.isReplace = false ∧ ev.isSwap = false ∧ ev.isInit = false ∧ ev.isCerr = false := by
  cases ev <;> simp [EstEvent.solverArgs] at h <;> exact ⟨rfl, rfl, rfl, rfl⟩

/-- The order of the events of a generation. -/
theorem genShape_order (emc : Bool) (q : EstParams) (last : LineEnd) (n : Nat)
    (g : List EstEvent) (h : GenShape emc q last n g) :
    ∃ before after : List EstEvent, g = before ++ [EstEvent.swap] ++ after ∧
      before.filterMap EstEvent.solverArgs =
        (List.range q.in_).map (fun i => (emc, n, i, q.m_uCycles, pen q.bn n)) ∧
      before.length = q.in_ ∧
      (∀ ev ∈ before, ev.isSwap = false ∧ ev.isReplace = false ∧ ev.isInit = false ∧
        ev.solverArgs ≠ none) ∧
      (∀ ev ∈ after, ev.isSwap = false ∧ ev.isInit = false ∧ ev.solverArgs = none) ∧
      after.filter EstEvent.isReplace =
        (if n ≥ q.bn then (List.range q.in_).map EstEvent.replace else []) := by
  obtain ⟨evs, sum, iter, hg, hlen, hev⟩ := h
  refine ⟨evs, (replaced q n).map EstEvent.replace
    ++ [EstEvent.cerr (CerrLine.progress n (pen q.bn n) sum iter last)], ?_, ?_, hlen,
    ?_, ?_, ?_⟩
  · rw [hg]
    simp only [List.append_assoc]
  · apply filterMap_of_map_eq_some
    apply List.ext_getElem?
    intro i
    by_cases hi : i < q.in_
    · obtain ⟨ev, h1, h2⟩ := hev i hi
      rw [List.getElem?_map, List.getElem?_map, List.getElem?_map, List.getElem?_range hi, h1]
      simp [h2]
    · rw [List.getElem?_eq_none (by simp; omega), List.getElem?_eq_none (by simp; omega)]
  · intro ev hmem
    obtain ⟨i, hi⟩ := List.getElem?_of_mem hmem
    have hi2 : i < q.in_ := by
      obtain ⟨hlt, _⟩ := List.getElem?_eq_some.1 hi
      omega
    obtain ⟨ev2, h1, h2⟩ := hev i hi2
    rw [hi] at h1
    injection h1 with h1
    subst h1
    obtain ⟨a, b, c, _⟩ := solverArgs_some h2
    exact ⟨b, a, c, by rw [h2]; simp⟩
  · intro ev hmem
    rw [List.mem_append] at hmem
    rcases hmem with hmem | hmem
    · obtain ⟨i, _, hi⟩ := List.mem_map.1 hmem
      subst hi
      exact ⟨rfl, rfl, rfl⟩
    · rw [List.mem_singleton] at hmem
      subst hmem
      exact ⟨rfl, rfl, rfl⟩
  · rw [List.filter_append, filter_isReplace_map]
    simp only [replaced]
    split <;> simp [EstEvent.isReplace]

theorem genShape_replace (emc : Bool) (q : EstParams) (last : LineEnd) (n : Nat)
    (g : List EstEvent) (h : GenShape emc q last n g) :
    g.filter EstEvent.isReplace =
      (if n ≥ q.bn then (List.range q.in_).map EstEvent.replace else []) := by
  obtain ⟨before, after, hg, _, _, hb, _, ha⟩ := genShape_order emc q last n g h
  have hb2 : before.filter EstEvent.isReplace = [] := by
    rw [List.filter_eq_nil_iff]
    intro ev hmem
    rw [(hb ev hmem).2.1]
    simp
  rw [hg, List.filter_append, List.filter_append, hb2, ha]
  simp [EstEvent.isReplace]

theorem generationLoop_replace_count {W : Type} (d : Driver W) (solver : Solver W)
    (emc : Bool) (q : EstParams) (last : LineEnd)
    (hargs : ∀ n i w r, solver n i (pen q.bn n) w = .ok r →
      r.2.1.solverArgs = some (emc, n, i, q.m_uCycles, pen q.bn n)) :
    ∀ (k : Nat) (w : W) (r : List (List EstEvent) × W),
      generationLoop d solver q last k w = .ok r →
        (r.1.flatten.filter EstEvent.isReplace).length = (k - q.bn) * q.in_ := by
  intro k
  induction k with
  | zero =>
    intro w r h
    simp only [generationLoop] at h
    injection h with h
    subst h
    simp
  | succ k ih =>
    intro w r h
    simp only [generationLoop] at h
    split at h
    · exact absurd h (by simp)
    next r0 hr0 =>
      split at h
      · exact absurd h (by simp)
      next g hg =>
        injection h with h
        subst h
        have hsh := generation_shape d solver emc q last k (hargs k) _ g hg
        have hrep := genShape_replace emc q last k g.1 hsh
        simp only [List.flatten_append, List.flatten_cons, List.flatten_nil, List.append_nil,
          List.filter_append, List.length_append]
        rw [ih w r0 hr0, hrep]
        by_cases hk : q.bn ≤ k
        · rw [if_pos hk]
          have : k + 1 - q.bn = (k - q.bn) + 1 := by omega
          rw [this, Nat.add_mul]
          simp
        · rw [if_neg hk]
          have h1 : k - q.bn = 0 := by omega
          have h2 : k + 1 - q.bn = 0 := by omega
          rw [h1, h2]
          simp

theorem individualLoop_keeps {W α : Type} (solver : Solver W) (out : W → α)
    (m_uCycles n : Nat) (x : ℚ)
    (hs : ∀ i w r, solver n i x w = .ok r → out r.2.2 = out w) :
    ∀ (l : List Nat) (s s1 : GenState W),
      individualLoop solver m_uCycles n x l s = .ok s1 → out s1.world = out s.world := by
  intro l
  induction l with
  | nil =>
    intro s s1 h
    simp only [individualLoop] at h
    injection h with h
    subst h
    rfl
  | cons i rest ih =>
    intro s s1 h
    simp only [individualLoop] at h
    split at h
    · exact absurd h (by simp)
    next r hr =>
      rw [ih _ _ h]
      exact hs i s.world r hr

theorem generationLoop_keeps {W α : Type} (d : Driver W) (solver : Solver W)
    (out : W → α) (q : EstParams) (last : LineEnd)
    (hs : ∀ n i x w r, solver n i x w = .ok r → out r.2.2 = out w)
    (hswap : ∀ w, out (d.swap w) = out w) :
    ∀ (k : Nat) (w : W) (r : List (List EstEvent) × W), k ≤ q.bn →
      generationLoop d solver q last k w = .ok r → out r.2 = out w := by
  intro k
  induction k with
  | zero =>
    intro w r _ h
    simp only [generationLoop] at h
    injection h with h
    subst h
    rfl
  | succ k ih =>
    intro w r hk h
    simp only [generationLoop] at h
    split at h
    · exact absurd h (by simp)
    next r0 hr0 =>
      split at h
      · exact absurd h (by simp)
      next g hg =>
        injection h with h
        subst h
        rw [← ih w r0 (by omega) hr0]
        simp only [generation] at hg
        split at hg
        · exact absurd hg (by simp)
        next s1 hs1 =>
          injection hg with hg
          subst hg
          have hrep : replaced q k = [] := by
            simp only [replaced]
            rw [if_neg (by omega)]
          simp only [hrep, List.foldl_nil]
          rw [hswap, individualLoop_keeps solver out q.m_uCycles k (pen q.bn k)
            (fun i => hs k i _) _ _ _ hs1]

theorem solveSolver_keeps {W α : Type} (c : World W) (out : W → α) (hk : Keeps c out)
    (q : EstParams) (n i : Nat) (x : ℚ) (w : W) (r : ℚ × EstEvent × W)
    (h : solveSolver c q n i x w = .ok r) : out r.2.2 = out w := by
  simp only [solveSolver] at h
  injection h with h
  subst h
  exact solve_keeps c out hk _ _ _ _ _ _

theorem emcSolver_keeps {W α : Type} (c : World W) (out : W → α) (hk : Keeps c out)
    (e : EMCEnv) (q : EstParams) (fuel n i : Nat) (x : ℚ) (w : W) (r : ℚ × EstEvent × W)
    (h : emcSolver c e q fuel n i x w = .ok r) : out r.2.2 = out w := by
  simp only [emcSolver] at h
  split at h
  · exact absurd h (by simp)
  next res hres =>
    injection h with h
    subst h
    exact solve_EMC_keeps c out hk e _ _ _ _ _ res hres

theorem estimate_total {W : Type} (c : World W) (d : Driver W) (q : EstParams) (w : W) :
    ∃ res, estimate c d q w = .ok res := by
  obtain ⟨r, hr⟩ := generationLoop_total d (solveSolver c q) q LineEnd.endl
    (solveSolver_total c q) (q.bn + q.sn) (d.init 2 q.in_ (q.hn + q.m_uNumRefHaps) w)
  simp only [estimate, hr]
  exact ⟨_, rfl⟩

theorem estimate_AMH_total {W : Type} (c : World W) (d : Driver W) (q : EstParams)
    (uRelMatType : Nat) (w : W) : ∃ res, estimate_AMH c d q uRelMatType w = .ok res := by
  obtain ⟨r, hr⟩ := generationLoop_total d (solveSolver c q) q LineEnd.endl
    (solveSolver_total c q) (q.bn + q.sn)
    (d.init uRelMatType q.in_ (q.hn + q.m_uNumRefHaps) w)
  simp only [estimate_AMH, hr]
  exact ⟨_, rfl⟩

/-- The three estimation loops leave their result in the same way: the loops
differ in the sampler, in the events before the generation loop and in the end
of the progress lines. -/
theorem estimate_cases {W : Type} (c : World W) (d : Driver W) (e : EMCEnv)
    (q : EstParams) (fuel uRelMatType : Nat) (w : W) (res : EstResult W) (emc : Bool)
    (h : (estimate c d q w = .ok res ∧ emc = false) ∨
      (estimate_EMC c d e q fuel w = .ok res ∧ emc = true) ∨
      (estimate_AMH c d q uRelMatType w = .ok res ∧ emc = false)) :
    ∃ (solver : Solver W) (last : LineEnd) (w0 : W),
      generationLoop d solver q last (q.bn + q.sn) w0 = .ok (res.gens, res.loopWorld) ∧
      (∀ n i x w1 r, solver n i x w1 = .ok r →
        r.2.1.solverArgs = some (emc, n, i, q.m_uCycles, x)) ∧
      (∀ (α : Type) (out : W → α), Keeps c out →
        (∀ n i x w1 r, solver n i x w1 = .ok r → out r.2.2 = out w1)) ∧
      (∀ (α : Type) (out : W → α), (∀ k n m w1, out (d.init k n m w1) = out w1) →
        out w0 = out w) ∧
      (∀ ev ∈ res.head ++ res.tail, ev.isSwap = false ∧ ev.isReplace = false ∧
        ev.solverArgs = none) ∧
      res.world = d.result res.loopWorld := by
  rcases h with ⟨h, hemc⟩ | ⟨h, hemc⟩ | ⟨h, hemc⟩
  · subst hemc
    simp only [estimate] at h
    split at h
    · exact absurd h (by simp)
    next r hr =>
      injection h with h
      subst h
      refine ⟨solveSolver c q, LineEnd.endl, _, hr, solveSolver_args c q,
        fun α out hk => solveSolver_keeps c out hk q, fun α out hinit => hinit _ _ _ _,
        ?_, rfl⟩
      intro ev hmem
      simp only [List.cons_append, List.nil_append, List.mem_cons, List.mem_singleton,
        List.not_mem_nil, or_false] at hmem
      rcases hmem with hm | hm | hm | hm <;> subst hm <;> exact ⟨rfl, rfl, rfl⟩
  · subst hemc
    simp only [estimate_EMC] at h
    split at h
    · exact absurd h (by simp)
    next r hr =>
      injection h with h
      subst h
      refine ⟨emcSolver c e q fuel, LineEnd.cr, _, hr, emcSolver_args c e q fuel,
        fun α out hk => emcSolver_keeps c out hk e q fuel, fun α out _ => rfl, ?_, rfl⟩
      intro ev hmem
      simp only [List.cons_append, List.nil_append, List.mem_cons, List.mem_singleton,
        List.not_mem_nil, or_false] at hmem
      rcases hmem with hm | hm | hm | hm <;> subst hm <;> exact ⟨rfl, rfl, rfl⟩
  · subst hemc
    simp only [estimate_AMH] at h
    split at h
    · exact absurd h (by simp)
    next r hr =>
      injection h with h
      subst h
      refine ⟨solveSolver c q, LineEnd.endl, _, hr, solveSolver_args c q,
        fun α out hk => solveSolver_keeps c out hk q, fun α out hinit => hinit _ _ _ _,
        ?_, rfl⟩
      intro ev hmem
      simp only [List.cons_append, List.nil_append, List.mem_cons, List.mem_singleton,
        List.not_mem_nil, or_false] at hmem
      rcases hmem with hm | hm | hm | hm | hm <;> subst hm <;> exact ⟨rfl, rfl, rfl⟩

/-- C23: in a finished run of any of the three estimation loops, the `replace`
calls of generation `n` are one call for each individual, in order, when `n >=
bn`, and none otherwise; a run makes `sn * in` calls of `replace` in all; with
`sn = 0` it makes none, and any part of the world that the other collaborators
leave alone is at the end of the generation loop what it was before the run. -/
theorem estimate_replace_after_burnin {W : Type} (c : World W) (d : Driver W)
    (e : EMCEnv) (q : EstParams) (fuel uRelMatType : Nat) (w : W) (res : EstResult W)
    (h : estimate c d q w = .ok res ∨ estimate_EMC c d e q fuel w = .ok res ∨
      estimate_AMH c d q uRelMatType w = .ok res) :
    res.gens.length = q.bn + q.sn ∧
      (∀ n, n < q.bn + q.sn → ∃ g, res.gens[n]? = some g ∧
        g.filter EstEvent.isReplace =
          (if n ≥ q.bn then (List.range q.in_).map EstEvent.replace else [])) ∧
      (res.events.filter EstEvent.isReplace).length = q.sn * q.in_ ∧
      (q.sn = 0 → res.events.filter EstEvent.isReplace = [] ∧
        ∀ (α : Type) (out : W → α), Keeps c out →
          (∀ k n m w1, out (d.init k n m w1) = out w1) → (∀ w1, out (d.swap w1) = out w1) →
            out res.loopWorld = out w) := by
  have h2 : ∃ emc, (estimate c d q w = .ok res ∧ emc = false) ∨
      (estimate_EMC c d e q fuel w = .ok res ∧ emc = true) ∨
      (estimate_AMH c d q uRelMatType w = .ok res ∧ emc = false) := by
    rcases h with h | h | h
    · exact ⟨false, Or.inl ⟨h, rfl⟩⟩
    · exact ⟨true, Or.inr (Or.inl ⟨h, rfl⟩)⟩
    · exact ⟨false, Or.inr (Or.inr ⟨h, rfl⟩)⟩
  obtain ⟨emc, h2⟩ := h2
  obtain ⟨solver, last, w0, hloop, hargs, hkeep, hw0, hends, _⟩ :=
    estimate_cases c d e q fuel uRelMatType w res emc h2
  obtain ⟨hlen, hshape⟩ := generationLoop_shape d solver emc q last
    (fun n i w1 r => hargs n i _ w1 r) _ _ _ hloop
  have hcount := generationLoop_replace_count d solver emc q last
    (fun n i w1 r => hargs n i _ w1 r) _ _ _ hloop
  have hhead : res.head.filter EstEvent.isReplace = [] := by
    rw [List.filter_eq_nil_iff]
    intro ev hmem
    rw [(hends ev (List.mem_append_left _ hmem)).2.1]
    simp
  have htail : res.tail.filter EstEvent.isReplace = [] := by
    rw [List.filter_eq_nil_iff]
    intro ev hmem
    rw [(hends ev (List.mem_append_right _ hmem)).2.1]
    simp
  have hall : (res.events.filter EstEvent.isReplace).length = q.sn * q.in_ := by
    simp only [EstResult.events, List.filter_append, hhead, htail, List.nil_append,
      List.append_nil]
    rw [hcount]
    congr 1
    omega
  refine ⟨hlen, ?_, hall, ?_⟩
  · intro n hn
    obtain ⟨g, hg, hs⟩ := hshape n hn
    exact ⟨g, hg, genShape_replace emc q last n g hs⟩
  · intro hsn
    refine ⟨?_, ?_⟩
    · rw [← List.length_eq_zero, hall, hsn, Nat.zero_mul]
    · intro α out hk hinit hswap
      have := generationLoop_keeps d solver out q last (hkeep α out hk) hswap
        (q.bn + q.sn) w0 _ (by omega) hloop
      rw [this]
      exact hw0 α out hinit

/-- C23 on the counter world: with a burn-in of one generation and two
generations of sampling on two individuals, `replace` is called four times, on
the individuals `0, 1, 0, 1`, and not at all in generation `0`. -/
theorem estimate_replace_after_burnin_witness :
    ∃ res, estimate counterWorld counterDriver estParams3 0 = .ok res ∧
      res.gens.length = 3 ∧
      (res.events.filter EstEvent.isReplace).length = 4 ∧
      (∃ g, res.gens[0]? = some g ∧ g.filter EstEvent.isReplace = []) ∧
      (∃ g, res.gens[2]? = some g ∧
        g.filter EstEvent.isReplace = [EstEvent.replace 0, EstEvent.replace 1]) := by
  obtain ⟨res, h⟩ := estimate_total counterWorld counterDriver estParams3 0
  obtain ⟨h1, h2, h3, _⟩ := estimate_replace_after_burnin counterWorld counterDriver emcEnv2
    estParams3 0 0 0 res (Or.inl h)
  refine ⟨res, h, h1, h3, ?_, ?_⟩
  · obtain ⟨g, hg, hf⟩ := h2 0 (by decide)
    exact ⟨g, hg, hf⟩
  · obtain ⟨g, hg, hf⟩ := h2 2 (by decide)
    exact ⟨g, hg, hf⟩

/-- C24: `estimate` and `estimate_AMH` always finish, and a finished run of any of
the three loops consists of exactly `bn + sn` generations. The events of
generation `n` are: one call of the sampler for each individual `0, ..., in-1`
in ascending order (with `m_nIteration = n`, `m_uCycles` cycles and the penalty
of the generation), then the one swap of the buffers, then what remains, which
holds every `replace` call of the generation and neither a sampler call nor a
swap. No sampler call and no swap happens outside the generations. -/
theorem estimate_generation_order {W : Type} (c : World W) (d : Driver W) (e : EMCEnv)
    (q : EstParams) (fuel uRelMatType : Nat) :
    (∀ w, ∃ res, estimate c d q w = .ok res) ∧
      (∀ w, ∃ res, estimate_AMH c d q uRelMatType w = .ok res) ∧
      ∀ (w : W) (res : EstResult W) (emc : Bool),
        ((estimate c d q w = .ok res ∧ emc = false) ∨
          (estimate_EMC c d e q fuel w = .ok res ∧ emc = true) ∨
          (estimate_AMH c d q uRelMatType w = .ok res ∧ emc = false)) →
        res.gens.length = q.bn + q.sn ∧
          (∀ n, n < q.bn + q.sn → ∃ g before after : List EstEvent,
            res.gens[n]? = some g ∧ g = before ++ [EstEvent.swap] ++ after ∧
            before.filterMap EstEvent.solverArgs =
              (List.range q.in_).map (fun i => (emc, n, i, q.m_uCycles, pen q.bn n)) ∧
            before.length = q.in_ ∧
            (∀ ev ∈ before, ev.isSwap = false ∧ ev.isReplace = false) ∧
            (∀ ev ∈ after, ev.isSwap = false ∧ ev.solverArgs = none)) ∧
          (∀ ev ∈ res.head ++ res.tail, ev.isSwap = false ∧ ev.solverArgs = none) := by
  refine ⟨estimate_total c d q, estimate_AMH_total c d q uRelMatType, ?_⟩
  intro w res emc h
  obtain ⟨solver, last, w0, hloop, hargs, _, _, hends, _⟩ :=
    estimate_cases c d e q fuel uRelMatType w res emc h
  obtain ⟨hlen, hshape⟩ := generationLoop_shape d solver emc q last
    (fun n i w1 r => hargs n i _ w1 r) _ _ _ hloop
  refine ⟨hlen, ?_, fun ev hmem => ⟨(hends ev hmem).1, (hends ev hmem).2.2⟩⟩
  intro n hn
  obtain ⟨g, hg, hs⟩ := hshape n hn
  obtain ⟨before, after, h1, h2, h3, h4, h5, _⟩ := genShape_order emc q last n g hs
  exact ⟨g, before, after, hg, h1, h2, h3, fun ev hm => ⟨(h4 ev hm).1, (h4 ev hm).2.1⟩,
    fun ev hm => ⟨(h5 ev hm).1, (h5 ev hm).2.2⟩⟩

/-- C24 on the counter world, with a burn-in of one generation and two
generations of sampling on two individuals: three generations; in the last one
`solve` runs on individual `0`, then on individual `1`, with three cycles and
penalty `1`, before the swap. -/
theorem estimate_generation_order_witness :
    ∃ res, estimate counterWorld counterDriver estParams3 0 = .ok res ∧
      res.gens.length = 3 ∧
      ∃ g before after : List EstEvent,
        res.gens[2]? = some g ∧ g = before ++ [EstEvent.swap] ++ after ∧
        before.filterMap EstEvent.solverArgs = [(false, 2, 0, 3, 1), (false, 2, 1, 3, 1)] := by
  obtain ⟨res, h⟩ :=
    (estimate_generation_order counterWorld counterDriver emcEnv2 estParams3 0 0).1 0
  obtain ⟨h1, h2, _⟩ :=
    (estimate_generation_order counterWorld counterDriver emcEnv2 estParams3 0 0).2.2 0 res
      false (Or.inl ⟨h, rfl⟩)
  obtain ⟨g, before, after, hg, hg2, hb, _⟩ := h2 2 (by decide)
  refine ⟨res, h, h1, g, before, after, hg, hg2, ?_⟩
  rw [hb]
  have hp : pen estParams3.bn 2 = 1 := by
    simp only [pen, estParams3]
    norm_num
  rw [hp]
  rfl

/-! ## Determinism: the samplers see the world through their collaborators only -/

theorem solveInit_sim {W1 W2 : Type} (c1 : World W1) (c2 : World W2)
    (R : W1 → W2 → Prop) (hsim : Simulates c1 c2 R) (I : Nat) (w1 : W1) (w2 : W2)
    (hw : R w1 w2) :
    (solveInit c1 I w1).p = (solveInit c2 I w2).p ∧
      (solveInit c1 I w1).curr = (solveInit c2 I w2).curr ∧
      (solveInit c1 I w1).calls = (solveInit c2 I w2).calls ∧
      R (solveInit c1 I w1).world (solveInit c2 I w2).world := by
  obtain ⟨_, _, hsam, _, hlike, _, _⟩ := hsim
  obtain ⟨a0, r0⟩ := hsam I SampleHap_default _ _ hw
  obtain ⟨a1, r1⟩ := hsam I SampleHap_default _ _ r0
  obtain ⟨a2, r2⟩ := hsam I SampleHap_default _ _ r1
  obtain ⟨a3, r3⟩ := hsam I SampleHap_default _ _ r2
  have hp : (solveInit c1 I w1).p = (solveInit c2 I w2).p := by
    simp only [solveInit]
    rw [a0, a1, a2, a3]
  have hl := hlike I (solveInit c2 I w2).p _ _ r3
  refine ⟨hp, ?_, ?_, ?_⟩
  · show (c1.hmm_like I (solveInit c1 I w1).p _).1 = _
    rw [hp]
    exact hl.1
  · simp only [solveInit] at hp ⊢
    rw [hp]
  · show R (c1.hmm_like I (solveInit c1 I w1).p _).2 _
    rw [hp]
    exact hl.2

theorem solvePropose_sim {W1 W2 : Type} (c1 : World W1) (c2 : World W2)
    (R : W1 → W2 → Prop) (hsim : Simulates c1 c2 R) (kick : Bool) (I n : Nat)
    (s1 : SolveState W1) (s2 : SolveState W2) (hp : s1.p = s2.p)
    (hw : R s1.world s2.world) :
    (solvePropose c1 kick I n s1).rp = (solvePropose c2 kick I n s2).rp ∧
      (solvePropose c1 kick I n s1).oh = (solvePropose c2 kick I n s2).oh ∧
      (solvePropose c1 kick I n s1).refOnly = (solvePropose c2 kick I n s2).refOnly ∧
      (solvePropose c1 kick I n s1).p = (solvePropose c2 kick I n s2).p ∧
      (solvePropose c1 kick I n s1).prop = (solvePropose c2 kick I n s2).prop ∧
      R (solvePropose c1 kick I n s1).world (solvePropose c2 kick I n s2).world := by
  obtain ⟨hget, _, hsam, _, hlike, _, _⟩ := hsim
  obtain ⟨g, rg⟩ := hget _ _ hw
  simp only [solvePropose]
  rw [hp, g]
  split
  · obtain ⟨a, ra⟩ := hsam I true _ _ rg
    dsimp only
    rw [a]
    obtain ⟨l, rl⟩ := hlike I (Function.update s2.p (slot (c2.gsl_rng_get s2.world).1)
      (c2.SampleHap I true (c2.gsl_rng_get s2.world).2).1) _ _ ra
    exact ⟨rfl, rfl, rfl, rfl, l, rl⟩
  · obtain ⟨a, ra⟩ := hsam I SampleHap_default _ _ rg
    dsimp only
    rw [a]
    obtain ⟨l, rl⟩ := hlike I (Function.update s2.p (slot (c2.gsl_rng_get s2.world).1)
      (c2.SampleHap I SampleHap_default (c2.gsl_rng_get s2.world).2).1) _ _ ra
    exact ⟨rfl, rfl, rfl, rfl, l, rl⟩

theorem solveTest_sim {W1 W2 : Type} (c1 : World W1) (c2 : World W2)
    (R : W1 → W2 → Prop) (hsim : Simulates c1 c2 R) (curr prop x : ℚ) (w1 : W1) (w2 : W2)
    (hw : R w1 w2) :
    (solveTest c1 curr prop x w1).1 = (solveTest c2 curr prop x w2).1 ∧
      (solveTest c1 curr prop x w1).2.2 = (solveTest c2 curr prop x w2).2.2 ∧
      R (solveTest c1 curr prop x w1).2.1 (solveTest c2 curr prop x w2).2.1 := by
  obtain ⟨_, huni, _, _, _, _, hexp⟩ := hsim
  obtain ⟨u, ru⟩ := huni _ _ hw
  unfold solveTest
  split
  · exact ⟨rfl, rfl, hw⟩
  · dsimp only
    rw [u, hexp]
    exact ⟨rfl, rfl, ru⟩

theorem solveStep_sim {W1 W2 : Type} (c1 : World W1) (c2 : World W2)
    (R : W1 → W2 → Prop) (hsim : Simulates c1 c2 R) (kick : Bool) (iter I : Nat) (x : ℚ)
    (n : Nat) (s1 : SolveState W1) (s2 : SolveState W2) (hp : s1.p = s2.p)
    (hc : s1.curr = s2.curr) (hcalls : s1.calls = s2.calls) (hw : R s1.world s2.world) :
    (solveStep c1 kick iter I x n s1).p = (solveStep c2 kick iter I x n s2).p ∧
      (solveStep c1 kick iter I x n s1).curr = (solveStep c2 kick iter I x n s2).curr ∧
      (solveStep c1 kick iter I x n s1).calls = (solveStep c2 kick iter I x n s2).calls ∧
      R (solveStep c1 kick iter I x n s1).world (solveStep c2 kick iter I x n s2).world := by
  obtain ⟨hrp, hoh, href, hpp, hprop, hqw⟩ :=
    solvePropose_sim c1 c2 R hsim kick I n s1 s2 hp hw
  obtain ⟨ht1, ht2, htw⟩ := solveTest_sim c1 c2 R hsim s2.curr
    (solvePropose c2 kick I n s2).prop x _ _ hqw
  have hupd := hsim.2.2.2.1
  simp only [solveStep]
  rw [hc, hrp, hoh, href, hpp, hprop, hcalls, ht1, ht2]
  exact ⟨rfl, rfl, rfl, hupd _ _ _ _ _ _ htw⟩

theorem solveLoop_sim {W1 W2 : Type} (c1 : World W1) (c2 : World W2)
    (R : W1 → W2 → Prop) (hsim : Simulates c1 c2 R) (kick : Bool) (iter I : Nat) (x : ℚ)
    (s1 : SolveState W1) (s2 : SolveState W2) (hp : s1.p = s2.p)
    (hc : s1.curr = s2.curr) (hcalls : s1.calls = s2.calls) (hw : R s1.world s2.world) :
    ∀ N, (solveLoop c1 kick iter I x N s1).p = (solveLoop c2 kick iter I x N s2).p ∧
      (solveLoop c1 kick iter I x N s1).curr = (solveLoop c2 kick iter I x N s2).curr ∧
      (solveLoop c1 kick iter I x N s1).calls = (solveLoop c2 kick iter I x N s2).calls ∧
      R (solveLoop c1 kick iter I x N s1).world (solveLoop c2 kick iter I x N s2).world := by
  intro N
  induction N with
  | zero =>
    rw [solveLoop_zero, solveLoop_zero]
    exact ⟨hp, hc, hcalls, hw⟩
  | succ N ih =>
    rw [solveLoop_succ, solveLoop_succ]
    exact solveStep_sim c1 c2 R hsim kick iter I x N _ _ ih.1 ih.2.1 ih.2.2.1 ih.2.2.2

theorem solve_sim {W1 W2 : Type} (c1 : World W1) (c2 : World W2)
    (R : W1 → W2 → Prop) (hsim : Simulates c1 c2 R) (kick : Bool) (iter I N : Nat) (x : ℚ)
    (w1 : W1) (w2 : W2) (hw : R w1 w2) :
    (solve c1 kick iter I N x w1).ret = (solve c2 kick iter I N x w2).ret ∧
      (solve c1 kick iter I N x w1).calls = (solve c2 kick iter I N x w2).calls ∧
      R (solve c1 kick iter I N x w1).world (solve c2 kick iter I N x w2).world := by
  obtain ⟨i1, i2, i3, i4⟩ := solveInit_sim c1 c2 R hsim I w1 w2 hw
  obtain ⟨l1, l2, l3, l4⟩ := solveLoop_sim c1 c2 R hsim kick iter I x _ _ i1 i2 i3 i4 N
  have hwork := hsim.2.2.2.2.2.1
  simp only [solve]
  rw [l1, l2, l3]
  exact ⟨rfl, rfl, hwork _ _ _ _ _ l4⟩

theorem individualLoop_sim {W1 W2 : Type} (c1 : World W1) (c2 : World W2)
    (R : W1 → W2 → Prop) (hsim : Simulates c1 c2 R) (q : EstParams) (n : Nat) (x : ℚ) :
    ∀ (l : List Nat) (s1 : GenState W1) (s2 : GenState W2),
      s1.sum = s2.sum → s1.iter = s2.iter → s1.events = s2.events →
      R s1.world s2.world →
        ∃ t1 t2, individualLoop (solveSolver c1 q) q.m_uCycles n x l s1 = .ok t1 ∧
          individualLoop (solveSolver c2 q) q.m_uCycles n x l s2 = .ok t2 ∧
          t1.sum = t2.sum ∧ t1.iter = t2.iter ∧ t1.events = t2.events ∧
          R t1.world t2.world := by
  intro l
  induction l with
  | nil =>
    intro s1 s2 h1 h2 h3 h4
    exact ⟨s1, s2, rfl, rfl, h1, h2, h3, h4⟩
  | cons i rest ih =>
    intro s1 s2 h1 h2 h3 h4
    obtain ⟨a, b, r⟩ := solve_sim c1 c2 R hsim q.s_bKickStartFromRef n i q.m_uCycles x
      _ _ h4
    simp only [individualLoop, solveSolver]
    apply ih
    · simp only [h1, a]
    · simp only [h2]
    · simp only [h3, a, b]
    · exact r

theorem generationLoop_sim {W1 W2 : Type} (c1 : World W1) (c2 : World W2)
    (d1 : Driver W1) (d2 : Driver W2) (R : W1 → W2 → Prop) (hsim : Simulates c1 c2 R)
    (hd : DriverSimulates d1 d2 R) (q : EstParams) (last : LineEnd) :
    ∀ (k : Nat) (w1 : W1) (w2 : W2), R w1 w2 →
      ∃ r1 r2, generationLoop d1 (solveSolver c1 q) q last k w1 = .ok r1 ∧
        generationLoop d2 (solveSolver c2 q) q last k w2 = .ok r2 ∧
        r1.1 = r2.1 ∧ R r1.2 r2.2 := by
  obtain ⟨_, hswap, hrep, _⟩ := hd
  have hfold : ∀ (l : List Nat) (a : W1) (b : W2), R a b →
      R (l.foldl (fun w1 i => d1.replace i w1) a) (l.foldl (fun w1 i => d2.replace i w1) b) := by
    intro l
    induction l with
    | nil => exact fun a b h => h
    | cons i rest ih => exact fun a b h => ih _ _ (hrep i a b h)
  intro k
  induction k with
  | zero => exact fun w1 w2 h => ⟨([], w1), ([], w2), rfl, rfl, rfl, h⟩
  | succ k ih =>
    intro w1 w2 h
    obtain ⟨r1, r2, e1, e2, hg, hr⟩ := ih w1 w2 h
    obtain ⟨t1, t2, f1, f2, hs, hi, he, hw⟩ := individualLoop_sim c1 c2 R hsim q k
      (pen q.bn k) (List.range q.in_)
      { sum := 0, iter := 0, events := [], world := r1.2 }
      { sum := 0, iter := 0, events := [], world := r2.2 } rfl rfl rfl hr
    simp only [generationLoop, e1, e2, generation, f1, f2]
    refine ⟨_, _, rfl, rfl, ?_, ?_⟩
    · simp only [hg, he, hs, hi]
    · exact hfold _ _ _ (hswap _ _ hw)

theorem estimate_sim {W1 W2 : Type} (c1 : World W1) (c2 : World W2)
    (d1 : Driver W1) (d2 : Driver W2) (R : W1 → W2 → Prop) (hsim : Simulates c1 c2 R)
    (hd : DriverSimulates d1 d2 R) (q : EstParams) (w1 : W1) (w2 : W2) (hw : R w1 w2) :
    ∃ res1 res2, estimate c1 d1 q w1 = .ok res1 ∧ estimate c2 d2 q w2 = .ok res2 ∧
      res1.head = res2.head ∧ res1.gens = res2.gens ∧ res1.tail = res2.tail ∧
      R res1.loopWorld res2.loopWorld ∧ R res1.world res2.world := by
  obtain ⟨r1, r2, e1, e2, hg, hr⟩ := generationLoop_sim c1 c2 d1 d2 R hsim hd q LineEnd.endl
    (q.bn + q.sn) _ _ (hd.1 2 q.in_ (q.hn + q.m_uNumRefHaps) w1 w2 hw)
  simp only [estimate, e1, e2]
  exact ⟨_, _, rfl, rfl, rfl, hg, rfl, hr, hd.2.2.2 _ _ hr⟩

/-- C25: `solve` and `estimate` are functions of what their collaborators
answer. Two runs whose collaborators answer alike from related worlds (the same
deviates, the same sampled haplotypes, the same likelihoods, the same `exp`),
started from related worlds with the same parameters, make the same calls with
the same arguments, commit the same configurations for every individual and
return the same likelihoods, and `estimate` finishes in both. -/
theorem solve_deterministic {W1 W2 : Type} (c1 : World W1) (c2 : World W2)
    (d1 : Driver W1) (d2 : Driver W2) (R : W1 → W2 → Prop) (hsim : Simulates c1 c2 R)
    (hd : DriverSimulates d1 d2 R) (w1 : W1) (w2 : W2) (hw : R w1 w2) :
    (∀ (kick : Bool) (iter I N : Nat) (x : ℚ),
      (solve c1 kick iter I N x w1).ret = (solve c2 kick iter I N x w2).ret ∧
        (solve c1 kick iter I N x w1).calls = (solve c2 kick iter I N x w2).calls ∧
        committed (solve c1 kick iter I N x w1).calls =
          committed (solve c2 kick iter I N x w2).calls ∧
        R (solve c1 kick iter I N x w1).world (solve c2 kick iter I N x w2).world) ∧
      ∀ q : EstParams, ∃ res1 res2,
        estimate c1 d1 q w1 = .ok res1 ∧ estimate c2 d2 q w2 = .ok res2 ∧
        res1.events = res2.events ∧
        (∀ I, commitsOf I res1.events = commitsOf I res2.events) ∧
        likelihoods res1.events = likelihoods res2.events ∧
        R res1.world res2.world := by
  refine ⟨?_, ?_⟩
  · intro kick iter I N x
    obtain ⟨h1, h2, h3⟩ := solve_sim c1 c2 R hsim kick iter I N x w1 w2 hw
    exact ⟨h1, h2, by rw [h2], h3⟩
  · intro q
    obtain ⟨res1, res2, e1, e2, hh, hg, ht, _, hr⟩ :=
      estimate_sim c1 c2 d1 d2 R hsim hd q w1 w2 hw
    have hev : res1.events = res2.events := by
      simp only [EstResult.events, hh, hg, ht]
    exact ⟨res1, res2, e1, e2, hev, fun I => by rw [hev], by rw [hev], hr⟩

/-- C25 in the scenario of two individuals, a burn-in of four generations, no
sampling and twenty cycles per individual: the run on the counter world and the
run on the world that also keeps a tally of the calls make the same events, and
the configuration committed last for individual `0` is `319, 277, 317, 279` in
both. -/
theorem solve_deterministic_witness :
    ∃ res1 res2,
      estimate counterWorld counterDriver estParams2 0 = .ok res1 ∧
      estimate talliedWorld talliedDriver estParams2 (0, 0) = .ok res2 ∧
      res1.events = res2.events ∧
      commitsOf 0 res2.events =
        [([55, 13, 53, 15], 1 / 4), ([143, 101, 141, 103], 1), ([231, 189, 229, 191], 1),
          ([319, 277, 317, 279], 1)] ∧
      likelihoods res1.events = likelihoods res2.events := by
  have hsim : Simulates counterWorld talliedWorld (fun a b => a = b.1) := by
    refine ⟨?_, ?_, ?_, ?_, ?_, ?_, ?_⟩
    · intro a b h
      subst h
      exact ⟨rfl, rfl⟩
    · intro a b h
      subst h
      exact ⟨rfl, rfl⟩
    · intro I r a b h
      subst h
      exact ⟨rfl, rfl⟩
    · intro p f I x a b h
      exact h
    · intro I p a b h
      subst h
      exact ⟨rfl, rfl⟩
    · intro I p x a b h
      exact h
    · intro x
      rfl
  have hd : DriverSimulates counterDriver talliedDriver (fun a b => a = b.1) := by
    refine ⟨?_, ?_, ?_, ?_⟩
    · intro k n m a b _
      rfl
    · intro a b h
      exact h
    · intro i a b h
      subst h
      rfl
    · intro a b h
      subst h
      rfl
  obtain ⟨res1, res2, e1, e2, hev, hc, hl, _⟩ :=
    (solve_deterministic counterWorld talliedWorld counterDriver talliedDriver
      (fun a b => a = b.1) hsim hd 0 (0, 0) rfl).2 estParams2
  have hv : (estimate counterWorld counterDriver estParams2 0).toOption.map
      (fun r => commitsOf 0 r.events) =
        some [([55, 13, 53, 15], 1 / 4), ([143, 101, 141, 103], 1),
          ([231, 189, 229, 191], 1), ([319, 277, 317, 279], 1)] := by decide!
  rw [e1] at hv
  refine ⟨res1, res2, e1, e2, hev, ?_, hl⟩
  rw [← hc 0]
  simpa [Except.toOption] using hv

/-! ## The adaptive loop and the plain loop -/

theorem generationLoop_no_init {W : Type} (d : Driver W) (solver : Solver W) (emc : Bool)
    (q : EstParams) (last : LineEnd)
    (hargs : ∀ n i w r, solver n i (pen q.bn n) w = .ok r →
      r.2.1.solverArgs = some (emc, n, i, q.m_uCycles, pen q.bn n))
    (k : Nat) (w : W) (r : List (List EstEvent) × W)
    (h : generationLoop d solver q last k w = .ok r) :
    r.1.flatten.filter EstEvent.isInit = [] := by
  obtain ⟨hlen, hshape⟩ := generationLoop_shape d solver emc q last hargs k w r h
  rw [List.filter_eq_nil_iff]
  intro ev hmem
  obtain ⟨g, hg, hev⟩ := List.mem_flatten.1 hmem
  obtain ⟨n, hn⟩ := List.getElem?_of_mem hg
  have hnk : n < k := by
    obtain ⟨hlt, _⟩ := List.getElem?_eq_some.1 hn
    omega
  obtain ⟨g2, hg2, hs⟩ := hshape n hnk
  rw [hn] at hg2
  injection hg2 with hg2
  subst hg2
  obtain ⟨before, after, hba, _, _, hb, ha, _⟩ := genShape_order emc q last n g hs
  rw [hba] at hev
  simp only [List.mem_append, List.mem_singleton] at hev
  rcases hev with (hev | hev) | hev
  · rw [(hb ev hev).2.2.1]
    simp
  · subst hev
    simp [EstEvent.isInit]
  · rw [(ha ev hev).2.1]
    simp

/-- C26: `estimate_AMH(2)` and `estimate()` both finish, with the same events but
for the output on `cerr` (the same initialisation of the graph, the same sampler
calls with the same arguments and results, the same swaps and `replace` calls,
generation by generation) and in the same world. For every matrix kind a
finished run of `estimate_AMH` initialises the graph exactly once, with that
kind, `in` and `hn + m_uNumRefHaps`, after its two header lines and before the
events of the first generation. -/
theorem estimate_AMH_two_is_estimate {W : Type} (c : World W) (d : Driver W)
    (q : EstParams) :
    (∀ w, ∃ r1 r2, estimate_AMH c d q 2 w = .ok r1 ∧ estimate c d q w = .ok r2 ∧
        control r1.events = control r2.events ∧ r1.gens = r2.gens ∧
        r1.loopWorld = r2.loopWorld ∧ r1.world = r2.world) ∧
      ∀ (uRelMatType : Nat) (w : W) (res : EstResult W),
        estimate_AMH c d q uRelMatType w = .ok res →
          res.events.filter EstEvent.isInit =
              [EstEvent.init uRelMatType q.in_ (q.hn + q.m_uNumRefHaps)] ∧
            res.events = [EstEvent.cerr CerrLine.title_AMH, EstEvent.cerr CerrLine.header_AMH]
              ++ [EstEvent.init uRelMatType q.in_ (q.hn + q.m_uNumRefHaps)]
              ++ res.gens.flatten ++ res.tail ∧
            res.gens.length = q.bn + q.sn ∧
            res.gens.flatten.filter EstEvent.isInit = [] ∧
            res.tail.filter EstEvent.isInit = [] := by
  refine ⟨?_, ?_⟩
  · intro w
    obtain ⟨r, hr⟩ := generationLoop_total d (solveSolver c q) q LineEnd.endl
      (solveSolver_total c q) (q.bn + q.sn) (d.init 2 q.in_ (q.hn + q.m_uNumRefHaps) w)
    simp only [estimate_AMH, estimate, hr]
    refine ⟨_, _, rfl, rfl, ?_, rfl, rfl, rfl⟩
    simp [control, EstResult.events, List.filter_append, EstEvent.isCerr]
  · intro uRelMatType w res h
    simp only [estimate_AMH] at h
    split at h
    · exact absurd h (by simp)
    next r hr =>
      injection h with h
      subst h
      have hno := generationLoop_no_init d (solveSolver c q) false q LineEnd.endl
        (fun n i w1 r1 => solveSolver_args c q n i _ w1 r1) _ _ _ hr
      have hlen := (generationLoop_shape d (solveSolver c q) false q LineEnd.endl
        (fun n i w1 r1 => solveSolver_args c q n i _ w1 r1) _ _ _ hr).1
      refine ⟨?_, ?_, hlen, hno, ?_⟩
      · simp only [EstResult.events, List.filter_append, hno]
        simp [EstEvent.isInit]
      · simp [EstResult.events]
      · simp [EstEvent.isInit]

/-- C26 on the counter world, with a burn-in of one generation and two
generations of sampling on two individuals: `estimate_AMH(2)` and `estimate()`
agree; `estimate_AMH(1)` initialises the graph once, with kind `1`, and ends in
another world than `estimate()`, the counter driver keeping the kind. -/
theorem estimate_AMH_two_is_estimate_witness :
    (∃ r1 r2, estimate_AMH counterWorld counterDriver estParams3 2 0 = .ok r1 ∧
        estimate counterWorld counterDriver estParams3 0 = .ok r2 ∧
        control r1.events = control r2.events ∧ r1.world = r2.world) ∧
      (∃ res, estimate_AMH counterWorld counterDriver estParams3 1 7 = .ok res ∧
        res.events.filter EstEvent.isInit = [EstEvent.init 1 2 4]) ∧
      (estimate_AMH counterWorld counterDriver estParams3 1 0).toOption.map
          (fun r => r.world) ≠
        (estimate counterWorld counterDriver estParams3 0).toOption.map (fun r => r.world) := by
  refine ⟨?_, ?_, by decide!⟩
  · obtain ⟨r1, r2, h1, h2, h3, _, _, h4⟩ :=
      (estimate_AMH_two_is_estimate counterWorld counterDriver estParams3).1 0
    exact ⟨r1, r2, h1, h2, h3, h4⟩
  · obtain ⟨res, h⟩ := estimate_AMH_total counterWorld counterDriver estParams3 1 7
    exact ⟨res, h,
      ((estimate_AMH_two_is_estimate counterWorld counterDriver estParams3).2 1 7 res h).1⟩

/-! ## The reference panel loader: the alleles of the haplotypes file -/

theorem hapsTokens_bad (f : String) (u : Nat) :
    ∀ (ts : List String) (i : Nat) (w : List (Nat × Nat × Bool)),
      (∃ t ∈ ts, ¬ AlleleOK t) → hapsTokens f u ts i w = .error (.throw1 f u) := by
  intro ts
  induction ts with
  | nil =>
    intro i w h
    obtain ⟨t, ht, _⟩ := h
    simp at ht
  | cons t rest ih =>
    intro i w h
    have hrest : ¬ AlleleOK t ∨ ∃ t2 ∈ rest, ¬ AlleleOK t2 := by
      obtain ⟨t2, ht2, hbad⟩ := h
      rcases List.mem_cons.1 ht2 with heq | hm
      · subst heq
        exact Or.inl hbad
      · exact Or.inr ⟨t2, hm, hbad⟩
    rw [hapsTokens]
    by_cases h0 : atoi t = 0
    · rw [if_pos (by simp [h0])]
      rcases hrest with hb | hr
      · exact absurd (Or.inl h0) hb
      · exact ih _ _ hr
    · rw [if_neg (by simp [h0])]
      by_cases h1 : atoi t = 1
      · rw [if_pos (by simp [h1])]
        rcases hrest with hb | hr
        · exact absurd (Or.inr h1) hb
        · exact ih _ _ hr
      · rw [if_neg (by simp [h1])]

theorem hapsTokens_good (f : String) (u : Nat) :
    ∀ (ts : List String) (i : Nat) (w : List (Nat × Nat × Bool)),
      (∀ t ∈ ts, AlleleOK t) → ∃ w1, hapsTokens f u ts i w = .ok w1 := by
  intro ts
  induction ts with
  | nil => exact fun i w _ => ⟨w, rfl⟩
  | cons t rest ih =>
    intro i w h
    rw [hapsTokens]
    have hrest : ∀ t2 ∈ rest, AlleleOK t2 := fun t2 hm => h t2 (List.mem_cons_of_mem _ hm)
    by_cases h0 : atoi t = 0
    · rw [if_pos (by simp [h0])]
      exact ih _ _ hrest
    · rw [if_neg (by simp [h0])]
      have h1 : atoi t = 1 := by
        rcases h t (List.mem_cons_self _ _) with h2 | h2
        · exact absurd h2 h0
        · exact h2
      rw [if_pos (by simp [h1])]
      exact ih _ _ hrest

theorem hapsTokens_ok (f : String) (u : Nat) (ts : List String) (i : Nat)
    (w w1 : List (Nat × Nat × Bool)) (h : hapsTokens f u ts i w = .ok w1) :
    ∀ t ∈ ts, AlleleOK t := by
  by_contra hcon
  push_neg at hcon
  rw [hapsTokens_bad f u ts i w hcon] at h
  cases h

theorem hapsLoop_ok (f : String) :
    ∀ (haps : List (List String)) (u m : Nat) (w : List (Nat × Nat × Bool)) (r : RefPanel),
      hapsLoop f haps u m w = .ok r → ∀ line ∈ haps, ∀ t ∈ line, AlleleOK t := by
  intro haps
  induction haps with
  | nil =>
    intro u m w r _ line hl
    simp at hl
  | cons tokens rest ih =>
    intro u m w r h line hl
    rw [hapsLoop] at h
    generalize (if ((u + 1) % uintSize == 1) = true then tokens.length else m) = m1 at h
    by_cases hc : tokens.length = m1
    · rw [if_pos (by simp [hc])] at h
      split at h
      · cases h
      next w1 hw1 =>
        rcases List.mem_cons.1 hl with heq | hm
        · subst heq
          exact hapsTokens_ok f _ _ _ _ _ hw1
        · exact ih _ _ _ _ h line hm
    · rw [if_neg (by simp [hc])] at h
      cases h

theorem hapsLoop_bad (f : String) (c : Nat) (bad : List String) (post : List (List String))
    (hlen : bad.length = c) (hbad : ∃ t ∈ bad, ¬ AlleleOK t) :
    ∀ (pre : List (List String)) (u m : Nat) (w : List (Nat × Nat × Bool)),
      (u = 0 ∨ m = c) → u + pre.length + 1 < uintSize →
      (∀ line ∈ pre, line.length = c ∧ ∀ t ∈ line, AlleleOK t) →
        hapsLoop f (pre ++ bad :: post) u m w = .error (.throw1 f (u + pre.length + 1)) := by
  have hm1 : ∀ (u m k : Nat), (u = 0 ∨ m = c) → k = c →
      (if (u + 1 == 1) = true then k else m) = c := by
    intro u m k hu hk
    split
    · exact hk
    next hne =>
      rcases hu with h0 | h0
      · subst h0
        simp at hne
      · exact h0
  intro pre
  induction pre with
  | nil =>
    intro u m w hu hlt _
    simp only [List.length_nil, Nat.add_zero] at hlt
    rw [List.nil_append, hapsLoop]
    rw [Nat.mod_eq_of_lt hlt, hm1 u m _ hu hlen, if_pos (by simp [hlen]),
      hapsTokens_bad f _ _ _ _ hbad]
    rfl
  | cons line pre ih =>
    intro u m w hu hlt hpre
    simp only [List.length_cons] at hlt
    obtain ⟨hl1, hl2⟩ := hpre line (List.mem_cons_self _ _)
    obtain ⟨w1, hw1⟩ := hapsTokens_good f (u + 1) line 0 w hl2
    rw [List.cons_append, hapsLoop]
    rw [Nat.mod_eq_of_lt (by omega), hm1 u m _ hu hl1, if_pos (by simp [hl1]), hw1]
    dsimp only
    rw [ih (u + 1) c w1 (Or.inr rfl) (by omega)
      (fun l hmem => hpre l (List.mem_cons_of_mem _ hmem))]
    congr 2
    simp only [List.length_cons]
    omega

/-- C27: what `load_refPanel` does with the alleles of the haplotypes file. A
load that returns has found `atoi(token)` to be `0` or `1` for every token of
every line. When the legend passes, the lines before a line have its number of
columns and good tokens only, and the line has a token with another value, the
load ends in `throw 1` after the message that names the haplotypes file and the
number of that line. The tokens `2` and `-1` have another value; the token `x`
has not, `atoi` making `0` of it: the load of a file with the line `1 x 0`
returns, with allele `0` written for the token `x`. -/
theorem load_refPanel_allele_check (uint2str : Nat → String) (site : List Site)
    (m_uNumRefHaps : Nat) (legendFile hapsFile : String) (legend : List (List String)) :
    (∀ (haps : List (List String)) (r : RefPanel),
      load_refPanel uint2str site m_uNumRefHaps legendFile hapsFile legend haps = .ok r →
        ∀ line ∈ haps, ∀ t ∈ line, AlleleOK t) ∧
      (∀ (pre : List (List String)) (bad : List String) (post : List (List String)),
        legendFile.length ≠ 0 → hapsFile.length ≠ 0 →
        legendPhase uint2str site legend = .ok () →
        (∀ line ∈ pre, line.length = bad.length ∧ ∀ t ∈ line, AlleleOK t) →
        (∃ t ∈ bad, ¬ AlleleOK t) → pre.length + 1 < uintSize →
          load_refPanel uint2str site m_uNumRefHaps legendFile hapsFile legend
              (pre ++ bad :: post) = .error (.throw1 hapsFile (pre.length + 1))) ∧
      (¬ AlleleOK "2" ∧ ¬ AlleleOK "-1" ∧ atoi "x" = 0 ∧ AlleleOK "x") ∧
      load_refPanel Nat.repr sites2 0 "legend" "haps" legend2
          [["0", "1", "1"], ["1", "x", "0"]] =
        .ok { m_uNumRefHaps := 3
              writes := [(0, 0, false), (1, 0, true), (2, 0, true), (0, 1, true),
                (1, 1, false), (2, 1, false)] } := by
  refine ⟨?_, ?_, ?_, by decide⟩
  · intro haps r h
    unfold load_refPanel at h
    split at h
    · cases h
    · split at h
      · cases h
      · split at h
        · cases h
        · unfold hapsPhase at h
          split at h
          · cases h
          next r1 hr1 => exact hapsLoop_ok hapsFile haps 0 m_uNumRefHaps [] r1 hr1
  · intro pre bad post hl hh hleg hpre hbad hlt
    unfold load_refPanel
    rw [if_neg (by simpa using hl), if_neg (by simpa using hh), hleg]
    dsimp only
    unfold hapsPhase
    rw [hapsLoop_bad hapsFile bad.length bad post rfl hbad pre 0 m_uNumRefHaps []
      (Or.inl rfl) (by omega) hpre]
    simp
  · unfold AlleleOK
    decide

/-- C27 on two sites and three reference haplotypes: the second line `1 2 0` of
the haplotypes file ends the load in `throw 1` with the file name and the line
number `2`; with `x` in the place of `2` the load returns. -/
theorem load_refPanel_allele_check_witness :
    load_refPanel Nat.repr sites2 0 "legend" "haps" legend2
        ([["0", "1", "1"]] ++ ["1", "2", "0"] :: []) = .error (.throw1 "haps" 2) ∧
      (load_refPanel Nat.repr sites2 0 "legend" "haps" legend2
        [["0", "1", "1"], ["1", "x", "0"]]).toOption.isSome = true := by
  refine ⟨?_, by decide⟩
  exact (load_refPanel_allele_check Nat.repr sites2 0 "legend" "haps" legend2).2.1
    [["0", "1", "1"]] ["1", "2", "0"] [] (by decide) (by decide) (by decide)
    (by
      intro line hl
      rw [List.mem_singleton] at hl
      subst hl
      refine ⟨rfl, ?_⟩
      unfold AlleleOK
      decide)
    ⟨"2", by simp, by unfold AlleleOK; decide⟩ (by decide)

/-! ## The reference panel loader: the legend file -/

theorem headerLoop_ok (tokens : List String) :
    ∀ (hs : List String) (i : Nat), headerLoop tokens hs i = .ok () →
      ∀ j, j < hs.length → tokens[i + j]? = hs[j]? := by
  intro hs
  induction hs with
  | nil => intro i _ j hj; simp at hj
  | cons h rest ih =>
    intro i hok j hj
    rw [headerLoop] at hok
    split at hok
    · cases hok
    next t ht =>
      by_cases hne : t = h
      · rw [if_neg (by simp [hne])] at hok
        cases j with
        | zero =>
          subst hne
          simpa using ht
        | succ j =>
          have := ih (i + 1) hok j (by simpa using hj)
          rw [List.getElem?_cons_succ, ← this]
          congr 1
          omega
      · rw [if_pos (by simp [hne])] at hok
        cases hok

theorem headerLoop_error (tokens : List String) :
    ∀ (hs : List String) (i : Nat) (e : LoadStop), headerLoop tokens hs i = .error e →
      LegendStop e := by
  intro hs
  induction hs with
  | nil => intro i e h; cases h
  | cons h rest ih =>
    intro i e hok
    rw [headerLoop] at hok
    split at hok
    · injection hok with hok
      subst hok
      exact Or.inr (Or.inr (Or.inr (Or.inr rfl)))
    next t ht =>
      by_cases hne : t = h
      · rw [if_neg (by simp [hne])] at hok
        exact ih _ _ hok
      · rw [if_pos (by simp [hne])] at hok
        injection hok with hok
        subst hok
        exact Or.inr (Or.inl rfl)

theorem header_take (tokens : List String)
    (h : headerLoop tokens headerTokenized 0 = .ok ()) :
    tokens.take 4 = headerTokenized := by
  have hj := headerLoop_ok tokens headerTokenized 0 h
  apply List.ext_getElem?
  intro j
  by_cases hlt : j < 4
  · have := hj j (by simpa [headerTokenized] using hlt)
    rw [Nat.zero_add] at this
    rw [List.getElem?_take_of_lt hlt, this]
  · rw [List.getElem?_eq_none (by simp; omega),
      List.getElem?_eq_none (by simp [headerTokenized]; omega)]

theorem legendLine_ok (uint2str : Nat → String) (site : List Site) (u : Nat)
    (tokens : List String) (h : legendLine uint2str site u tokens = .ok ()) :
    ∃ s, site[(u + uintSize - 2) % uintSize]? = some s ∧
      tokens[1]? = some (uint2str s.pos) := by
  unfold legendLine at h
  split at h
  · cases h
  next s hs =>
    split at h
    · cases h
    next t1 ht1 =>
      by_cases hne : t1 = uint2str s.pos
      · exact ⟨s, hs, by rw [ht1, hne]⟩
      · rw [if_pos (by simp [hne])] at h
        cases h

theorem legendLine_error (uint2str : Nat → String) (site : List Site) (u : Nat)
    (tokens : List String) (e : LoadStop)
    (h : legendLine uint2str site u tokens = .error e) : LegendStop e := by
  unfold legendLine at h
  split at h
  · injection h with h
    subst h
    exact Or.inr (Or.inr (Or.inr (Or.inr rfl)))
  · split at h
    · injection h with h
      subst h
      exact Or.inr (Or.inr (Or.inr (Or.inr rfl)))
    · split at h
      · injection h with h
        subst h
        exact Or.inl rfl
      · split at h
        · split at h
          · cases h
          · injection h with h
            subst h
            exact Or.inr (Or.inr (Or.inl rfl))
        · injection h with h
          subst h
          exact Or.inr (Or.inr (Or.inr (Or.inr rfl)))

theorem legendLoop_ok (uint2str : Nat → String) (site : List Site) :
    ∀ (lines : List (List String)) (u u1 : Nat), u + lines.length < uintSize →
      legendLoop uint2str site lines u = .ok u1 →
        u1 = u + lines.length ∧
        ∀ (j : Nat) (tokens : List String), lines[j]? = some tokens →
          (u + j = 0 → tokens.take 4 = headerTokenized) ∧
          (u + j ≠ 0 → ∃ s, site[u + j - 1]? = some s ∧
            tokens[1]? = some (uint2str s.pos)) := by
  intro lines
  induction lines with
  | nil =>
    intro u u1 _ h
    rw [legendLoop] at h
    injection h with h
    subst h
    exact ⟨rfl, fun j tokens hj => by simp at hj⟩
  | cons tokens rest ih =>
    intro u u1 hlt h
    simp only [List.length_cons] at hlt
    rw [legendLoop] at h
    have hmod : (u + 1) % uintSize = u + 1 := Nat.mod_eq_of_lt (by omega)
    rw [hmod] at h
    by_cases hu : u = 0
    · subst hu
      rw [if_pos (by simp)] at h
      split at h
      · cases h
      next hh =>
        obtain ⟨h1, h2⟩ := ih _ _ (by omega) h
        refine ⟨by rw [h1, List.length_cons]; omega, ?_⟩
        intro j tk hj
        cases j with
        | zero =>
          simp only [List.getElem?_cons_zero, Option.some.injEq] at hj
          subst hj
          exact ⟨fun _ => header_take _ hh, fun hne => absurd rfl hne⟩
        | succ j =>
          simp only [List.getElem?_cons_succ] at hj
          obtain ⟨_, hb⟩ := h2 j tk hj
          refine ⟨fun h0 => by omega, fun _ => ?_⟩
          obtain ⟨s, hs1, hs2⟩ := hb (by omega)
          refine ⟨s, ?_, hs2⟩
          rw [← hs1]
          congr 1
          omega
    · rw [if_neg (by simpa using hu)] at h
      split at h
      · cases h
      next hl =>
        obtain ⟨h1, h2⟩ := ih _ _ (by omega) h
        refine ⟨by rw [h1, List.length_cons]; omega, ?_⟩
        intro j tk hj
        cases j with
        | zero =>
          simp only [List.getElem?_cons_zero, Option.some.injEq] at hj
          subst hj
          refine ⟨fun h0 => by omega, fun _ => ?_⟩
          obtain ⟨s, hs1, hs2⟩ := legendLine_ok _ _ _ _ hl
          have h3 : u + 1 + uintSize - 2 = u - 1 + uintSize := by omega
          have h4 : u - 1 < uintSize := by omega
          rw [h3, Nat.add_mod_right, Nat.mod_eq_of_lt h4] at hs1
          refine ⟨s, ?_, hs2⟩
          simpa using hs1
        | succ j =>
          simp only [List.getElem?_cons_succ] at hj
          obtain ⟨_, hb⟩ := h2 j tk hj
          refine ⟨fun h0 => by omega, fun _ => ?_⟩
          obtain ⟨s, hs1, hs2⟩ := hb (by omega)
          refine ⟨s, ?_, hs2⟩
          rw [← hs1]
          congr 1
          omega

theorem legendLoop_error (uint2str : Nat → String) (site : List Site) :
    ∀ (lines : List (List String)) (u : Nat) (e : LoadStop),
      legendLoop uint2str site lines u = .error e → LegendStop e := by
  intro lines
  induction lines with
  | nil => intro u e h; cases h
  | cons tokens rest ih =>
    intro u e h
    rw [legendLoop] at h
    split at h
    · split at h
      next x hx =>
        injection h with h
        subst h
        exact headerLoop_error _ _ _ _ hx
      · exact ih _ _ h
    · split at h
      next x hx =>
        injection h with h
        subst h
        exact legendLine_error _ _ _ _ _ hx
      · exact ih _ _ h

theorem uintSize_pred_mod : (0 + uintSize - 1) % uintSize = uintSize - 1 := by
  norm_num [uintSize]

theorem legendPhase_error (uint2str : Nat → String) (site : List Site)
    (legend : List (List String)) (e : LoadStop)
    (h : legendPhase uint2str site legend = .error e) : LegendStop e := by
  unfold legendPhase at h
  split at h
  next x hx =>
    injection h with h
    subst h
    exact legendLoop_error _ _ _ _ _ hx
  · split at h
    · cases h
    · injection h with h
      subst h
      exact Or.inr (Or.inr (Or.inr (Or.inl rfl)))

theorem legendPhase_aligned (uint2str : Nat → String) (site : List Site)
    (legend : List (List String)) (hlt : legend.length < uintSize) (hne : legend ≠ [])
    (h : legendPhase uint2str site legend = .ok ()) : ¬ Misaligned uint2str site legend := by
  have hpos : 0 < legend.length := List.length_pos.2 hne
  unfold legendPhase at h
  split at h
  · cases h
  next u hu =>
    obtain ⟨h1, h2⟩ := legendLoop_ok uint2str site legend 0 u (by omega) hu
    rw [Nat.zero_add] at h1
    subst h1
    by_cases hc : site.length = (legend.length + uintSize - 1) % uintSize
    · have h3 : legend.length + uintSize - 1 = legend.length - 1 + uintSize := by omega
      have h4 : legend.length - 1 < uintSize := by omega
      rw [h3, Nat.add_mod_right, Nat.mod_eq_of_lt h4] at hc
      intro hmis
      rcases hmis with ⟨tokens, ht, hbad⟩ | ⟨k, tokens, s, hk, hs, hbad⟩ | hcount
      · rw [List.head?_eq_getElem?] at ht
        exact hbad ((h2 0 tokens ht).1 rfl)
      · obtain ⟨s1, hs1, hs2⟩ := (h2 (k + 1) tokens hk).2 (by omega)
        have hidx : 0 + (k + 1) - 1 = k := by omega
        rw [hidx, hs] at hs1
        injection hs1 with hs1
        subst hs1
        exact hbad hs2
      · rw [List.length_tail] at hcount
        exact hcount hc.symm
    · rw [if_neg (by simpa using hc)] at h
      cases h

theorem load_refPanel_of_legend_fail (uint2str : Nat → String) (site : List Site)
    (m_uNumRefHaps : Nat) (legendFile hapsFile : String) (legend haps : List (List String))
    (h : legendPhase uint2str site legend ≠ .ok ()) :
    ∃ e, load_refPanel uint2str site m_uNumRefHaps legendFile hapsFile legend haps =
      .error e ∧ LegendStop e := by
  unfold load_refPanel
  split
  · exact ⟨_, rfl, Or.inl rfl⟩
  · split
    · exact ⟨_, rfl, Or.inl rfl⟩
    · split
      next x hx => exact ⟨x, rfl, legendPhase_error _ _ _ _ hx⟩
      next hx => exact absurd hx h

/-- C28: what `load_refPanel` does with a legend that is not aligned with the
loaded sites. For a legend of fewer than `2 ^ 32` lines that has a line, or for
any number of sites but `2 ^ 32 - 1`, the load stops with `exit(1)`, `exit(2)`,
a failed assertion or an index out of range, and does not return. For an empty
legend file and `2 ^ 32 - 1` loaded sites the line counter is `0`, `uLineNum -
1` is `2 ^ 32 - 1`, the assertion on the number of positions holds and the load
goes on with the haplotypes file: it returns on the haplotypes line `0 1`. -/
theorem load_refPanel_legend_check (uint2str : Nat → String) (site : List Site)
    (m_uNumRefHaps : Nat) (legendFile hapsFile : String) :
    (∀ legend haps : List (List String), legend.length < uintSize →
      (legend ≠ [] ∨ site.length ≠ uintSize - 1) → Misaligned uint2str site legend →
        ∃ e, load_refPanel uint2str site m_uNumRefHaps legendFile hapsFile legend haps =
          .error e ∧ LegendStop e) ∧
      (∀ haps : List (List String), site.length = uintSize - 1 →
        legendFile.length ≠ 0 → hapsFile.length ≠ 0 →
          Misaligned uint2str site [] ∧
          load_refPanel uint2str site m_uNumRefHaps legendFile hapsFile [] haps =
            hapsPhase hapsFile m_uNumRefHaps haps) ∧
      load_refPanel Nat.repr (List.replicate (uintSize - 1) { pos := 0, all := "" }) 0
          "legend" "haps" [] [["0", "1"]] =
        .ok { m_uNumRefHaps := 2, writes := [(0, 0, false), (1, 0, true)] } := by
  have hempty : ∀ (u2s : Nat → String) (st : List Site) (m : Nat) (lf hf : String)
      (haps : List (List String)), st.length = uintSize - 1 →
      lf.length ≠ 0 → hf.length ≠ 0 →
        load_refPanel u2s st m lf hf [] haps = hapsPhase hf m haps := by
    intro u2s st m lf hf haps hlen hl hh
    unfold load_refPanel
    rw [if_neg (by simpa using hl), if_neg (by simpa using hh)]
    have : legendPhase u2s st [] = .ok () := by
      unfold legendPhase
      rw [legendLoop]
      dsimp only
      rw [uintSize_pred_mod, if_pos (by simp [hlen])]
    rw [this]
  refine ⟨?_, ?_, ?_⟩
  · intro legend haps hlt hcase hmis
    apply load_refPanel_of_legend_fail
    intro hok
    by_cases hne : legend = []
    · subst hne
      rcases hcase with hc | hc
      · exact hc rfl
      · unfold legendPhase at hok
        rw [legendLoop] at hok
        dsimp only at hok
        rw [uintSize_pred_mod, if_neg (by simpa using hc)] at hok
        cases hok
    · exact legendPhase_aligned uint2str site legend hlt hne hok hmis
  · intro haps hlen hl hh
    refine ⟨Or.inr (Or.inr ?_), hempty _ _ _ _ _ haps hlen hl hh⟩
    rw [hlen]
    simp [uintSize]
  · rw [hempty _ _ _ _ _ _ (by rw [List.length_replicate]) (by decide) (by decide)]
    decide

/-- C28 on two sites: a legend whose first data line gives the position `101`
for the site at `100` stops the load, with `exit(1)`. -/
theorem load_refPanel_legend_check_witness :
    (∃ e, load_refPanel Nat.repr sites2 0 "legend" "haps"
        [["id", "position", "a0", "a1"], ["rs1", "101", "A", "C"], ["rs2", "250", "G", "T"]]
        [["0", "1"], ["1", "0"]] = .error e ∧ LegendStop e) ∧
      load_refPanel Nat.repr sites2 0 "legend" "haps"
        [["id", "position", "a0", "a1"], ["rs1", "101", "A", "C"], ["rs2", "250", "G", "T"]]
        [["0", "1"], ["1", "0"]] = .error (.exit 1) := by
  refine ⟨?_, by decide⟩
  exact (load_refPanel_legend_check Nat.repr sites2 0 "legend" "haps").1 _ _ (by decide)
    (Or.inl (by simp))
    (Or.inr (Or.inl ⟨0, ["rs1", "101", "A", "C"], { pos := 100, all := "AC" }, rfl, rfl,
      by decide⟩))

/-! ## The likelihood reader: the number of columns and of likelihoods -/

theorem glSamples_length (stof : String → Option (ℚ × Nat)) (glRetType : gl_ret_t) :
    ∀ (fields : List String) (m_gls m_gls1 : List ℚ),
      glSamples stof glRetType fields m_gls = .ok m_gls1 →
        m_gls1.length = m_gls.length + fields.length * glWidth glRetType := by
  intro fields
  induction fields with
  | nil =>
    intro m_gls m_gls1 h
    rw [glSamples] at h
    injection h with h
    subst h
    simp
  | cons field rest ih =>
    intro m_gls m_gls1 h
    rw [glSamples] at h
    split at h
    · cases h
    next het hhet =>
      split at h
      · cases h
      next homAlt hhom =>
        split at h
        · rw [ih _ _ h]
          simp only [List.length_append, List.length_cons, List.length_nil, glWidth]
          split
          · simp only [List.length_cons, List.length_nil]
            rw [Nat.add_mul]
            omega
          · simp only [List.length_nil]
            rw [Nat.add_mul]
            omega
        · cases h

theorem glLine_ok (p : GLParsers) (glRetType : gl_ret_t) (m_names : List String)
    (lineNum : Nat) (tokens : List String) (st st1 : List snp × List ℚ)
    (h : glLine p glRetType m_names lineNum tokens st = .ok st1) :
    tokens.length = 3 + m_names.length ∧ st1.1.length = st.1.length + 1 ∧
      st1.2.length = st.2.length + m_names.length * glWidth glRetType := by
  unfold glLine at h
  by_cases hc : tokens.length = 3 + m_names.length
  · rw [if_neg (by simp [hc])] at h
    refine ⟨hc, ?_⟩
    split at h
    next t0 t1 t2 _ _ _ =>
      split at h
      · cases h
      next alleles _ =>
        split at h
        · cases h
        next pos _ =>
          split at h
          · cases h
          next m_gls hg =>
            injection h with h
            subst h
            have := glSamples_length p.stof glRetType _ _ _ hg
            simp only [List.length_drop, hc] at this
            refine ⟨by simp, ?_⟩
            rw [this]
            congr 2
            omega
    · cases h
  · rw [if_pos (by simp [hc])] at h
    cases h

theorem glLine_bad (p : GLParsers) (glRetType : gl_ret_t) (m_names : List String)
    (lineNum : Nat) (tokens : List String) (st : List snp × List ℚ)
    (h : tokens.length ≠ 3 + m_names.length) :
    glLine p glRetType m_names lineNum tokens st =
      .error (.columns lineNum (3 + m_names.length)) := by
  unfold glLine
  rw [if_pos (by simp [h])]

theorem glLoop_ok (p : GLParsers) (glRetType : gl_ret_t) (m_names : List String) :
    ∀ (lines : List (List String)) (lineNum : Nat) (st st1 : List snp × List ℚ),
      glLoop p glRetType m_names lines lineNum st = .ok st1 →
        st1.1.length = st.1.length + lines.length ∧
        st1.2.length = st.2.length + lines.length * m_names.length * glWidth glRetType ∧
        ∀ line ∈ lines, line.length = 3 + m_names.length := by
  intro lines
  induction lines with
  | nil =>
    intro lineNum st st1 h
    rw [glLoop] at h
    injection h with h
    subst h
    simp
  | cons tokens rest ih =>
    intro lineNum st st1 h
    rw [glLoop] at h
    split at h
    · cases h
    next st2 h2 =>
      obtain ⟨a1, a2, a3⟩ := glLine_ok p glRetType m_names _ tokens st st2 h2
      obtain ⟨b1, b2, b3⟩ := ih _ _ _ h
      refine ⟨by rw [b1, a2, List.length_cons]; omega, ?_, ?_⟩
      · rw [b2, a3, List.length_cons, Nat.add_mul, Nat.add_mul, Nat.one_mul]
        omega
      · intro line hl
        rcases List.mem_cons.1 hl with heq | hm
        · subst heq
          exact a1
        · exact b3 line hm

theorem glLoop_first_bad (p : GLParsers) (glRetType : gl_ret_t) (m_names : List String)
    (bad : List String) (post : List (List String))
    (hbad : bad.length ≠ 3 + m_names.length) :
    ∀ (pre : List (List String)) (lineNum : Nat) (st st1 : List snp × List ℚ),
      glLoop p glRetType m_names pre lineNum st = .ok st1 →
        glLoop p glRetType m_names (pre ++ bad :: post) lineNum st =
          .error (.columns (lineNum + pre.length + 1) (3 + m_names.length)) := by
  intro pre
  induction pre with
  | nil =>
    intro lineNum st st1 _
    rw [List.nil_append, glLoop, glLine_bad p glRetType m_names _ bad st hbad]
    rfl
  | cons tokens rest ih =>
    intro lineNum st st1 h
    rw [glLoop] at h
    split at h
    · cases h
    next st2 h2 =>
      rw [List.cons_append, glLoop, h2]
      dsimp only
      rw [ih _ _ _ h, List.length_cons]
      congr 2
      omega

/-- C29, as stated, fails: in the file whose data lines `2` and `3` both have too
few fields for the two samples, line `3` has three fields and not five, yet the
error that `LoadSTBinGLs` throws names line `2`, the first line it rejects. -/
theorem LoadSTBinGLs_names_first_rejected_line :
    glNames [] glFileShort = .ok ["s1", "s2"] ∧
      (glFileShort.map (fun lines => lines[3 - 1]?)) = some (some ["20", "250", "GT"]) ∧
      ["20", "250", "GT"].length ≠ 3 + ["s1", "s2"].length ∧
      LoadSTBinGLs toyParsers gl_ret_t.ST_DROP_FIRST [] glFileShort glFileShort =
        .error (.columns 2 5) ∧
      LoadSTBinGLs toyParsers gl_ret_t.ST_DROP_FIRST [] glFileShort glFileShort ≠
        .error (.columns 3 5) := by
  refine ⟨by decide, by decide, by decide, by decide!, by decide!⟩

/-- C29 (amended): when the names are there, the data lines before line `L` are
all accepted and line `L` has a number of fields other than `3 + m`, for the `m`
sample names, `LoadSTBinGLs` throws the error that names line `L` and the
number `3 + m`; the data lines being numbered from `2`, line `L` is the one
after `pre` with `L = pre.length + 2`. When `LoadSTBinGLs` returns, every one of
the `s` data lines has `3 + m` fields, `m_sites` has `s` entries and `m_gls` has
`s * m * 2` entries for `ST_DROP_FIRST` and `s * m * 3` for `STANDARD`. -/
theorem LoadSTBinGLs_columns (p : GLParsers) (glRetType : gl_ret_t)
    (m_names : List String) (nameFile : GLFile) (lines : List (List String)) :
    (∀ (names : List String) (pre : List (List String)) (bad : List String)
        (post : List (List String)) (st : List snp × List ℚ),
      glNames m_names nameFile = .ok names → lines.tail = pre ++ bad :: post →
      glLoop p glRetType names pre 1 ([], []) = .ok st →
      bad.length ≠ 3 + names.length →
        LoadSTBinGLs p glRetType m_names nameFile (some lines) =
          .error (.columns (pre.length + 2) (3 + names.length))) ∧
      (∀ st : GLState, LoadSTBinGLs p glRetType m_names nameFile (some lines) = .ok st →
        glNames m_names nameFile = .ok st.m_names ∧
        (∀ line ∈ lines.tail, line.length = 3 + st.m_names.length) ∧
        st.m_sites.length = lines.tail.length ∧
        st.m_gls.length = lines.tail.length * st.m_names.length * glWidth glRetType) ∧
      glWidth gl_ret_t.ST_DROP_FIRST = 2 ∧ glWidth gl_ret_t.STANDARD = 3 := by
  refine ⟨?_, ?_, rfl, rfl⟩
  · intro names pre bad post st hn hl hpre hbad
    unfold LoadSTBinGLs
    rw [hn]
    dsimp only
    rw [hl, glLoop_first_bad p glRetType names bad post hbad pre 1 ([], []) st hpre]
    dsimp only
    congr 2
    omega
  · intro st h
    unfold LoadSTBinGLs at h
    split at h
    · cases h
    next names hn =>
      dsimp only at h
      split at h
      · cases h
      next st1 hst1 =>
        injection h with h
        subst h
        obtain ⟨h1, h2, h3⟩ := glLoop_ok p glRetType names _ _ _ _ hst1
        exact ⟨hn, h3, by simpa using h1, by simpa using h2⟩

/-- C29 (amended) on a file for two samples with two good data lines and a
third one of three fields: the error names line `4` and the five columns
expected; without the third line eight likelihoods are returned for
`ST_DROP_FIRST`. -/
theorem LoadSTBinGLs_columns_witness :
    LoadSTBinGLs toyParsers gl_ret_t.ST_DROP_FIRST [] glFile2
        (some [["chr", "pos", "allele", "s1", "s2"], ["20", "100", "AC", "0 1", "1 0"],
          ["20", "250", "GT", "0 0", "0 1"], ["20", "300", "AG"]]) =
        .error (.columns (2 + 2) (3 + 2)) ∧
      ∃ st, LoadSTBinGLs toyParsers gl_ret_t.ST_DROP_FIRST [] glFile2
          (some [["chr", "pos", "allele", "s1", "s2"], ["20", "100", "AC", "0 1", "1 0"],
            ["20", "250", "GT", "0 0", "0 1"]]) = .ok st ∧
        st.m_gls.length = 2 * 2 * 2 ∧ st.m_gls = [0, 1, 1, 0, 0, 0, 0, 1] := by
  refine ⟨?_, ?_⟩
  · exact (LoadSTBinGLs_columns toyParsers gl_ret_t.ST_DROP_FIRST [] glFile2
      [["chr", "pos", "allele", "s1", "s2"], ["20", "100", "AC", "0 1", "1 0"],
        ["20", "250", "GT", "0 0", "0 1"], ["20", "300", "AG"]]).1 ["s1", "s2"]
      [["20", "100", "AC", "0 1", "1 0"], ["20", "250", "GT", "0 0", "0 1"]]
      ["20", "300", "AG"] []
      ([{ chr := "20", pos := 100, ref := "A", alt := "C" },
        { chr := "20", pos := 250, ref := "G", alt := "T" }], [0, 1, 1, 0, 0, 0, 0, 1])
      (by decide) rfl (by decide!) (by decide)
  · obtain ⟨st, h⟩ := exists_ok_of_isSome
      (LoadSTBinGLs toyParsers gl_ret_t.ST_DROP_FIRST [] glFile2
        (some [["chr", "pos", "allele", "s1", "s2"], ["20", "100", "AC", "0 1", "1 0"],
          ["20", "250", "GT", "0 0", "0 1"]])) (by decide!)
    obtain ⟨hn, _, _, hg⟩ := (LoadSTBinGLs_columns toyParsers gl_ret_t.ST_DROP_FIRST []
      glFile2 [["chr", "pos", "allele", "s1", "s2"], ["20", "100", "AC", "0 1", "1 0"],
        ["20", "250", "GT", "0 0", "0 1"]]).2.1 st h
    have hnames : st.m_names = ["s1", "s2"] := by
      have h0 : glNames [] glFile2 = .ok ["s1", "s2"] := by decide
      rw [h0] at hn
      injection hn with hn
      exact hn.symm
    have hv : (LoadSTBinGLs toyParsers gl_ret_t.ST_DROP_FIRST [] glFile2
        (some [["chr", "pos", "allele", "s1", "s2"], ["20", "100", "AC", "0 1", "1 0"],
          ["20", "250", "GT", "0 0", "0 1"]])).toOption.map (fun s => s.m_gls) =
        some [0, 1, 1, 0, 0, 0, 0, 1] := by decide!
    rw [h] at hv
    refine ⟨st, h, ?_, by simpa [Except.toOption] using hv⟩
    rw [hg, hnames]
    rfl

/-! ## The Metropolis sampler: the kick start and the notifications of the graph -/

theorem sampleFlags_append (a b : List Call) :
    sampleFlags (a ++ b) = sampleFlags a ++ sampleFlags b := by
  induction a with
  | nil => rfl
  | cons x rest ih => cases x <;> simp [sampleFlags, ih]

theorem updateCalls_append (a b : List Call) :
    updateCalls (a ++ b) = updateCalls a ++ updateCalls b := by
  induction a with
  | nil => rfl
  | cons x rest ih => cases x <;> simp [updateCalls, ih]

theorem solveTest_no_sample {W : Type} (c : World W) (curr prop pen : ℚ) (w : W) :
    sampleFlags (solveTest c curr prop pen w).2.2 = [] ∧
      updateCalls (solveTest c curr prop pen w).2.2 = [] := by
  unfold solveTest
  by_cases h : prop > curr
  · simp [h, sampleFlags, updateCalls]
  · simp [h, sampleFlags, updateCalls]

theorem solvePropose_refOnly {W : Type} (c : World W) (kick : Bool) (I n : Nat)
    (s : SolveState W) :
    (solvePropose c kick I n s).refOnly = (kick && n == 0) ∧
      (solvePropose c kick I n s).p =
        Function.update s.p (slot (c.gsl_rng_get s.world).1)
          (c.SampleHap I (kick && n == 0) (c.gsl_rng_get s.world).2).1 := by
  unfold solvePropose
  dsimp only
  cases h : (kick && n == 0)
  · simp [SampleHap_default]
  · simp

theorem solveStep_sampleFlags {W : Type} (c : World W) (kick : Bool) (iter I : Nat)
    (pen : ℚ) (n : Nat) (s : SolveState W) :
    sampleFlags (solveStep c kick iter I pen n s).calls =
      sampleFlags s.calls ++ [kick && n == 0] := by
  have h := (solveTest_no_sample c s.curr (solvePropose c kick I n s).prop pen
    (solvePropose c kick I n s).world).1
  have hr := (solvePropose_refOnly c kick I n s).1
  unfold solveStep
  dsimp only
  rw [sampleFlags_append, sampleFlags_append, sampleFlags_append, sampleFlags_append, h, hr]
  cases (solveTest c s.curr (solvePropose c kick I n s).prop pen
    (solvePropose c kick I n s).world).1 <;> simp [sampleFlags]

theorem solveLoop_sampleFlags {W : Type} (c : World W) (kick : Bool) (iter I : Nat)
    (pen : ℚ) (s : SolveState W) :
    ∀ N, sampleFlags (solveLoop c kick iter I pen N s).calls =
      sampleFlags s.calls ++ (List.range N).map (fun n => kick && n == 0) := by
  intro N
  induction N with
  | zero => simp [solveLoop_zero]
  | succ N ih =>
    rw [solveLoop_succ, solveStep_sampleFlags, ih, List.range_succ, List.map_append,
      List.append_assoc]
    rfl

theorem solveStep_updateCalls {W : Type} (c : World W) (kick : Bool) (iter I : Nat)
    (pen : ℚ) (n : Nat) (s : SolveState W) :
    updateCalls (solveStep c kick iter I pen n s).calls =
      updateCalls s.calls ++
        [((solveStep c kick iter I pen n s).p, solveAccepted c kick I pen n s, I, pen)] := by
  have h := (solveTest_no_sample c s.curr (solvePropose c kick I n s).prop pen
    (solvePropose c kick I n s).world).2
  unfold solveStep solveAccepted
  dsimp only
  rw [updateCalls_append, updateCalls_append, updateCalls_append, updateCalls_append, h]
  cases (solveTest c s.curr (solvePropose c kick I n s).prop pen
    (solvePropose c kick I n s).world).1 <;> simp [updateCalls]

theorem solveLoop_updateCalls {W : Type} (c : World W) (kick : Bool) (iter I : Nat)
    (pen : ℚ) (s : SolveState W) :
    ∀ N, updateCalls (solveLoop c kick iter I pen N s).calls =
      updateCalls s.calls ++ (List.range N).map (fun k =>
        ((solveStep c kick iter I pen k (solveLoop c kick iter I pen k s)).p,
          solveAccepted c kick I pen k (solveLoop c kick iter I pen k s), I, pen)) := by
  intro N
  induction N with
  | zero => simp [solveLoop_zero]
  | succ N ih =>
    rw [solveLoop_succ, solveStep_updateCalls, ih, List.range_succ, List.map_append,
      List.append_assoc]
    rfl

/-- C31: in step `n` of `solve` the replacement is sampled with the restriction
to the reference panel exactly when the kick start is enabled and `n = 0`. The
`SampleHap` calls of a whole run are the four unrestricted calls of the set-up
followed by one call for each step `n = 0, ..., N-1`, restricted exactly when
`s_bKickStartFromRef && n == 0`; the unrestricted calls pass the default
`false`. -/
theorem solve_kickstart_first_step {W : Type} (c : World W) (kick : Bool)
    (iter I N : Nat) (pen : ℚ) (w : W) :
    (∀ (n : Nat) (s : SolveState W),
      (solvePropose c kick I n s).refOnly = (kick && n == 0) ∧
        (solvePropose c kick I n s).p =
          Function.update s.p (slot (c.gsl_rng_get s.world).1)
            (c.SampleHap I (kick && n == 0) (c.gsl_rng_get s.world).2).1) ∧
      sampleFlags (solve c kick iter I N pen w).calls =
        List.replicate 4 SampleHap_default ++ (List.range N).map (fun n => kick && n == 0) ∧
      SampleHap_default = false ∧
      (∀ n : Nat, (kick && n == 0) = true ↔ kick = true ∧ n = 0) := by
  refine ⟨fun n s => solvePropose_refOnly c kick I n s, ?_, rfl, ?_⟩
  · simp only [solve]
    rw [sampleFlags_append, solveLoop_sampleFlags]
    simp [solveInit, sampleFlags]
  · intro n
    simp

/-- C31 on the counter world: with the kick start and three steps the `SampleHap`
calls carry the flags `false` four times for the set-up, then `true` for step
`0` and `false` for the steps `1` and `2`; without the kick start no call is
restricted. -/
theorem solve_kickstart_first_step_witness :
    sampleFlags (solve counterWorld true 7 3 3 (1 / 2) 0).calls =
        [false, false, false, false, true, false, false] ∧
      sampleFlags (solve counterWorld false 7 3 3 (1 / 2) 0).calls =
        [false, false, false, false, false, false, false] :=
  ⟨(solve_kickstart_first_step counterWorld true 7 3 3 (1 / 2) 0).2.1,
    (solve_kickstart_first_step counterWorld false 7 3 3 (1 / 2) 0).2.1⟩

/-- C32: every step of `solve` makes exactly one `UpdateGraph` call, after its
accept/reject decision; a run of `N` steps makes `N` calls, the `k`-th with the
parent vector as step `k` leaves it, the flag decided in step `k`, the
individual `I` and the penalty `pen`. The vector a step leaves is the proposal
when the flag is `true` and the vector before the step when it is `false`. -/
theorem solve_notifies_graph_each_step {W : Type} (c : World W) (kick : Bool)
    (iter I N : Nat) (pen : ℚ) (w : W) :
    updateCalls (solve c kick iter I N pen w).calls =
        (List.range N).map (fun k =>
          ((solveStep c kick iter I pen k (solveLoop c kick iter I pen k (solveInit c I w))).p,
            solveAccepted c kick I pen k (solveLoop c kick iter I pen k (solveInit c I w)),
            I, pen)) ∧
      (updateCalls (solve c kick iter I N pen w).calls).length = N ∧
      (∀ (n : Nat) (s : SolveState W),
        updateCalls (solveStep c kick iter I pen n s).calls =
          updateCalls s.calls ++
            [((solveStep c kick iter I pen n s).p, solveAccepted c kick I pen n s, I, pen)]) ∧
      (∀ (n : Nat) (s : SolveState W),
        (solveAccepted c kick I pen n s = true →
          (solveStep c kick iter I pen n s).p = (solvePropose c kick I n s).p) ∧
        (solveAccepted c kick I pen n s = false →
          (solveStep c kick iter I pen n s).p = s.p)) := by
  have h1 : updateCalls (solve c kick iter I N pen w).calls =
      (List.range N).map (fun k =>
        ((solveStep c kick iter I pen k (solveLoop c kick iter I pen k (solveInit c I w))).p,
          solveAccepted c kick I pen k (solveLoop c kick iter I pen k (solveInit c I w)),
          I, pen)) := by
    simp only [solve]
    rw [updateCalls_append, solveLoop_updateCalls]
    simp [solveInit, updateCalls]
  refine ⟨h1, by rw [h1]; simp, fun n s => solveStep_updateCalls c kick iter I pen n s,
    fun n s => ⟨fun h => (solveStep_of_accepted c kick iter I pen n s h).2,
      fun h => (solveStep_of_rejected c kick iter I pen n s h).2⟩⟩

/-- C32 on the counter world, with the kick start and three steps for individual
`3`: three notifications; the first step is rejected and hands over the
vector of the set-up, `10, 11, 12, 13`, the other two are accepted. -/
theorem solve_notifies_graph_each_step_witness :
    (updateCalls (solve counterWorld true 7 3 3 (1 / 2) 0).calls).length = 3 ∧
      (updateCalls (solve counterWorld true 7 3 3 (1 / 2) 0).calls).map
          (fun x => (List.ofFn x.1, x.2.1, x.2.2.1, x.2.2.2)) =
        [([10, 11, 12, 13], false, 3, 1 / 2), ([10, 11, 12, 18], true, 3, 1 / 2),
          ([10, 20, 12, 18], true, 3, 1 / 2)] :=
  ⟨(solve_notifies_graph_each_step counterWorld true 7 3 3 (1 / 2) 0).2.1, by decide!⟩

/-! ## The evolutionary sampler: what crossover and exchange touch -/

/-- C33: when the crossover reaches its acceptance test, the two chains chosen
are distinct chains of the population, the mask `cSelection` is a number below
`16` (a deviate of the generator `& 15`), and for every slot `i` the first chain
holds the second chain's original parent `i` and the second chain the first
chain's when bit `i` of the mask is set, each its own otherwise; temperature,
selection temperature, individual, haplotype count and identifier of both
chains are those of the originals. -/
theorem crossPropose_swaps_masked_slots {W : Type} (c : World W) (e : EMCEnv)
    (fuel : Nat) (s : EMCState W) (x : Crossing W)
    (h : crossPropose c e fuel s = .ok x) :
    x.iSecondChain ≠ x.iFirstChainIndex ∧
      s.vcChains[x.iFirstChainIndex]? = some x.cFirstOrigChain ∧
      s.vcChains[x.iSecondChain]? = some x.cSecondOrigChain ∧
      ∃ cSelection : Nat, cSelection < 16 ∧
        (∃ w1, cSelection = (c.gsl_rng_get w1).1 &&& 15) ∧
        (∀ i : Fin 4, test cSelection i = cSelection.testBit i.val) ∧
        (∀ i : Fin 4, x.rcFirstChain.getParent i =
          if test cSelection i then x.cSecondOrigChain.getParent i
          else x.cFirstOrigChain.getParent i) ∧
        (∀ i : Fin 4, x.rcSecondChain.getParent i =
          if test cSelection i then x.cFirstOrigChain.getParent i
          else x.cSecondOrigChain.getParent i) ∧
        (x.rcFirstChain.m_fTemp = x.cFirstOrigChain.m_fTemp ∧
          x.rcFirstChain.m_fSelectTemp = x.cFirstOrigChain.m_fSelectTemp ∧
          x.rcFirstChain.m_uI = x.cFirstOrigChain.m_uI ∧
          x.rcFirstChain.m_uHapNum = x.cFirstOrigChain.m_uHapNum ∧
          x.rcFirstChain.m_uChainID = x.cFirstOrigChain.m_uChainID) ∧
        (x.rcSecondChain.m_fTemp = x.cSecondOrigChain.m_fTemp ∧
          x.rcSecondChain.m_fSelectTemp = x.cSecondOrigChain.m_fSelectTemp ∧
          x.rcSecondChain.m_uI = x.cSecondOrigChain.m_uI ∧
          x.rcSecondChain.m_uHapNum = x.cSecondOrigChain.m_uHapNum ∧
          x.rcSecondChain.m_uChainID = x.cSecondOrigChain.m_uChainID) := by
  unfold crossPropose at h
  dsimp only at h
  split at h
  · cases h
  next iFirst hsel =>
  split at h
  · cases h
  next r hr =>
  obtain ⟨hne, _⟩ := secondChain_spec c _ _ _ _ _ hr
  split at h
  next a b ha hb =>
    injection h with h
    subst h
    refine ⟨hne, ha, hb, (c.gsl_rng_get r.2).1 &&& 15,
      Nat.lt_succ_of_le Nat.and_le_right, ⟨r.2, rfl⟩, fun i => rfl, ?_, ?_, ?_, ?_⟩
    · intro i
      show ((crossParents _ a b).1.setLike _).getParent i = _
      rw [crossParents_eq]
      rfl
    · intro i
      show ((crossParents _ a b).2.setLike _).getParent i = _
      rw [crossParents_eq]
      rfl
    · show ((crossParents _ a b).1.setLike _).m_fTemp = _ ∧ _
      rw [crossParents_eq]
      exact ⟨rfl, rfl, rfl, rfl, rfl⟩
    · show ((crossParents _ a b).2.setLike _).m_fTemp = _ ∧ _
      rw [crossParents_eq]
      exact ⟨rfl, rfl, rfl, rfl, rfl⟩
  · cases h

/-- C33 in the counter world: the crossover from `emcState16` takes the chains
`0` and `1` and exchanges their parents of slot `1`, `3` and `7`, the mask being
`2`; the other slots stay. -/
theorem crossPropose_swaps_masked_slots_witness :
    crossPropose counterWorld emcEnv2 4 emcState16 = .ok emcCrossing16 ∧
      emcCrossing16.iSecondChain ≠ emcCrossing16.iFirstChainIndex ∧
      (∃ cSelection : Nat, cSelection < 16 ∧
        ∀ i : Fin 4, emcCrossing16.rcFirstChain.getParent i =
          if test cSelection i then emcCrossing16.cSecondOrigChain.getParent i
          else emcCrossing16.cFirstOrigChain.getParent i) ∧
      List.ofFn emcCrossing16.rcFirstChain.getParents = [2, 7, 4, 5] ∧
      List.ofFn emcCrossing16.rcSecondChain.getParents = [6, 3, 2, 3] := by
  have h : crossPropose counterWorld emcEnv2 4 emcState16 = .ok emcCrossing16 := by decide!
  obtain ⟨h1, _, _, cS, h2, _, _, h3, _⟩ :=
    crossPropose_swaps_masked_slots counterWorld emcEnv2 4 emcState16 emcCrossing16 h
  exact ⟨h, h1, ⟨cS, h2, h3⟩, by decide, by decide⟩

theorem exchange_indices_ne {W : Type} (c : World W) (e : EMCEnv) (s : EMCState W)
    (x : Exchange W)
    (hok : HierOK e.s_uParallelChains s.vcChains s.vuChainTempHierarchy)
    (hx : exchangePropose c e s = .ok x) :
    x.uFirstChainIndex ≠ x.uSecondChainIndex ∧
      x.uFirstChainHierarchyIndex ≠ x.uSecondCHI := by
  obtain ⟨_, hsec, ha, hb, hfirst, hsecond⟩ := exchangePropose_spec c e s x hx
  have hab : x.uFirstChainIndex ≠ x.uSecondChainIndex := by
    rw [hsec]; exact (exchangeSecond_ne c _ _ _).symm
  refine ⟨hab, ?_⟩
  have hnd := hierOK_nodup _ _ _ hok
  rw [List.nodup_iff_getElem?_ne_getElem?] at hnd
  intro heq
  rw [heq] at ha
  rcases Nat.lt_or_gt_of_ne hab with hlt | hgt
  · exact hnd _ _ hlt (List.getElem?_eq_some.1 hb).1 (by rw [ha, hb])
  · exact hnd _ _ hgt (List.getElem?_eq_some.1 ha).1 (by rw [ha, hb])

/-- C34: in a population whose hierarchy is in order, an exchange attempt concerns
two different ranks and two different chains. Accepted, it gives the first chain
the temperature of the second and the second the temperature of the first, and
exchanges the two entries of the hierarchy: every chain keeps its parents, its
likelihood, its identifier and its individual, every other chain and every
other entry of the hierarchy is what it was, and the counter goes up by one.
Rejected, it leaves the population, the hierarchy and the counter as they
were. -/
theorem exchange_swaps_temperatures_only {W : Type} (c : World W) (e : EMCEnv)
    (s : EMCState W) (n : Nat) (x : Exchange W)
    (hok : HierOK e.s_uParallelChains s.vcChains s.vuChainTempHierarchy)
    (hx : exchangePropose c e s = .ok x) :
    (x.uFirstChainIndex ≠ x.uSecondChainIndex ∧
        x.uFirstChainHierarchyIndex ≠ x.uSecondCHI) ∧
      ((exchangeTest c x).1 = true →
        (exchangeFinish c s n x).1.vcChains =
            (s.vcChains.set x.uFirstChainHierarchyIndex
              (x.first.setTemp x.second.m_fTemp)).set x.uSecondCHI
              (x.second.setTemp x.first.m_fTemp) ∧
          (exchangeFinish c s n x).1.vuChainTempHierarchy =
            (s.vuChainTempHierarchy.set x.uFirstChainIndex x.uSecondCHI).set
              x.uSecondChainIndex x.uFirstChainHierarchyIndex ∧
          (∀ (i : Nat) (ch : EMCChain), s.vcChains[i]? = some ch →
            ∃ ch1, (exchangeFinish c s n x).1.vcChains[i]? = some ch1 ∧
              ch1.getParents = ch.getParents ∧ ch1.getLike = ch.getLike ∧
              ch1.m_uChainID = ch.m_uChainID ∧ ch1.m_uI = ch.m_uI ∧
              (i = x.uFirstChainHierarchyIndex → ch1.m_fTemp = x.second.m_fTemp) ∧
              (i = x.uSecondCHI → ch1.m_fTemp = x.first.m_fTemp) ∧
              (i ≠ x.uFirstChainHierarchyIndex → i ≠ x.uSecondCHI → ch1 = ch)) ∧
          (exchangeFinish c s n x).1.vuChainTempHierarchy[x.uFirstChainIndex]? =
            some x.uSecondCHI ∧
          (exchangeFinish c s n x).1.vuChainTempHierarchy[x.uSecondChainIndex]? =
            some x.uFirstChainHierarchyIndex ∧
          (∀ r, r ≠ x.uFirstChainIndex → r ≠ x.uSecondChainIndex →
            (exchangeFinish c s n x).1.vuChainTempHierarchy[r]? =
              s.vuChainTempHierarchy[r]?) ∧
          (exchangeFinish c s n x).2 = n + 1) ∧
      ((exchangeTest c x).1 = false →
        (exchangeFinish c s n x).1.vcChains = s.vcChains ∧
          (exchangeFinish c s n x).1.vuChainTempHierarchy = s.vuChainTempHierarchy ∧
          (exchangeFinish c s n x).2 = n) := by
  obtain ⟨hab, hx12⟩ := exchange_indices_ne c e s x hok hx
  obtain ⟨_, _, ha, hb, hfirst, hsecond⟩ := exchangePropose_spec c e s x hx
  have hx1 : x.uFirstChainHierarchyIndex < s.vcChains.length :=
    (List.getElem?_eq_some.1 hfirst).1
  have hx2 : x.uSecondCHI < s.vcChains.length := (List.getElem?_eq_some.1 hsecond).1
  have hr1 : x.uFirstChainIndex < s.vuChainTempHierarchy.length :=
    (List.getElem?_eq_some.1 ha).1
  have hr2 : x.uSecondChainIndex < s.vuChainTempHierarchy.length :=
    (List.getElem?_eq_some.1 hb).1
  refine ⟨⟨hab, hx12⟩, ?_, ?_⟩
  · intro ht
    have hch : (exchangeFinish c s n x).1.vcChains =
        (s.vcChains.set x.uFirstChainHierarchyIndex
          (x.first.setTemp x.second.m_fTemp)).set x.uSecondCHI
          (x.second.setTemp x.first.m_fTemp) := by
      unfold exchangeFinish
      dsimp only
      rw [if_pos ht]
      exact exchangeTemps_eq _ _ _ _ _ hsecond hx12
    have hh : (exchangeFinish c s n x).1.vuChainTempHierarchy =
        (s.vuChainTempHierarchy.set x.uFirstChainIndex x.uSecondCHI).set
          x.uSecondChainIndex x.uFirstChainHierarchyIndex := by
      unfold exchangeFinish
      dsimp only
      rw [if_pos ht]
    have hn : (exchangeFinish c s n x).2 = n + 1 := by
      unfold exchangeFinish
      dsimp only
      rw [if_pos ht]
    refine ⟨hch, hh, ?_, ?_, ?_, ?_, hn⟩
    · intro i ch hi
      rw [hch]
      by_cases h2 : i = x.uSecondCHI
      · subst h2
        rw [hsecond] at hi
        injection hi with hi
        subst hi
        refine ⟨x.second.setTemp x.first.m_fTemp,
          List.getElem?_set_self (by simpa using hx2), rfl, rfl, rfl, rfl,
          fun h => absurd h.symm hx12, fun _ => rfl, fun _ h => absurd rfl h⟩
      · by_cases h1 : i = x.uFirstChainHierarchyIndex
        · subst h1
          rw [hfirst] at hi
          injection hi with hi
          subst hi
          refine ⟨x.first.setTemp x.second.m_fTemp, ?_, rfl, rfl, rfl, rfl, fun _ => rfl,
            fun h => absurd h h2, fun h _ => absurd rfl h⟩
          rw [List.getElem?_set_ne (Ne.symm h2)]
          exact List.getElem?_set_self hx1
        · refine ⟨ch, ?_, rfl, rfl, rfl, rfl, fun h => absurd h h1, fun h => absurd h h2,
            fun _ _ => rfl⟩
          rw [List.getElem?_set_ne (Ne.symm h2), List.getElem?_set_ne (Ne.symm h1)]
          exact hi
    · rw [hh, List.getElem?_set_ne (Ne.symm hab)]
      exact List.getElem?_set_self hr1
    · rw [hh]
      exact List.getElem?_set_self (by simpa using hr2)
    · intro r h1 h2
      rw [hh, List.getElem?_set_ne (Ne.symm h2), List.getElem?_set_ne (Ne.symm h1)]
  · intro ht
    unfold exchangeFinish
    dsimp only
    rw [if_neg (by simp [ht])]
    exact ⟨rfl, rfl, rfl⟩

theorem emcStateEqual_hierOK :
    HierOK emcEnv2.s_uParallelChains emcStateEqual.vcChains
      emcStateEqual.vuChainTempHierarchy := by
  refine ⟨rfl, rfl, ?_⟩
  intro r hr
  have hr2 : r < 2 := hr
  interval_cases r
  · exact ⟨0, emcChainA, rfl, rfl, by norm_num [emcChainA]⟩
  · exact ⟨1, { emcChainB with m_fCurr := 14 }, rfl, rfl, by norm_num [emcChainB]⟩

/-- C34 in the counter world: the exchange attempt from `emcStateEqual`, between
two chains of equal likelihood, is accepted; the temperatures `1` and `2`
change places and the hierarchy becomes `1, 0`, while parents, likelihoods and
identifiers stay. -/
theorem exchange_swaps_temperatures_only_witness :
    exchangePropose counterWorld emcEnv2 emcStateEqual = .ok emcExchange13 ∧
      (exchangeTest counterWorld emcExchange13).1 = true ∧
      (exchangeFinish counterWorld emcStateEqual 0 emcExchange13).1.vcChains =
        (emcStateEqual.vcChains.set 0 (emcChainA.setTemp 2)).set 1
          (({ emcChainB with m_fCurr := 14 } : EMCChain).setTemp 1) ∧
      (exchangeFinish counterWorld emcStateEqual 0 emcExchange13).1.vuChainTempHierarchy =
        [1, 0] ∧
      (exchangeFinish counterWorld emcStateEqual 0 emcExchange13).2 = 1 := by
  have hx : exchangePropose counterWorld emcEnv2 emcStateEqual = .ok emcExchange13 := by
    decide!
  have ht : (exchangeTest counterWorld emcExchange13).1 = true := by decide!
  obtain ⟨h1, h2, _, _, _, _, h7⟩ :=
    (exchange_swaps_temperatures_only counterWorld emcEnv2 emcStateEqual 0 emcExchange13
      emcStateEqual_hierOK hx).2.1 ht
  exact ⟨hx, ht, h1, h2, h7⟩

/-! ## The evolutionary sampler: the two ranks of an exchange attempt -/

theorem exchangeSecond_spec {W : Type} (c : World W) (P a : Nat) (w : W) (hP : 2 ≤ P)
    (ha : a < P) :
    (exchangeSecond c P a w).1 < P ∧
      (a = (exchangeSecond c P a w).1 + 1 ∨ (exchangeSecond c P a w).1 = a + 1) ∧
      (a = 0 → (exchangeSecond c P a w).1 = 1) ∧
      (a = P - 1 → (exchangeSecond c P a w).1 = P - 2) ∧
      (a ≠ 0 → a ≠ P - 1 →
        (exchangeSecond c P a w).1 =
          if (c.gsl_rng_get w).1 &&& 1 ≠ 0 then a - 1 else a + 1) := by
  by_cases h0 : a = 0
  · have hval : (exchangeSecond c P a w).1 = a + 1 := by
      unfold exchangeSecond
      rw [if_pos (by simpa using h0)]
    rw [hval]
    exact ⟨by omega, Or.inr rfl, fun _ => by omega, fun h => by omega,
      fun h => absurd h0 h⟩
  · by_cases h1 : a = P - 1
    · have hval : (exchangeSecond c P a w).1 = P - 2 := by
        unfold exchangeSecond
        rw [if_neg (by simpa using h0), if_pos (by simpa using h1)]
      rw [hval]
      exact ⟨by omega, Or.inl (by omega), fun h => absurd h h0, fun _ => rfl,
        fun _ h => absurd h1 h⟩
    · have hval : (exchangeSecond c P a w).1 =
          if (c.gsl_rng_get w).1 &&& 1 ≠ 0 then a - 1 else a + 1 := by
        unfold exchangeSecond
        rw [if_neg (by simpa using h0), if_neg (by simpa using h1)]
        by_cases hb : (c.gsl_rng_get w).1 &&& 1 = 0
        · simp [hb]
        · have hbne : ((c.gsl_rng_get w).1 &&& 1 != 0) = true := by simpa using hb
          rw [if_pos hbne, if_pos hb]
      rw [hval]
      refine ⟨?_, ?_, fun h => absurd h h0, fun h => absurd h h1, fun _ _ => rfl⟩
      · split <;> omega
      · split
        · exact Or.inl (by omega)
        · exact Or.inr rfl

/-- C35: with at least two chains, whatever the generator returns, an exchange
attempt takes the first rank `a = gsl_rng_get(rng) % s_uParallelChains` below
the number of chains and a second rank `b` below it too, next to `a`: `1` for
`a = 0`, `s_uParallelChains - 2` for the last rank, else `a - 1` or `a + 1` by
the lowest bit of one more deviate. Both lookups in a hierarchy of that length
find an entry, and in a population whose hierarchy is in order the attempt
reaches its test. With one chain the first rank is `0`, the second rank is `1`,
and the lookup of the second rank is past the end of the hierarchy. -/
theorem exchange_ranks_adjacent {W : Type} (c : World W) (e : EMCEnv) :
    (∀ w : W, 2 ≤ e.s_uParallelChains →
      (c.gsl_rng_get w).1 % e.s_uParallelChains < e.s_uParallelChains ∧
        (exchangeSecond c e.s_uParallelChains
          ((c.gsl_rng_get w).1 % e.s_uParallelChains) (c.gsl_rng_get w).2).1 <
            e.s_uParallelChains ∧
        ((c.gsl_rng_get w).1 % e.s_uParallelChains =
            (exchangeSecond c e.s_uParallelChains
              ((c.gsl_rng_get w).1 % e.s_uParallelChains) (c.gsl_rng_get w).2).1 + 1 ∨
          (exchangeSecond c e.s_uParallelChains
              ((c.gsl_rng_get w).1 % e.s_uParallelChains) (c.gsl_rng_get w).2).1 =
            (c.gsl_rng_get w).1 % e.s_uParallelChains + 1) ∧
        ((c.gsl_rng_get w).1 % e.s_uParallelChains = 0 →
          (exchangeSecond c e.s_uParallelChains
            ((c.gsl_rng_get w).1 % e.s_uParallelChains) (c.gsl_rng_get w).2).1 = 1) ∧
        ((c.gsl_rng_get w).1 % e.s_uParallelChains = e.s_uParallelChains - 1 →
          (exchangeSecond c e.s_uParallelChains
            ((c.gsl_rng_get w).1 % e.s_uParallelChains) (c.gsl_rng_get w).2).1 =
              e.s_uParallelChains - 2) ∧
        ((c.gsl_rng_get w).1 % e.s_uParallelChains ≠ 0 →
          (c.gsl_rng_get w).1 % e.s_uParallelChains ≠ e.s_uParallelChains - 1 →
          (exchangeSecond c e.s_uParallelChains
            ((c.gsl_rng_get w).1 % e.s_uParallelChains) (c.gsl_rng_get w).2).1 =
              if (c.gsl_rng_get (c.gsl_rng_get w).2).1 &&& 1 ≠ 0 then
                (c.gsl_rng_get w).1 % e.s_uParallelChains - 1
              else (c.gsl_rng_get w).1 % e.s_uParallelChains + 1)) ∧
      (∀ s : EMCState W, 2 ≤ e.s_uParallelChains →
        s.vuChainTempHierarchy.length = e.s_uParallelChains →
          (∃ i1, s.vuChainTempHierarchy[(c.gsl_rng_get s.world).1 % e.s_uParallelChains]? =
            some i1) ∧
          ∃ i2, s.vuChainTempHierarchy[(exchangeSecond c e.s_uParallelChains
            ((c.gsl_rng_get s.world).1 % e.s_uParallelChains)
              (c.gsl_rng_get s.world).2).1]? = some i2) ∧
      (∀ s : EMCState W, 2 ≤ e.s_uParallelChains →
        HierOK e.s_uParallelChains s.vcChains s.vuChainTempHierarchy →
          ∃ x, exchangePropose c e s = .ok x ∧
            x.uFirstChainIndex = (c.gsl_rng_get s.world).1 % e.s_uParallelChains ∧
            x.uSecondChainIndex = (exchangeSecond c e.s_uParallelChains x.uFirstChainIndex
              (c.gsl_rng_get s.world).2).1) ∧
      (∀ s : EMCState W, e.s_uParallelChains = 1 → s.vuChainTempHierarchy.length = 1 →
        (c.gsl_rng_get s.world).1 % e.s_uParallelChains = 0 ∧
          (exchangeSecond c e.s_uParallelChains 0 (c.gsl_rng_get s.world).2).1 = 1 ∧
          s.vuChainTempHierarchy[1]? = none ∧
          exchangePropose c e s = .error .outOfRange) := by
  refine ⟨?_, ?_, ?_, ?_⟩
  · intro w hP
    have ha : (c.gsl_rng_get w).1 % e.s_uParallelChains < e.s_uParallelChains :=
      Nat.mod_lt _ (by omega)
    exact ⟨ha, exchangeSecond_spec c _ _ _ hP ha⟩
  · intro s hP hlen
    have ha : (c.gsl_rng_get s.world).1 % e.s_uParallelChains < e.s_uParallelChains :=
      Nat.mod_lt _ (by omega)
    have hb := (exchangeSecond_spec c _ _ (c.gsl_rng_get s.world).2 hP ha).1
    exact ⟨⟨_, List.getElem?_eq_getElem (by omega)⟩, ⟨_, List.getElem?_eq_getElem (by omega)⟩⟩
  · intro s hP hok
    obtain ⟨_, _, hranks⟩ := hok
    have ha : (c.gsl_rng_get s.world).1 % e.s_uParallelChains < e.s_uParallelChains :=
      Nat.mod_lt _ (by omega)
    have hb := (exchangeSecond_spec c _ _ (c.gsl_rng_get s.world).2 hP ha).1
    obtain ⟨i1, ch1, hi1, hc1, _⟩ := hranks _ ha
    obtain ⟨i2, ch2, hi2, hc2, _⟩ := hranks _ hb
    unfold exchangePropose
    simp only [hi1, hi2, hc1, hc2]
    exact ⟨_, rfl, rfl, rfl⟩
  · intro s hP hlen
    have ha : (c.gsl_rng_get s.world).1 % e.s_uParallelChains = 0 := by
      rw [hP]
      exact Nat.mod_one _
    have hb : (exchangeSecond c e.s_uParallelChains 0 (c.gsl_rng_get s.world).2).1 = 1 := by
      unfold exchangeSecond
      simp
    have hnone : s.vuChainTempHierarchy[1]? = none :=
      List.getElem?_eq_none (by omega)
    refine ⟨ha, hb, hnone, ?_⟩
    have h0 : ∃ i, s.vuChainTempHierarchy[0]? = some i :=
      ⟨_, List.getElem?_eq_getElem (by omega)⟩
    obtain ⟨i, hi⟩ := h0
    unfold exchangePropose
    simp only [ha, hi, hb, hnone]

/-- C35 in the counter world: with two chains and the counter at `12` the ranks
are `0` and `1`; with one chain the attempt stops at the lookup of rank `1`. -/
theorem exchange_ranks_adjacent_witness :
    ((counterWorld.gsl_rng_get 12).1 % emcEnv2.s_uParallelChains = 0 ∧
        (exchangeSecond counterWorld emcEnv2.s_uParallelChains
          ((counterWorld.gsl_rng_get 12).1 % emcEnv2.s_uParallelChains)
            (counterWorld.gsl_rng_get 12).2).1 = 1) ∧
      exchangePropose counterWorld { emcEnv2 with s_uParallelChains := 1 }
          { vcChains := [emcChainA], vuChainTempHierarchy := [0], world := 12 } =
        .error .outOfRange := by
  obtain ⟨_, _, _, h4, _⟩ :=
    (exchange_ranks_adjacent counterWorld emcEnv2).1 12 (by decide)
  refine ⟨⟨by decide, h4 (by decide)⟩, ?_⟩
  exact ((exchange_ranks_adjacent counterWorld { emcEnv2 with s_uParallelChains := 1 }).2.2.2
    { vcChains := [emcChainA], vuChainTempHierarchy := [0], world := 12 } rfl rfl).2.2.2

/-! ## The evolutionary sampler: the mutation is always accepted -/

/-- C36: for an `exp` that is at least `1` on the non-negative numbers, deviates
below `1` and positive temperatures, the acceptance test of the mutation is
true whatever the two likelihoods are: when `prop ≤ curr` the bound
`exp((curr - prop) / T)` is at least `1`, above the deviate. So every mutation
that reaches its test ends with the proposed chain in the population, the
proposed parent in its slot and the likelihood `prop`. -/
theorem mutate_never_rejects {W : Type} (c : World W) (e : EMCEnv) (I fuel : Nat)
    (s : EMCState W) (m : Mutation W)
    (hexp : ∀ x : ℚ, 0 ≤ x → 1 ≤ c.exp x) (hu : ∀ w, (c.gsl_rng_uniform w).1 < 1)
    (hT : ∀ ch ∈ s.vcChains, 0 < ch.m_fTemp)
    (h : mutatePropose c e I fuel s = .ok m) :
    0 < m.chain.m_fTemp ∧
      (m.prop ≤ m.curr →
        1 ≤ c.exp ((m.curr - m.prop) / m.chain.m_fTemp) ∧
          (c.gsl_rng_uniform m.world).1 < c.exp ((m.curr - m.prop) / m.chain.m_fTemp)) ∧
      (mutateTest c m.curr m.prop m.chain.m_fTemp m.world).1 = true ∧
      mutate c e I fuel s = .ok (mutateFinish c s m) ∧
      (mutateFinish c s m).vcChains = s.vcChains.set m.j (m.chain.setLike m.prop) ∧
      (mutateFinish c s m).vcChains[m.j]? = some (m.chain.setLike m.prop) ∧
      (m.chain.setLike m.prop).getLike = m.prop ∧
      (m.chain.setLike m.prop).getParent m.rp = m.chain.getParent m.rp := by
  obtain ⟨ch, hch, _, _, _, _, ⟨v, hv⟩, _⟩ := mutatePropose_spec c e I fuel s m h
  have hTm : 0 < m.chain.m_fTemp := by
    rw [hv]
    exact hT ch (List.getElem?_mem hch)
  have hbound : m.prop ≤ m.curr →
      1 ≤ c.exp ((m.curr - m.prop) / m.chain.m_fTemp) ∧
        (c.gsl_rng_uniform m.world).1 < c.exp ((m.curr - m.prop) / m.chain.m_fTemp) := by
    intro hle
    have h1 : 1 ≤ c.exp ((m.curr - m.prop) / m.chain.m_fTemp) :=
      hexp _ (div_nonneg (by linarith) (le_of_lt hTm))
    exact ⟨h1, lt_of_lt_of_le (hu _) h1⟩
  have ht : (mutateTest c m.curr m.prop m.chain.m_fTemp m.world).1 = true := by
    rw [mutateTest_fst]
    by_cases hgt : m.prop > m.curr
    · exact Or.inl hgt
    · exact Or.inr (hbound (not_lt.1 hgt)).2
  have hfin := (mutateFinish_spec c e I fuel s m h).1 ht
  refine ⟨hTm, hbound, ht, ?_, hfin, ?_, rfl, rfl⟩
  · unfold mutate
    rw [h]
  · rw [hfin]
    exact List.getElem?_set_self (List.getElem?_eq_some.1 hch).1

/-- C36 in the counter world: from `emcState0` the mutation proposes haplotype
`2` for slot `1` of chain `0`, which lowers the likelihood from `14` to `13`,
and is accepted all the same: the chain holds the parents `2, 2, 4, 5` with
likelihood `13`. -/
theorem mutate_never_rejects_witness :
    mutatePropose counterWorld emcEnv2 0 4 emcState0 = .ok emcMutation0 ∧
      emcMutation0.prop ≤ emcMutation0.curr ∧
      (mutateTest counterWorld emcMutation0.curr emcMutation0.prop
        emcMutation0.chain.m_fTemp emcMutation0.world).1 = true ∧
      (mutateFinish counterWorld emcState0 emcMutation0).vcChains[emcMutation0.j]? =
        some (emcMutation0.chain.setLike emcMutation0.prop) ∧
      List.ofFn (emcMutation0.chain.setLike emcMutation0.prop).getParents = [2, 2, 4, 5] ∧
      (emcMutation0.chain.setLike emcMutation0.prop).getLike = 13 := by
  have h : mutatePropose counterWorld emcEnv2 0 4 emcState0 = .ok emcMutation0 := by decide!
  have hexp : ∀ x : ℚ, 0 ≤ x → 1 ≤ counterWorld.exp x := by
    intro x hx
    show 1 ≤ (if x < 0 then (1 / 4 : ℚ) else 1)
    rw [if_neg (not_lt.2 hx)]
  have hu : ∀ w, (counterWorld.gsl_rng_uniform w).1 < 1 := by
    intro w
    show (1 / 2 : ℚ) < 1
    norm_num
  have hT : ∀ ch ∈ emcState0.vcChains, 0 < ch.m_fTemp := by
    intro ch hmem
    simp only [emcState0, List.mem_cons, List.mem_singleton, List.not_mem_nil, or_false] at hmem
    rcases hmem with hm | hm
    · rw [hm]
      norm_num [emcChainA]
    · rw [hm]
      norm_num [emcChainB]
  obtain ⟨_, _, ht, _, _, hj, _, _⟩ :=
    mutate_never_rejects counterWorld emcEnv2 0 4 emcState0 emcMutation0 hexp hu hT h
  exact ⟨h, by decide!, ht, hj, by decide, by decide!⟩

/-! ## The evolutionary sampler: the spread -/

theorem solve_EMC_other_spread {W : Type} (c : World W) (e : EMCEnv) (I N : Nat)
    (S S2 : ℚ) (fuel : Nat) (w : W) (res : EMCResult W)
    (h : solve_EMC c e I N S fuel w = .ok res) :
    solve_EMC c e I N S2 fuel w =
      .ok { res with
            workPen := S2
            world := c.hmm_work I res.workParents S2 (c.gsl_rng_uniform res.state.world).2 } := by
  unfold solve_EMC at h ⊢
  split at h
  · cases h
  next s0 h0 =>
  split at h
  · cases h
  next s1 h1 =>
  dsimp only at h
  split at h
  · cases h
  next i hi =>
  split at h
  · cases h
  next ch hch =>
  injection h with h
  subst h
  dsimp only
  rw [hi]
  dsimp only
  rw [hch]

theorem solve_EMC_error_any_spread {W : Type} (c : World W) (e : EMCEnv) (I N : Nat)
    (S S2 : ℚ) (fuel : Nat) (w : W) (x : EMCStop)
    (h : solve_EMC c e I N S fuel w = .error x) :
    solve_EMC c e I N S2 fuel w = .error x := by
  cases h2 : solve_EMC c e I N S2 fuel w with
  | error y =>
    cases h3 : solve_EMC c e I N S fuel w with
    | error z =>
      rw [h] at h3
      unfold solve_EMC at h2 h
      split at h
      next x0 h0 =>
        rw [h0] at h2
        rw [← h2, ← h]
      next s0 h0 =>
        rw [h0] at h2
        dsimp only at h2 h
        split at h
        next x1 h1 =>
          rw [h1] at h2
          rw [← h2, ← h]
        next s1 h1 =>
          rw [h1] at h2
          dsimp only at h2 h
          split at h
          next f hf =>
            rw [hf] at h2
            rw [← h2, ← h]
          next i hi =>
            rw [hi] at h2
            dsimp only at h2 h
            split at h
            next hnone =>
              rw [hnone] at h2
              rw [← h2, ← h]
            next ch hch => cases h
    | ok r =>
      rw [h] at h3
      cases h3
  | ok r =>
    have := solve_EMC_other_spread c e I N S2 S fuel w r h2
    rw [h] at this
    cases this

/-- C37: the spread `S` of `solve_EMC` reaches the commit only. The set-up and the
iterations do not read it: a run that finishes with spread `S` finishes with any
other spread `S2` too, after the same set-up and the same iterations, with the
same population (temperatures included), the same hierarchy and the same state
of the generator, the same chain selected, the same likelihood returned and the
same parents committed; the two runs differ in the penalty handed to `hmm_work`,
`S` in one and `S2` in the other, from the same world. A run that stops with
one spread stops in the same way with the other. -/
theorem solve_EMC_spread_only_reaches_commit {W : Type} (c : World W) (e : EMCEnv)
    (I N : Nat) (S S2 : ℚ) (fuel : Nat) (w : W) :
    (∀ res : EMCResult W, solve_EMC c e I N S fuel w = .ok res →
      ∃ (res2 : EMCResult W) (s0 : EMCState W),
        solve_EMC c e I N S2 fuel w = .ok res2 ∧
        emcInit c e I fuel e.s_uParallelChains w = .ok s0 ∧
        emcLoop c e I fuel N s0 = .ok res.state ∧
        res2.state = res.state ∧
        res2.iFirstChainIndex = res.iFirstChainIndex ∧
        res2.ret = res.ret ∧ res2.workI = res.workI ∧
        res2.workParents = res.workParents ∧
        res.workPen = S ∧ res2.workPen = S2 ∧
        res.world = c.hmm_work I res.workParents S (c.gsl_rng_uniform res.state.world).2 ∧
        res2.world =
          c.hmm_work I res.workParents S2 (c.gsl_rng_uniform res.state.world).2) ∧
      (∀ x : EMCStop, solve_EMC c e I N S fuel w = .error x →
        solve_EMC c e I N S2 fuel w = .error x) := by
  refine ⟨?_, fun x h => solve_EMC_error_any_spread c e I N S S2 fuel w x h⟩
  intro res h
  obtain ⟨s0, ch, h0, h1, _, _, _, _, hp, hpen, hw⟩ := solve_EMC_spec c e I N S fuel w res h
  refine ⟨_, s0, solve_EMC_other_spread c e I N S S2 fuel w res h, h0, h1, rfl, rfl, rfl,
    rfl, rfl, hpen, rfl, ?_, rfl⟩
  rw [hw, hp]

/-- C37 in the counter world: the runs of three iterations with the spreads `1/2`
and `1` end with the same population and hierarchy, select the same chain and
return the same likelihood; the penalties of the two commits are `1/2` and
`1`. -/
theorem solve_EMC_spread_only_reaches_commit_witness :
    ∃ res res2, solve_EMC counterWorld emcEnv2 0 3 (1 / 2) 4 0 = .ok res ∧
      solve_EMC counterWorld emcEnv2 0 3 1 4 0 = .ok res2 ∧
      res2.state = res.state ∧ res2.iFirstChainIndex = res.iFirstChainIndex ∧
      res2.ret = res.ret ∧ res2.workParents = res.workParents ∧
      res.workPen = 1 / 2 ∧ res2.workPen = 1 := by
  obtain ⟨res, h⟩ := exists_ok_of_isSome
    (solve_EMC counterWorld emcEnv2 0 3 (1 / 2) 4 0) (by decide!)
  obtain ⟨res2, _, h2, _, _, h3, h4, h5, _, h6, h7, h8, _⟩ :=
    (solve_EMC_spread_only_reaches_commit counterWorld emcEnv2 0 3 (1 / 2) 1 4 0).1 res h
  exact ⟨res, res2, h, h2, h3, h4, h5, h6, h7, h8⟩

end Insti
